import Mathlib

/-!
Verification development for the blender-loom add-on (`src/loom.py`).

The subject is the frame-specification parser (`filter_frames`), the range
compactor (`rangify_frames`), missing-frame detection (`missing_frames`),
the sub-frame decomposition (`subframes`), and the render scheduler
(`LOOM_OT_render_image_sequence`).  Numbers are modelled by exact rationals
(`ℚ`); the Python `re` patterns of `filter_frames` are modelled by an
explicit backtracking matcher over `List Char` that mirrors the engine's
candidate order (greedy and lazy quantifiers, ordered alternation).
Fallible code (uncaught `IndexError` / numpy errors) is modelled with
`Except Unit`.
-/

namespace Loom

/-- The `\d` character class of the patterns in `filter_frames`
(code points 48–57). -/
def isDigitCh (c : Char) : Bool := 48 ≤ c.toNat && c.toNat ≤ 57

/-- The `\s` character class (the ASCII whitespace relevant here). -/
def isSpaceCh (c : Char) : Bool :=
  c = ' ' || c = '\t' || c = '\n' || c = '\r' || c = '\x0b' || c = '\x0c'

/-- Word characters, for the `\b` assertions of `range_pattern`. -/
def isWordCh (c : Char) : Bool :=
  isDigitCh c || (97 ≤ c.toNat && c.toNat ≤ 122) ||
    (65 ≤ c.toNat && c.toNat ≤ 90) || c = '_'

/-- One backtracking alternative of a pattern fragment: the characters it
consumes and the remaining input.  A fragment denotes a list of such
alternatives ordered by the regex engine's preference (the engine commits to
the first alternative whose continuation succeeds, which for a whole match
is simply the head of the composed list). -/
abbrev Cands := List (List Char × List Char)

/-- Sequential composition of two pattern fragments; `flatMap` realises the
engine's lexicographic backtracking order. -/
def seqC (p q : List Char → Cands) (l : List Char) : Cands :=
  (p l).flatMap fun c => (q c.2).map fun d => (c.1 ++ d.1, d.2)

/-- The empty fragment. -/
def epsC (l : List Char) : Cands := [([], l)]

/-- A literal character. -/
def litC (c : Char) (l : List Char) : Cands :=
  match l with
  | [] => []
  | d :: r => if d = c then [([d], r)] else []

/-- A character set `[...]`. -/
def setC (s : List Char) (l : List Char) : Cands :=
  match l with
  | [] => []
  | d :: r => if d ∈ s then [([d], r)] else []

/-- Greedy option `X?`: the consuming alternative is preferred. -/
def optC (p : List Char → Cands) (l : List Char) : Cands := p l ++ epsC l

/-- A single whitespace character, for `\s?`. -/
def ws1C (l : List Char) : Cands :=
  match l with
  | [] => []
  | d :: r => if isSpaceCh d then [([d], r)] else []

/-- Greedy `\s?`. -/
def wsOptC (l : List Char) : Cands := optC ws1C l

/-- Lazy `\s*?`: consumes 0, 1, 2, … whitespace characters, in that order. -/
def wsLazyC (l : List Char) : Cands :=
  let w := l.takeWhile isSpaceCh
  let r := l.dropWhile isSpaceCh
  (List.range (w.length + 1)).map fun k => (w.take k, w.drop k ++ r)

/-- Greedy `\d+`: all splits of the maximal digit run, longest first. -/
def digitsPlusC (l : List Char) : Cands :=
  let d := l.takeWhile isDigitCh
  let r := l.dropWhile isDigitCh
  (List.range d.length).map fun i =>
    (d.take (d.length - i), d.drop (d.length - i) ++ r)

/-- Greedy `\d*`: like `\d+` with the empty split tried last. -/
def digitsStarC (l : List Char) : Cands := digitsPlusC l ++ epsC l

/-- Lazy `\d*?`: the empty split first, then growing. -/
def digitsStarLazyC (l : List Char) : Cands :=
  let d := l.takeWhile isDigitCh
  let r := l.dropWhile isDigitCh
  (List.range (d.length + 1)).map fun k => (d.take k, d.drop k ++ r)

/-- Greedy `\.?`. -/
def dotOptC (l : List Char) : Cands := optC (litC '.') l

/-- Greedy `[-+]?`. -/
def signOptC (l : List Char) : Cands := optC (setC ['-', '+']) l

/-- Greedy `[\^\!]?`. -/
def caretOptC (l : List Char) : Cands := optC (setC ['^', '!']) l

/-- The `\b` assertion in the position where it occurs in `range_pattern`:
immediately after `[0-9]+`, so the preceding character is a word character
and the assertion holds iff the next character is not (or the input ends). -/
def bAfterDigitC (l : List Char) : Cands :=
  match l with
  | [] => [([], [])]
  | d :: _ => if isWordCh d then [] else [([], l)]

/-- The number fragment `\d* \.? \d+` used throughout `numeric_pattern`. -/
def numC (l : List Char) : Cands := seqC digitsStarC (seqC dotOptC digitsPlusC) l

/-- Branch 1 of `numeric_pattern`'s alternation:
`\d*\.?\d+ \s? \- \s? \d*\.?\d+ \s? [x%] \s? [-+]? \d*\.?\d+`
(range with increment). -/
def branch1C : List Char → Cands :=
  seqC numC (seqC wsOptC (seqC (litC '-') (seqC wsOptC (seqC numC
    (seqC wsOptC (seqC (setC ['x', '%']) (seqC wsOptC (seqC signOptC numC))))))))

/-- Branch 2: `\d*\.?\d+ \s? \- \s? [-+]? \d*\.?\d+` (plain range). -/
def branch2C : List Char → Cands :=
  seqC numC (seqC wsOptC (seqC (litC '-') (seqC wsOptC (seqC signOptC numC))))

/-- Branch 3: `\d* \. \d+` (fractional literal). -/
def branch3C : List Char → Cands :=
  seqC digitsStarC (seqC (litC '.') digitsPlusC)

/-- Branch 4: `\d+ \.?` (integer literal, optional trailing dot). -/
def branch4C : List Char → Cands := seqC digitsPlusC dotOptC

/-- The alternation of `numeric_pattern`, in source order. -/
def numericAltC (l : List Char) : Cands :=
  branch1C l ++ branch2C l ++ branch3C l ++ branch4C l

/-- The whole `numeric_pattern`: `[\^\!]? \s*? [-+]? (alternation)`. -/
def numericC : List Char → Cands :=
  seqC caretOptC (seqC wsLazyC (seqC signOptC numericAltC))

/-- An anchored match attempt of `numeric_pattern` at the current position:
the first alternative of the ordered candidate list. -/
def matchNumericAt (l : List Char) : Option (List Char × List Char) :=
  (numericC l).head?

/-- A fragment is sound when each alternative splits the input. -/
def SoundM (m : List Char → Cands) : Prop :=
  ∀ l a r, (a, r) ∈ m l → a ++ r = l

theorem soundM_seq {p q} (hp : SoundM p) (hq : SoundM q) : SoundM (seqC p q) := by
  intro l a r h
  simp only [seqC, List.mem_flatMap, List.mem_map] at h
  obtain ⟨⟨a₁, r₁⟩, h₁, ⟨a₂, r₂⟩, h₂, h₃⟩ := h
  cases h₃
  rw [List.append_assoc, hq _ _ _ h₂, hp _ _ _ h₁]

theorem soundM_eps : SoundM epsC := by
  intro l a r h
  simp only [epsC, List.mem_singleton, Prod.mk.injEq] at h
  simp [h.1, h.2]

theorem soundM_lit (c : Char) : SoundM (litC c) := by
  intro l a r h
  match l with
  | [] => simp [litC] at h
  | d :: t =>
    simp only [litC] at h
    split at h
    · simp only [List.mem_singleton, Prod.mk.injEq] at h
      simp [h.1, h.2]
    · simp at h

theorem soundM_set (s : List Char) : SoundM (setC s) := by
  intro l a r h
  match l with
  | [] => simp [setC] at h
  | d :: t =>
    simp only [setC] at h
    split at h
    · simp only [List.mem_singleton, Prod.mk.injEq] at h
      simp [h.1, h.2]
    · simp at h

theorem soundM_opt {p} (hp : SoundM p) : SoundM (optC p) := by
  intro l a r h
  rcases List.mem_append.mp h with h' | h'
  · exact hp _ _ _ h'
  · exact soundM_eps _ _ _ h'

theorem soundM_ws1 : SoundM ws1C := by
  intro l a r h
  match l with
  | [] => simp [ws1C] at h
  | d :: t =>
    simp only [ws1C] at h
    split at h
    · simp only [List.mem_singleton, Prod.mk.injEq] at h
      simp [h.1, h.2]
    · simp at h

theorem soundM_wsOpt : SoundM wsOptC := soundM_opt soundM_ws1

theorem soundM_take_drop_split {f : Char → Bool} {l : List Char} {k : ℕ} :
    (l.takeWhile f).take k ++ ((l.takeWhile f).drop k ++ l.dropWhile f) = l := by
  rw [← List.append_assoc, List.take_append_drop, List.takeWhile_append_dropWhile]

theorem soundM_wsLazy : SoundM wsLazyC := by
  intro l a r h
  simp only [wsLazyC, List.mem_map, List.mem_range] at h
  obtain ⟨k, _, hk⟩ := h
  cases hk
  exact soundM_take_drop_split

theorem soundM_digitsPlus : SoundM digitsPlusC := by
  intro l a r h
  simp only [digitsPlusC, List.mem_map, List.mem_range] at h
  obtain ⟨k, _, hk⟩ := h
  cases hk
  exact soundM_take_drop_split

theorem soundM_digitsStar : SoundM digitsStarC := by
  intro l a r h
  rcases List.mem_append.mp h with h' | h'
  · exact soundM_digitsPlus _ _ _ h'
  · exact soundM_eps _ _ _ h'

theorem soundM_digitsStarLazy : SoundM digitsStarLazyC := by
  intro l a r h
  simp only [digitsStarLazyC, List.mem_map, List.mem_range] at h
  obtain ⟨k, _, hk⟩ := h
  cases hk
  exact soundM_take_drop_split

theorem soundM_dotOpt : SoundM dotOptC := soundM_opt (soundM_lit '.')

theorem soundM_signOpt : SoundM signOptC := soundM_opt (soundM_set _)

theorem soundM_caretOpt : SoundM caretOptC := soundM_opt (soundM_set _)

theorem soundM_bAfterDigit : SoundM bAfterDigitC := by
  intro l a r h
  match l with
  | [] =>
    simp only [bAfterDigitC, List.mem_singleton, Prod.mk.injEq] at h
    simp [h.1, h.2]
  | d :: t =>
    simp only [bAfterDigitC] at h
    split at h
    · simp at h
    · simp only [List.mem_singleton, Prod.mk.injEq] at h
      simp [h.1, h.2]

theorem soundM_num : SoundM numC :=
  soundM_seq soundM_digitsStar (soundM_seq soundM_dotOpt soundM_digitsPlus)

theorem soundM_branch1 : SoundM branch1C :=
  soundM_seq soundM_num (soundM_seq soundM_wsOpt (soundM_seq (soundM_lit '-')
    (soundM_seq soundM_wsOpt (soundM_seq soundM_num (soundM_seq soundM_wsOpt
      (soundM_seq (soundM_set _) (soundM_seq soundM_wsOpt
        (soundM_seq soundM_signOpt soundM_num))))))))

theorem soundM_branch2 : SoundM branch2C :=
  soundM_seq soundM_num (soundM_seq soundM_wsOpt (soundM_seq (soundM_lit '-')
    (soundM_seq soundM_wsOpt (soundM_seq soundM_signOpt soundM_num))))

theorem soundM_branch3 : SoundM branch3C :=
  soundM_seq soundM_digitsStar (soundM_seq (soundM_lit '.') soundM_digitsPlus)

theorem soundM_branch4 : SoundM branch4C :=
  soundM_seq soundM_digitsPlus soundM_dotOpt

theorem soundM_numericAlt : SoundM numericAltC := by
  intro l a r h
  simp only [numericAltC] at h
  rcases List.mem_append.mp h with h' | h'
  rotate_left
  · exact soundM_branch4 _ _ _ h'
  rcases List.mem_append.mp h' with h'' | h''
  rotate_left
  · exact soundM_branch3 _ _ _ h''
  rcases List.mem_append.mp h'' with h₃ | h₃
  · exact soundM_branch1 _ _ _ h₃
  · exact soundM_branch2 _ _ _ h₃

theorem soundM_numeric : SoundM numericC :=
  soundM_seq soundM_caretOpt (soundM_seq soundM_wsLazy
    (soundM_seq soundM_signOpt soundM_numericAlt))

/-- A fragment always consumes at least one character. -/
def ConsM (m : List Char → Cands) : Prop :=
  ∀ l a r, (a, r) ∈ m l → a ≠ []

theorem consM_seq_left {p q} (hp : ConsM p) : ConsM (seqC p q) := by
  intro l a r h
  simp only [seqC, List.mem_flatMap, List.mem_map] at h
  obtain ⟨⟨a₁, r₁⟩, h₁, ⟨a₂, r₂⟩, _, h₃⟩ := h
  cases h₃
  exact fun hemp => hp _ _ _ h₁ (List.append_eq_nil.mp hemp).1

theorem consM_seq_right {p q} (hq : ConsM q) : ConsM (seqC p q) := by
  intro l a r h
  simp only [seqC, List.mem_flatMap, List.mem_map] at h
  obtain ⟨⟨a₁, r₁⟩, _, ⟨a₂, r₂⟩, h₂, h₃⟩ := h
  cases h₃
  exact fun hemp => hq _ _ _ h₂ (List.append_eq_nil.mp hemp).2

theorem consM_lit (c : Char) : ConsM (litC c) := by
  intro l a r h
  match l with
  | [] => simp [litC] at h
  | d :: t =>
    simp only [litC] at h
    split at h
    · simp only [List.mem_singleton, Prod.mk.injEq] at h
      simp [h.1]
    · simp at h

theorem consM_digitsPlus : ConsM digitsPlusC := by
  intro l a r h
  simp only [digitsPlusC, List.mem_map, List.mem_range] at h
  obtain ⟨k, hk, he⟩ := h
  cases he
  intro hemp
  rw [List.take_eq_nil_iff] at hemp
  rcases hemp with h0 | h0
  · omega
  · rw [h0] at hk
    simp at hk

theorem consM_num : ConsM numC :=
  consM_seq_right (consM_seq_right consM_digitsPlus)

theorem consM_branch1 : ConsM branch1C := consM_seq_left consM_num

theorem consM_branch2 : ConsM branch2C := consM_seq_left consM_num

theorem consM_branch3 : ConsM branch3C :=
  consM_seq_right (consM_seq_left (consM_lit '.'))

theorem consM_branch4 : ConsM branch4C := consM_seq_left consM_digitsPlus

theorem consM_numericAlt : ConsM numericAltC := by
  intro l a r h
  simp only [numericAltC] at h
  rcases List.mem_append.mp h with h' | h'
  rotate_left
  · exact consM_branch4 _ _ _ h'
  rcases List.mem_append.mp h' with h'' | h''
  rotate_left
  · exact consM_branch3 _ _ _ h''
  rcases List.mem_append.mp h'' with h₃ | h₃
  · exact consM_branch1 _ _ _ h₃
  · exact consM_branch2 _ _ _ h₃

theorem consM_numeric : ConsM numericC :=
  consM_seq_right (consM_seq_right (consM_seq_right consM_numericAlt))

theorem matchNumericAt_mem {l : List Char} {tr : List Char × List Char}
    (h : matchNumericAt l = some tr) : tr ∈ numericC l := by
  unfold matchNumericAt at h
  match hc : numericC l with
  | [] => rw [hc] at h; simp at h
  | x :: xs =>
    rw [hc] at h
    simp only [List.head?_cons, Option.some.injEq] at h
    simp [h]

theorem matchNumericAt_rest_lt {l : List Char} {tr : List Char × List Char}
    (h : matchNumericAt l = some tr) : tr.2.length < l.length := by
  have hmem : (tr.1, tr.2) ∈ numericC l := matchNumericAt_mem h
  have hsplit := soundM_numeric _ _ _ hmem
  have hcons := consM_numeric _ _ _ hmem
  have : tr.1.length + tr.2.length = l.length := by
    rw [← hsplit, List.length_append]
  have : 0 < tr.1.length := List.length_pos.mpr hcons
  omega

/-- `re.findall` of `numeric_pattern`: scan left to right, emitting each
match and resuming after it, advancing one character where no match starts. -/
def findallNumeric (l : List Char) : List (List Char) :=
  match h : matchNumericAt l with
  | some tr => tr.1 :: findallNumeric tr.2
  | none =>
    match l with
    | [] => []
    | _ :: t => findallNumeric t
termination_by l.length
decreasing_by
  · exact matchNumericAt_rest_lt h
  · simp

/-! ## Number conversion (`float`, `int`) and the numpy helpers -/

/-- Numeric value of a digit character. -/
def digitVal (c : Char) : ℕ := c.toNat - 48

/-- Value of a digit string, most significant first. -/
def parseNatDigits (l : List Char) : ℕ :=
  l.foldl (fun acc c => 10 * acc + digitVal c) 0

/-- Value of a decimal literal split at the dot. -/
def decValue (ip fp : List Char) : ℚ :=
  (parseNatDigits ip : ℚ) + (parseNatDigits fp : ℚ) / (10 : ℚ) ^ fp.length

/-- `float()` ignores surrounding whitespace. -/
def pyStrip (l : List Char) : List Char :=
  ((l.dropWhile isSpaceCh).reverse.dropWhile isSpaceCh).reverse

/-- The optional leading sign of a `float()` literal. -/
def pySign : List Char → ℚ × List Char
  | [] => (1, [])
  | c :: r => if c = '-' then (-1, r) else if c = '+' then (1, r) else (1, c :: r)

/-- The body of `float()` after the sign: digits, optionally a dot with
digits on at least one side, nothing else. -/
def pyFloatSigned (sgn : ℚ) (body : List Char) : Option ℚ :=
  let d := body.takeWhile isDigitCh
  let rest := body.dropWhile isDigitCh
  if rest = [] then
    if d = [] then none else some (sgn * (parseNatDigits d : ℚ))
  else if rest.head? = some '.' then
    let r2 := rest.tail
    if r2.dropWhile isDigitCh = [] ∧ (d ≠ [] ∨ r2.takeWhile isDigitCh ≠ []) then
      some (sgn * decValue d (r2.takeWhile isDigitCh))
    else none
  else none

/-- The body of `float()` after whitespace stripping. -/
def pyFloatBody (t : List Char) : Option ℚ :=
  pyFloatSigned (pySign t).1 (pySign t).2

/-- Python `float(st)` on the decimal forms that can occur in tokens of
`numeric_pattern` (optional surrounding whitespace, optional sign, digits
with at most one dot).  Exponent, `inf` and `nan` forms cannot occur in a
token, so they are not modelled.  `none` models `ValueError`, which
`float_filter` in the source turns into `None`. -/
def pyFloat (l : List Char) : Option ℚ := pyFloatBody (pyStrip l)

/-- `int_filter` of the source: `int(flt) if flt.is_integer() else None`. -/
def int_filter (q : ℚ) : Option ℤ :=
  if q.den = 1 then some q.num else none

/-- numpy `arange(start, stop, step)` over exact rationals; its documented
length is `ceil((stop - start) / step)`, empty when that is not positive.
A zero step makes numpy raise; callers model that before calling. -/
def arange (start stop step : ℚ) : List ℚ :=
  (List.range (((stop - start) / step).ceil.toNat)).map
    fun k : ℕ => start + (k : ℚ) * step

/-- Round half to even (the rounding of numpy `around`), exact on `ℚ`. -/
def roundHalfEven (x : ℚ) : ℤ :=
  let f := ⌊x⌋
  let r := x - f
  if r < 1 / 2 then f
  else if 1 / 2 < r then f + 1
  else if 2 ∣ f then f else f + 1

/-- numpy `around(x, decimals=5)`. -/
def around5 (x : ℚ) : ℚ := (roundHalfEven (x * 100000) : ℚ) / 100000

/-- numpy `isclose(a, b)` with its default tolerances
`rtol = 1e-05`, `atol = 1e-08`: `|a - b| ≤ atol + rtol * |b|`. -/
def npisclose (a b : ℚ) : Bool :=
  |a - b| ≤ 1 / 100000000 + (1 / 100000) * |b|

/-! ## `range_pattern` and `exclude_pattern` -/

/-- The number fragment `[-+]? \d*? \.? [0-9]+ \b` of `range_pattern`'s
start group (lazy digit star, trailing word boundary). -/
def rangeStartNumC : List Char → Cands :=
  seqC signOptC (seqC digitsStarLazyC (seqC dotOptC (seqC digitsPlusC bAfterDigitC)))

/-- The number fragment `[-+]? \d* \.? [0-9]+` of `range_pattern`'s end
group (greedy digit star, no boundary). -/
def rangeEndNumC : List Char → Cands :=
  seqC signOptC (seqC digitsStarC (seqC dotOptC digitsPlusC))

/-- The number fragment `[-+]? \d* \.? [0-9]+ \b` of `range_pattern`'s
increment group. -/
def rangeIncNumC : List Char → Cands :=
  seqC signOptC (seqC digitsStarC (seqC dotOptC (seqC digitsPlusC bAfterDigitC)))

/-- Alternatives of the optional increment group
`((\s*? [x%] \s*?)([-+]? \d* \.? [0-9]+ \b))?` of `range_pattern`; the
consuming alternatives are preferred, absence is last. -/
def incOptCandsAt (l : List Char) : List (Option (List Char) × List Char) :=
  ((wsLazyC l).flatMap fun c₁ =>
    (setC ['x', '%'] c₁.2).flatMap fun c₂ =>
      (wsLazyC c₂.2).flatMap fun c₃ =>
        (rangeIncNumC c₃.2).map fun c₄ => (some c₄.1, c₄.2))
  ++ [(none, l)]

/-- Alternatives of the whole `range_pattern` anchored at the current
position, as (group 1, group 3, optional group 6, rest). -/
def rangeCandsAt (l : List Char) :
    List (List Char × List Char × Option (List Char) × List Char) :=
  (rangeStartNumC l).flatMap fun c₁ =>
    (wsLazyC c₁.2).flatMap fun c₂ =>
      (litC '-' c₂.2).flatMap fun c₃ =>
        (wsLazyC c₃.2).flatMap fun c₄ =>
          (rangeEndNumC c₄.2).flatMap fun c₅ =>
            (incOptCandsAt c₅.2).map fun c₆ => (c₁.1, c₅.1, c₆.1, c₆.2)

/-- `rx_group.search(item)`: try `range_pattern` at each position, left to
right, returning the captured groups of the first successful position. -/
def rangeSearch : List Char → Option (List Char × List Char × Option (List Char))
  | [] => none
  | l@(_ :: t) =>
    match (rangeCandsAt l).head? with
    | some g => some (g.1, g.2.1, g.2.2.1)
    | none => rangeSearch t

/-- Alternatives of `exclude_pattern` (`[\^\!] \s*? ([-+]? \d* \.? \d+)$`)
anchored at the current position; the `$` anchor keeps only alternatives
that consume the whole remaining input. -/
def excludeCandsAt (l : List Char) : List (List Char) :=
  (setC ['^', '!'] l).flatMap fun c₁ =>
    (wsLazyC c₁.2).flatMap fun c₂ =>
      (rangeEndNumC c₂.2).filterMap fun c₃ =>
        if c₃.2 = [] then some c₃.1 else none

/-- `rx_exclude.search(item)`. -/
def excludeSearch : List Char → Option (List Char)
  | [] => none
  | l@(_ :: t) =>
    match (excludeCandsAt l).head? with
    | some g => some g
    | none => excludeSearch t

/-! ## `filter_frames` -/

/-- The value `filter_frames` returns when at least one token matched:
integers whenever every frame is integral, floats otherwise. -/
inductive FrameResult
  | ints (l : List ℤ)
  | floats (l : List ℚ)
deriving DecidableEq, Repr

/-- Accumulator of `filter_frames`' main loop. -/
structure ParseAcc where
  frame_list : List ℚ
  exclude_list : List ℚ
  conform_list : List ℚ
  conform_flag : Bool
deriving DecidableEq, Repr

/-- `item.startswith(("^", "!"))`. -/
def startsExclude (t : List Char) : Bool :=
  match t with
  | c :: _ => c = '^' || c = '!'
  | [] => false

/-- `"^" in v or "!" in v`. -/
def hasExcludeMark (t : List Char) : Bool := t.contains '^' || t.contains '!'

/-- Python `lstrip(' ')` (spaces only). -/
def lstripSpace (t : List Char) : List Char := t.dropWhile (· = ' ')

/-- The global-mode auto-exclusion of `filter_frames`: from the first
exclude-marked token onward, unmarked tokens receive a `^`.  The source
guards this with `if first_exclude_item:` — a found index of `0` is falsy
in Python, so the rewrite is skipped when the first token is the marked
one. -/
def autoExclude (toks : List (List Char)) : List (List Char) :=
  match toks.findIdx? hasExcludeMark with
  | some i =>
    if i = 0 then toks
    else
      toks.take i ++ (toks.drop i).map fun t =>
        if startsExclude t then t else '^' :: lstripSpace t
  | none => toks

/-- One iteration of `filter_frames`' token loop.  `Except Unit` models the
uncaught exceptions of the source: numpy `arange` with a zero step, and
`frame_range[-1]` on an empty expansion (negative step). -/
def procItem (filter_individual : Bool) (increment : ℚ) (acc : ParseAcc)
    (item : List Char) : Except Unit ParseAcc :=
  match pyFloat item with
  | some frame =>
    pure { acc with
      frame_list := acc.frame_list ++ [frame]
      conform_list :=
        if acc.conform_flag then acc.conform_list ++ [frame] else acc.conform_list }
  | none =>
    match excludeSearch item with
    | some g =>
      match pyFloat g with
      | some v =>
        pure { acc with
          exclude_list := acc.exclude_list ++ [v]
          conform_flag := acc.conform_flag || filter_individual }
      | none => throw ()
    | none =>
      match rangeSearch item with
      | some (g1, g3, g6) =>
        match pyFloat g1, pyFloat g3 with
        | some v1, some v3 =>
          let start := min v1 v3
          let stop := max v1 v3
          let stepOpt : Option ℚ :=
            match g6 with
            | none => some increment
            | some t => pyFloat t
          match stepOpt with
          | none => throw ()
          | some step =>
            if start < stop then
              if step = 0 then throw ()
              else
                let fr := (arange start stop step).map around5
                match fr.getLast? with
                | none => throw ()
                | some last =>
                  let tl := if npisclose step (stop - last) then [stop] else []
                  if startsExclude item then
                    pure { acc with
                      exclude_list := acc.exclude_list ++ fr ++ tl
                      conform_flag := acc.conform_flag || filter_individual }
                  else
                    pure { acc with
                      frame_list := acc.frame_list ++ fr ++ tl
                      conform_list :=
                        if acc.conform_flag then acc.conform_list ++ fr ++ tl
                        else acc.conform_list }
            else if start = stop then
              if startsExclude item then
                pure { acc with exclude_list := acc.exclude_list ++ [start] }
              else
                pure { acc with frame_list := acc.frame_list ++ [start] }
            else
              pure acc
        | _, _ => throw ()
      | none => pure acc

/-- Python `sorted(set(l))` for rationals. -/
def pySortedSet (l : List ℚ) : List ℚ := l.dedup.insertionSort (· ≤ ·)

/-- The tail of `filter_frames` after the token loop: exclusion filtering,
`sorted(set(...))`, and the int/float decision. -/
def postProcess (filter_individual : Bool) (acc : ParseAcc) : FrameResult :=
  let excl :=
    if filter_individual then
      pySortedSet (acc.exclude_list.filter fun q => decide (q ∉ acc.conform_list))
    else acc.exclude_list
  let float_frames := pySortedSet (acc.frame_list.filter fun q => decide (q ∉ excl))
  let int_frames := float_frames.map int_filter
  if none ∈ int_frames then .floats float_frames
  else .ints (float_frames.map fun q => q.num)

/-- `filter_frames(frame_input, increment, filter_individual)` of the
source.  `Except.ok none` is the `return None` of an input with no token;
`Except.error ()` models an uncaught exception. -/
def filter_frames (frame_input : String) (increment : ℚ := 1)
    (filter_individual : Bool := false) : Except Unit (Option FrameResult) :=
  let input_filtered := findallNumeric frame_input.data
  if input_filtered = [] then .ok none
  else
    let toks := if filter_individual then input_filtered else autoExclude input_filtered
    match toks.foldlM (procItem filter_individual increment) ⟨[], [], [], false⟩ with
    | .error e => .error e
    | .ok acc => .ok (some (postProcess filter_individual acc))

/-! ## `rangify_frames` and `missing_frames` -/

/-- `str(n)` for a natural number. -/
def natChars (n : ℕ) : List Char :=
  if n = 0 then ['0'] else (Nat.digits 10 n).reverse.map fun d => Char.ofNat (48 + d)

/-- `str(n)` for an integer. -/
def intChars (n : ℤ) : List Char :=
  if n < 0 then '-' :: natChars n.natAbs else natChars n.natAbs

/-- The group led by `x` and the groups after it, for itertools `groupby`. -/
def groupAdjCore (R : α → α → Bool) (x : α) : List α → List α × List (List α)
  | [] => ([x], [])
  | y :: t =>
    let p := groupAdjCore R y t
    if R x y then (x :: p.1, p.2) else ([x], p.1 :: p.2)

/-- itertools `groupby` on an already-keyed list: maximal runs of adjacent
elements related by `R` (here, key equality). -/
def groupAdj (R : α → α → Bool) : List α → List (List α)
  | [] => []
  | x :: xs => (groupAdjCore R x xs).1 :: (groupAdjCore R x xs).2

/-- `",".join(...)`. -/
def joinChars (sep : Char) : List (List Char) → List Char
  | [] => []
  | [t] => t
  | t :: ts => t ++ sep :: joinChars sep ts

/-- `'-'.join(map(str, (g[0], g[-1])[:len(g)]))`: a single number for a
1-element group, `start-end` otherwise. -/
def groupTok (g : List ℤ) : List Char :=
  match g with
  | [] => []
  | [x] => intChars x
  | x :: y :: t => intChars x ++ '-' :: intChars ((y :: t).getLastD 0)

/-- `rangify_frames(frames)` of `LOOM_OT_guess_frames` (identical in
`LOOM_OT_encode_dialog`): group by `next(c) - x`, i.e. index minus value
(constant exactly on runs of consecutive integers), then print
`(g[0], g[-1])[:len(g)]` joined by `-`: a single number for a 1-element
group, `start-end` otherwise. -/
def rangify_frames (frames : List ℤ) : List Char :=
  let keyed := frames.enum.map fun p => ((p.1 : ℤ) - p.2, p.2)
  let groups := (groupAdj (fun a b => a.1 == b.1) keyed).map fun g => g.map Prod.snd
  joinChars ',' (groups.map groupTok)

/-- `range(a, a + n)` as a list of integers. -/
def intRange (a : ℤ) (n : ℕ) : List ℤ := (List.range n).map fun k : ℕ => a + (k : ℤ)

/-- `missing_frames(frames)` of `LOOM_OT_encode_dialog`:
`sorted(set(range(frames[0], frames[-1] + 1)).difference(frames))`.
`frames[0]` raises on an empty list (modelled by `Except`); the `range`
list is sorted without duplicates, so the Python `sorted(set ...)` is its
order-preserving filter. -/
def missing_frames (frames : List ℤ) : Except Unit (List ℤ) :=
  match frames with
  | [] => throw ()
  | a :: _ =>
    let b := frames.getLastD 0
    pure ((intRange a (b + 1 - a).toNat).filter fun x => decide (x ∉ frames))

/-! ## Sub-frame decomposition and filename formatting -/

/-- The decimal reading of a Python float `repr`, as
`repr(frame).split('.')` sees it: sign, value of the integer-part digits,
and the fractional digit list.  A canonical `repr` always contains a dot,
has at least one fractional digit, and no trailing fractional zero except
the single `0` of an integral value. -/
structure DecRepr where
  neg : Bool
  ip : ℕ
  fracDigits : List ℕ
deriving DecidableEq, Repr

/-- Well-formedness of a `repr` reading: digits are digits and at least one
fractional digit is present. -/
def DecRepr.wf (d : DecRepr) : Prop :=
  d.fracDigits ≠ [] ∧ ∀ x ∈ d.fracDigits, x < 10

/-- Value of `float('.' + digits)`. -/
def fracValue (fd : List ℕ) : ℚ :=
  ((fd.foldl (fun a d : ℕ => 10 * a + d) 0 : ℕ) : ℚ) / (10 : ℚ) ^ fd.length

/-- Value denoted by a `repr` reading. -/
def DecRepr.val (d : DecRepr) : ℚ :=
  (if d.neg then -1 else 1) * ((d.ip : ℚ) + fracValue d.fracDigits)

/-- The integer `int(main_frame)` of `subframes`: the minus sign of a
negative `repr` stays on the integer-part string. -/
def DecRepr.mainInt (d : DecRepr) : ℤ :=
  if d.neg then -(d.ip : ℤ) else (d.ip : ℤ)

/-- `subframes(sub_frames)` of the scheduler:
`main, sub = repr(frame).split('.')`, then `(int(main), float('.' + sub))`. -/
def subframes (fl : List DecRepr) : List (ℤ × ℚ) :=
  fl.map fun d => (d.mainInt, fracValue d.fracDigits)

/-- A frame as queued by the scheduler: an integer frame, or a sub-frame
pair.  The pair is kept with the fractional digit string of its `repr`,
because every later use (`self._dec`, `format_subframe`, reports) goes
through `str` of the fractional value. -/
inductive SchedFrame
  | int (n : ℤ)
  | sub (main : ℤ) (fracDigits : List ℕ)
deriving DecidableEq, Repr

/-- `self._dec = max(map(lambda x: len(str(x[1]).split('.')[1]), ...))`:
the maximal fractional-digit count of the batch (`max` of a non-empty
list; the fold with 0 agrees on the non-empty lists that reach it). -/
def decWidth (frames : List SchedFrame) : ℕ :=
  (frames.map fun f =>
    match f with
    | .int _ => 0
    | .sub _ fd => fd.length).foldl max 0

/-- Python `"{n:0{w}d}"`: zero padding in which a minus sign counts toward
the width. -/
def zpad (w : ℕ) (n : ℤ) : List Char :=
  let ds := natChars n.natAbs
  if n < 0 then '-' :: (List.replicate (w - 1 - ds.length) '0' ++ ds)
  else List.replicate (w - ds.length) '0' ++ ds

/-- The digits of `"{sf:.{dec}f}".format(sf=frac).split('.')[1]` for a
decadic fractional value given by its digit list, when `dec` is at least
the digit count (the scheduler always formats with the batch-wide maximum,
so no rounding occurs): the digits padded on the right with zeros. -/
def formatFracPart (fracDigits : List ℕ) (dec : ℕ) : List Char :=
  (fracDigits.map fun d => Char.ofNat (48 + d)) ++
    List.replicate (dec - fracDigits.length) '0'

/-- `format_frame(file_name, frame, extension)` of the scheduler;
`rg` is the external `replace_globals` collaborator. -/
def format_frame (rg : String → String) (digits : ℕ) (file_name : String)
    (frame : ℤ) (ext : Option String) : String :=
  let fn := rg file_name
  match ext with
  | some e => fn ++ String.mk (zpad digits frame) ++ "." ++ e
  | none => fn ++ String.mk (zpad digits frame) ++ "_"

/-- `format_subframe(file_name, frame, extension)` of the scheduler. -/
def format_subframe (rg : String → String) (digits dec : ℕ) (file_name : String)
    (main : ℤ) (fracDigits : List ℕ) (ext : Option String) : String :=
  let fn := rg file_name
  let sf := String.mk (formatFracPart fracDigits dec)
  match ext with
  | some e => fn ++ String.mk (zpad digits main) ++ sf ++ "." ++ e
  | none => fn ++ String.mk (zpad digits main) ++ sf ++ "_"

/-! ## The render scheduler (`LOOM_OT_render_image_sequence`) -/

/-- A file-output compositor node, restricted to the state the scheduler
reads and writes: its base path, its file-slot paths, and whether its
format is a multilayer one (`"LAYER" in format.file_format`). -/
structure OutNode where
  base_path : String
  slots : List String
  is_layer : Bool
deriving DecidableEq, Repr

/-- The scene state touched by the scheduler: `render.filepath`,
`render.use_overwrite`, the file-output nodes, the current (sub)frame set
by `frame_set`, and `loom.is_rendering`. -/
structure Scene where
  filepath : String
  use_overwrite : Bool
  nodes : List OutNode
  cur_frame : ℤ
  cur_subframe : ℚ
  is_rendering : Bool
deriving DecidableEq, Repr

/-- One record of `self._output_nodes`: the original base path, its
folder/filename split, and — for non-multilayer formats only — the
original file-slot paths. -/
structure NodeRec where
  base_path : String
  folder : String
  filename : String
  slots : Option (List String)
deriving DecidableEq, Repr

/-- External collaborators of the scheduler: the globals resolver
(`replace_globals`), the `os.path` layer, and the file-existence test. -/
structure Env where
  rg : String → String
  join : String → String → String
  splitPath : String → String × String
  splitext : String → String × String
  abspath : String → String
  realpath : String → String
  isfile : String → Bool
  isdir : String → Bool
  has_globals : String → Bool
  blend_name : String

/-- The per-run constants established by `execute`: `self.digits`,
`self._dec`, `self._subframe_flag`, `self._output_path`, `self._folder`,
`self._filename`, `self._extension` and `self._output_nodes`. -/
structure Config where
  digits : ℕ
  dec : ℕ
  subframe_flag : Bool
  output_path : String
  folder : String
  filename : String
  extension : String
  records : List NodeRec
deriving Repr

/-- One node's restoration in `reset_output_paths`. -/
def resetNode (node : OutNode) (rec : NodeRec) : OutNode :=
  { node with
    base_path := rec.base_path
    slots :=
      match rec.slots with
      | some sl => List.zipWith (fun s _ => s) sl node.slots
      | none => node.slots }

/-- `reset_output_paths(scene)`: reassign the main output path and, for
every recorded node, the base path and (when recorded) each file-slot
path to their recorded values. -/
def reset_output_paths (cfg : Config) (scene : Scene) : Scene :=
  { scene with
    filepath := cfg.output_path
    nodes := List.zipWith resetNode scene.nodes cfg.records }

/-- The filename produced for a frame: the `self._subframe_flag` dispatch
between `format_frame` and `format_subframe` (the flag is set in `execute`
exactly when the queue holds sub-frame pairs, so it coincides with the
frame's shape). -/
def frameFile (env : Env) (cfg : Config) (f : SchedFrame) (ext : Option String) : String :=
  match f with
  | .int n => format_frame env.rg cfg.digits cfg.filename n ext
  | .sub m fd => format_subframe env.rg cfg.digits cfg.dec cfg.filename m fd ext

/-- The new path of one file slot in `frame_repath`: `format_subframe` of
the recorded slot path in sub-frame mode, `replace_globals` of it
otherwise. -/
def slotRepath (env : Env) (cfg : Config) (f : SchedFrame) (recSlot : String) : String :=
  match f with
  | .int _ => env.rg recSlot
  | .sub m fd => format_subframe env.rg cfg.digits cfg.dec recSlot m fd none

/-- `frame_repath`'s treatment of one output node. -/
def nodeRepath (env : Env) (cfg : Config) (f : SchedFrame)
    (node : OutNode) (rec : NodeRec) : OutNode :=
  match rec.slots with
  | some sl =>
    { node with
      base_path := env.rg node.base_path
      slots := List.zipWith (fun recSlot _ => slotRepath env cfg f recSlot) sl node.slots }
  | none =>
    let ofn :=
      match f with
      | .int _ => env.rg rec.filename
      | .sub m fd => format_subframe env.rg cfg.digits cfg.dec rec.filename m fd none
    { node with base_path := env.join (env.rg rec.folder) ofn }

/-- `frame_repath(scene, frame_number)`: set the frame, assemble the main
file path and the output-node paths. -/
def frame_repath (env : Env) (cfg : Config) (scene : Scene) (f : SchedFrame) : Scene :=
  let scene :=
    match f with
    | .int n => { scene with cur_frame := n, cur_subframe := 0 }
    | .sub m fd => { scene with cur_frame := m, cur_subframe := fracValue fd }
  let ff := frameFile env cfg f (some cfg.extension)
  { scene with
    filepath := env.join cfg.folder ff
    nodes := List.zipWith (nodeRepath env cfg f) scene.nodes cfg.records }

/-- The scheduler's mutable per-run state: `self._frames`,
`self._rendered_frames`, `self._skipped_frames`, `self._stop`,
`self._rendering`. -/
structure OpState where
  frames : List SchedFrame
  rendered : List SchedFrame
  skipped : List SchedFrame
  stop : Bool
  rendering : Bool
deriving DecidableEq, Repr

/-- The external signals that drive the modal scheduler: a timer tick, a
renderer completion (`render_post`), and a renderer cancellation
(`render_cancel`). -/
inductive Ev
  | timer
  | complete
  | cancel
deriving DecidableEq, Repr

/-- Result of one modal transition. -/
inductive StepRes
  | cont (scene : Scene) (op : OpState)
  | finished (scene : Scene) (rendered skipped : List SchedFrame)
deriving Repr

/-- One transition of the modal scheduler.

`timer` is the `'TIMER'` branch of `modal`: cleanup (restore paths, report,
`FINISHED`) when the queue is empty or `_stop` is set; otherwise, when not
rendering, `frame_repath` plus `start_render` — the frame is skipped when
its target exists and overwrite is off (`post_render` pops the queue), else
the renderer is invoked (`pre_render` marks rendering; the frame is
appended to `_rendered_frames` right after the invocation).

`complete` is the `render_post` handler: pop the queue, clear rendering.

`cancel` is the `render_cancel` handler: set `_stop`, `reset_output_paths`,
and `self._rendered_frames.pop()` (drop the in-flight frame). -/
def modalStep (env : Env) (cfg : Config) (scene : Scene) (op : OpState) : Ev → StepRes
  | .timer =>
    if op.frames = [] ∨ op.stop then
      .finished (reset_output_paths cfg scene) op.rendered op.skipped
    else if op.rendering = false then
      match op.frames with
      | [] => .cont scene op
      | f :: rest =>
        let scene := frame_repath env cfg scene f
        if ¬scene.use_overwrite ∧ env.isfile scene.filepath then
          .cont { scene with is_rendering := false }
            { op with skipped := op.skipped ++ [f], frames := rest, rendering := false }
        else
          .cont { scene with is_rendering := true }
            { op with
              rendering := true
              rendered := if f ∈ op.rendered then op.rendered else op.rendered ++ [f] }
    else .cont scene op
  | .complete =>
    .cont { scene with is_rendering := false }
      { op with frames := op.frames.tail, rendering := false }
  | .cancel =>
    .cont (reset_output_paths cfg scene)
      { op with stop := true, rendered := op.rendered.dropLast }

/-- Outcome of a modal run over a finite signal trace. -/
inductive RunOut
  | finished (scene : Scene) (rendered skipped : List SchedFrame)
  | running (scene : Scene) (op : OpState)
deriving Repr

/-- Drive the modal scheduler along a trace of external signals.  After
`FINISHED` the operator has removed its timer and handlers, so remaining
signals are not delivered. -/
def runModal (env : Env) (cfg : Config) : Scene → OpState → List Ev → RunOut
  | scene, op, [] => .running scene op
  | scene, op, e :: es =>
    match modalStep env cfg scene op e with
    | .finished s r k => .finished s r k
    | .cont s o => runModal env cfg s o es

/-- Validity of a signal trace: Blender fires `render_post` or
`render_cancel` only while a render job started by this operator is in
flight (and a cancelled job fires no completion). -/
def ValidRun (env : Env) (cfg : Config) : Scene → OpState → List Ev → Bool
  | _, _, [] => true
  | scene, op, e :: es =>
    (!(e = .complete) || (op.rendering && !op.stop && !(op.frames = []))) &&
    ((!(e = .cancel) || (op.rendering && !op.stop)) &&
    (match modalStep env cfg scene op e with
     | .finished _ _ _ => true
     | .cont s o => ValidRun env cfg s o es))

/-- Specification observer (not part of the source): the frames whose
renderer invocation completed during the trace, in completion order. -/
def completedFrames (env : Env) (cfg : Config) :
    Scene → OpState → List Ev → List SchedFrame
  | _, _, [] => []
  | scene, op, e :: es =>
    match modalStep env cfg scene op e with
    | .finished _ _ _ => []
    | .cont s o =>
      (if e = .complete then op.frames.take 1 else []) ++
        completedFrames env cfg s o es

/-- The silent-mode render loop of `execute`: Python's
`for frame_number in self._frames` iterates by an internal index over
`self._frames`, the very list `start_render` pops (through `post_render`)
whenever it skips a frame. -/
def silentLoop (env : Env) (cfg : Config) (i : ℕ) (scene : Scene)
    (frames rendered skipped : List SchedFrame) :
    Scene × List SchedFrame × List SchedFrame :=
  if h : i < frames.length then
    if ¬(frame_repath env cfg scene (frames.get ⟨i, h⟩)).use_overwrite ∧
        env.isfile (frame_repath env cfg scene (frames.get ⟨i, h⟩)).filepath then
      silentLoop env cfg (i + 1)
        { frame_repath env cfg scene (frames.get ⟨i, h⟩) with is_rendering := false }
        frames.tail rendered (skipped ++ [frames.get ⟨i, h⟩])
    else
      silentLoop env cfg (i + 1) (frame_repath env cfg scene (frames.get ⟨i, h⟩))
        frames
        (if frames.get ⟨i, h⟩ ∈ rendered then rendered
         else rendered ++ [frames.get ⟨i, h⟩]) skipped
  else (scene, rendered, skipped)
termination_by frames.length - i
decreasing_by
  · have ht : frames.tail.length = frames.length - 1 := by
      cases frames <;> simp
    omega
  · omega

/-- The image-format table `_image_formats`, by values. -/
def imageFormatValues : List String :=
  ["bmp", "iris", "png", "jpg", "jp2", "tga", "cin", "dpx", "exr", "hdr",
   "tif", "webp", "tiff", "jpeg"]

/-- `l.endswith(e)` on character lists. -/
def endsWithChars (l e : List Char) : Bool :=
  decide (l.reverse.take e.length = e.reverse)

/-- `safe_filename(file_name)`: strip a known image extension, strip `#`
padding (adopting its length as `self.digits`), and append `_` after a
trailing digit.  Returns the name and the updated `self.digits`. -/
def safe_filename (env : Env) (digits0 : ℕ) (file_name : String) : String × ℕ :=
  if file_name ≠ "" then
    let name_real :=
      if imageFormatValues.any
          (fun e => endsWithChars (file_name.data.map Char.toLower) e.data) then
        (env.splitext file_name).1
      else file_name
    let nr := name_real.data
    let hd :=
      if nr.contains '#' then
        (nr.filter (· ≠ '#'),
          if (nr.reverse.takeWhile (· = '#')).length ≠ 0 then
            (nr.reverse.takeWhile (· = '#')).length
          else 4)
      else (nr, digits0)
    (if hd.1 ≠ [] ∧ isDigitCh (hd.1.getLastD ' ') then String.mk (hd.1 ++ ['_'])
     else String.mk hd.1, hd.2)
  else (env.blend_name ++ "_", digits0)

/-- The decimal reading of the `repr` of a non-negative decadic rational:
fractional digits without trailing zeros, a single `0` when integral.
Frame values reaching `subframes` are finite decimals, for which this
models `repr` exactly. -/
def decDigitsOfRat (q : ℚ) : DecRepr :=
  let a := |q|
  let k := ((List.range (a.den + 1)).filter fun k => 10 ^ k % a.den = 0).headD 0
  let n := (a * 10 ^ k).num.toNat
  let frac := n % 10 ^ k
  let digitsRaw := (Nat.digits 10 frac).reverse
  let padded := List.replicate (k - digitsRaw.length) 0 ++ digitsRaw
  let stripped := (padded.reverse.dropWhile (· = 0)).reverse
  { neg := decide (q < 0)
    ip := n / 10 ^ k
    fracDigits := if stripped = [] then [0] else stripped }

/-- `FrameResult` to scheduler queue: integers stay integers; floats go
through `subframes` (`repr(frame).split('.')`). -/
def toSchedFrames : FrameResult → List SchedFrame
  | .ints l => l.map .int
  | .floats l => l.map fun q =>
      let d := decDigitsOfRat q
      .sub d.mainInt d.fracDigits

/-- `if not self._frames` on the parse result. -/
def FrameResult.isEmpty : FrameResult → Bool
  | .ints l => l.isEmpty
  | .floats l => l.isEmpty

/-- One record of `self._output_nodes` as `execute` builds it. -/
def nodeRecord (env : Env) (n : OutNode) : NodeRec :=
  { base_path := n.base_path
    folder := env.realpath (env.splitPath (env.abspath n.base_path)).1
    filename := (env.splitPath (env.abspath n.base_path)).2
    slots := if n.is_layer then none else some n.slots }

/-- The operator inputs of `execute`. -/
structure ExecOpts where
  frames : String
  isolate_numbers : Bool
  render_silent : Bool
  digits : ℕ
  frame_step : ℚ
deriving Repr

/-- Result of `execute`. -/
inductive ExecRes
  | cancelled (scene : Scene) (msg : String)
  | error
  | silentDone (scene : Scene) (rendered skipped : List SchedFrame)
  | modalStarted (scene : Scene) (cfg : Config) (op : OpState)
deriving Repr

/-- `execute(context)` of the scheduler: parse the frame input (cancelling
with "No frames to render" on an empty result before any state is
touched), record the main output path and every output-node path, convert
to sub-frames when needed, then either run the whole silent loop and
restore paths, or hand the recorded state to the modal loop. -/
def execute (env : Env) (opts : ExecOpts) (scene : Scene) : ExecRes :=
  match filter_frames opts.frames opts.frame_step opts.isolate_numbers with
  | .error _ => .error
  | .ok none => .cancelled scene "No frames to render"
  | .ok (some fr) =>
    if fr.isEmpty then .cancelled scene "No frames to render"
    else
      let output_path := scene.filepath
      let sp := env.splitPath (env.abspath output_path)
      let folder0 := env.realpath sp.1
      let fnd := safe_filename env opts.digits sp.2
      let folder := if env.has_globals folder0 then env.rg folder0 else folder0
      if env.has_globals folder0 ∧ ¬env.isdir folder then
        .cancelled scene "Specified folder can not be created"
      else
        let records := scene.nodes.map (nodeRecord env)
        let frames0 := toSchedFrames fr
        let subflag := match fr with | .floats _ => true | .ints _ => false
        let cfg : Config :=
          { digits := fnd.2
            dec := if subflag then decWidth frames0 else 0
            subframe_flag := subflag
            output_path := output_path
            folder := folder
            filename := fnd.1
            extension := cfg_extension
            records := records }
        if opts.render_silent then
          let res := silentLoop env cfg 0 scene frames0 [] []
          .silentDone (reset_output_paths cfg res.1) res.2.1 res.2.2
        else
          .modalStarted scene cfg ⟨frames0, [], [], false, false⟩
where
  /-- `self.file_extension(scn.render.image_settings.file_format)`; the
  image format is not varied by any claim, so the table lookup is fixed to
  the PNG row. -/
  cfg_extension : String := "png"

/-! ## Character-class and digit-run lemmas for the scanner -/

/-- A maximal-run building block: a non-empty all-digit string. -/
def DigitRun (D : List Char) : Prop := D ≠ [] ∧ ∀ c ∈ D, isDigitCh c = true

/-- The head of the remaining input is not a digit. -/
def HeadNotDigit (r : List Char) : Prop :=
  ∀ c, r.head? = some c → isDigitCh c = false

/-- The strings that may follow a token in scanner lemmas: end of input or
a comma. -/
def SepHead (r : List Char) : Prop := r = [] ∨ r.head? = some ','

theorem digit_ne {c : Char} (h : isDigitCh c = true) :
    isSpaceCh c = false ∧ c ≠ '-' ∧ c ≠ '+' ∧ c ≠ '.' ∧ c ≠ ',' ∧ c ≠ 'x' ∧
      c ≠ '%' ∧ c ≠ '^' ∧ c ≠ '!' ∧ isWordCh c = true := by
  refine ⟨?_, ?_, ?_, ?_, ?_, ?_, ?_, ?_, ?_, ?_⟩
  · by_contra hs
    have hs' : isSpaceCh c = true := by simpa using hs
    simp only [isSpaceCh, Bool.or_eq_true, decide_eq_true_eq] at hs'
    rcases hs' with ((((he | he) | he) | he) | he) | he <;>
      (subst he; exact absurd h (by decide))
  · intro he; subst he; exact absurd h (by decide)
  · intro he; subst he; exact absurd h (by decide)
  · intro he; subst he; exact absurd h (by decide)
  · intro he; subst he; exact absurd h (by decide)
  · intro he; subst he; exact absurd h (by decide)
  · intro he; subst he; exact absurd h (by decide)
  · intro he; subst he; exact absurd h (by decide)
  · intro he; subst he; exact absurd h (by decide)
  · simp [isWordCh, h]

theorem sepHead_not_digit {r} (hr : SepHead r) : HeadNotDigit r := by
  intro c hc
  rcases hr with h | h
  · subst h; simp at hc
  · rw [h] at hc
    cases hc
    decide

theorem takeWhile_run {D r : List Char} (hD : ∀ c ∈ D, isDigitCh c = true)
    (hr : HeadNotDigit r) :
    (D ++ r).takeWhile isDigitCh = D ∧ (D ++ r).dropWhile isDigitCh = r := by
  induction D with
  | nil =>
    simp only [List.nil_append]
    cases r with
    | nil => simp
    | cons c t =>
      have := hr c (by simp)
      simp [List.takeWhile_cons, List.dropWhile_cons, this]
  | cons c D ih =>
    have hc := hD c (by simp)
    have ih' := ih (fun x hx => hD x (by simp [hx]))
    simp [List.takeWhile_cons, List.dropWhile_cons, hc, ih'.1, ih'.2]

theorem flatMap_nil_of_forall {α β : Type} {f : α → List β} :
    ∀ {l : List α}, (∀ x ∈ l, f x = []) → l.flatMap f = [] := by
  intro l
  induction l with
  | nil => intro _; rfl
  | cons x t ih =>
    intro h
    simp only [List.flatMap_cons, h x (by simp), List.nil_append]
    exact ih fun y hy => h y (by simp [hy])

theorem setC_no {s : List Char} {l : List Char}
    (h : ∀ c, l.head? = some c → c ∉ s) : setC s l = [] := by
  cases l with
  | nil => rfl
  | cons c t => simp [setC, h c rfl]

theorem litC_no {c : Char} {l : List Char}
    (h : ∀ d, l.head? = some d → d ≠ c) : litC c l = [] := by
  cases l with
  | nil => rfl
  | cons d t => simp [litC, h d rfl]

theorem ws1C_no {l : List Char}
    (h : ∀ c, l.head? = some c → isSpaceCh c = false) : ws1C l = [] := by
  cases l with
  | nil => rfl
  | cons c t => simp [ws1C, h c rfl]

theorem optC_no {p : List Char → Cands} {l} (h : p l = []) :
    optC p l = [([], l)] := by
  simp [optC, epsC, h]

theorem wsLazyC_no {l : List Char}
    (h : ∀ c, l.head? = some c → isSpaceCh c = false) : wsLazyC l = [([], l)] := by
  have ht : l.takeWhile isSpaceCh = [] := by
    cases l with
    | nil => rfl
    | cons c t => simp [List.takeWhile_cons, h c rfl]
  have hd : l.dropWhile isSpaceCh = l := by
    cases l with
    | nil => rfl
    | cons c t => simp [List.dropWhile_cons, h c rfl]
  simp [wsLazyC, ht, hd, List.range_succ]

theorem seqC_single {p q : List Char → Cands} {l : List Char} {a r}
    (h : p l = [(a, r)]) : seqC p q l = (q r).map fun d => (a ++ d.1, d.2) := by
  simp [seqC, h]

theorem seqC_eps {p q : List Char → Cands} {l : List Char}
    (h : p l = [([], l)]) : seqC p q l = q l := by
  rw [seqC_single h]
  simp

theorem digitsPlusC_nil {l : List Char} (h : HeadNotDigit l) :
    digitsPlusC l = [] := by
  have : l.takeWhile isDigitCh = [] := by
    cases l with
    | nil => rfl
    | cons c t => simp [List.takeWhile_cons, h c rfl]
  simp [digitsPlusC, this]

theorem digitsPlusC_run {D r : List Char} (hD : ∀ c ∈ D, isDigitCh c = true)
    (hr : HeadNotDigit r) :
    digitsPlusC (D ++ r) = (List.range D.length).map fun i =>
      (D.take (D.length - i), D.drop (D.length - i) ++ r) := by
  have h := takeWhile_run hD hr
  simp only [digitsPlusC, h.1, h.2]

theorem digitsStarLazyC_run {D r : List Char} (hD : ∀ c ∈ D, isDigitCh c = true)
    (hr : HeadNotDigit r) :
    digitsStarLazyC (D ++ r) = (List.range (D.length + 1)).map fun k =>
      (D.take k, D.drop k ++ r) := by
  have h := takeWhile_run hD hr
  simp only [digitsStarLazyC, h.1, h.2]

theorem seqC_nil {p q : List Char → Cands} {l : List Char} (h : p l = []) :
    seqC p q l = [] := by
  simp [seqC, h]

theorem head?_flatMap_const {α β : Type} {g : α → List β} {v : β} :
    ∀ {l : List α}, l ≠ [] → (∀ y ∈ l, (g y).head? = some v) →
      (l.flatMap g).head? = some v := by
  intro l
  induction l with
  | nil => intro h; exact absurd rfl h
  | cons y t _ =>
    intro _ hall
    have hy := hall y (by simp)
    cases hg : g y with
    | nil => rw [hg] at hy; simp at hy
    | cons b bs =>
      rw [hg] at hy
      simp only [List.head?_cons, Option.some.injEq] at hy
      simp [List.flatMap_cons, hg, hy]

theorem digitsStarC_run_mem {D r : List Char} (hD : ∀ c ∈ D, isDigitCh c = true)
    (hr : HeadNotDigit r) :
    ∀ p ∈ digitsStarC (D ++ r), ∃ j, j ≤ D.length ∧
      p = (D.take j, D.drop j ++ r) := by
  intro p hp
  rcases List.mem_append.mp hp with h | h
  · rw [digitsPlusC_run hD hr] at h
    simp only [List.mem_map, List.mem_range] at h
    obtain ⟨i, _, he⟩ := h
    exact ⟨D.length - i, by omega, he.symm⟩
  · simp only [epsC, List.mem_singleton] at h
    exact ⟨0, by omega, by simp [h]⟩

theorem drop_run {D : List Char} {j : ℕ} (hD : ∀ c ∈ D, isDigitCh c = true)
    (hj : j < D.length) : ∃ c t, D.drop j = c :: t ∧ isDigitCh c = true := by
  cases hd : D.drop j with
  | nil =>
    have := congrArg List.length hd
    simp at this
    omega
  | cons c t =>
    refine ⟨c, t, rfl, hD c ?_⟩
    have hc : c ∈ D.drop j := by simp [hd]
    exact List.drop_subset j D hc

theorem dotOptC_no {l : List Char} (h : ∀ c, l.head? = some c → c ≠ '.') :
    dotOptC l = [([], l)] :=
  optC_no (litC_no h)

theorem wsOptC_no {l : List Char}
    (h : ∀ c, l.head? = some c → isSpaceCh c = false) : wsOptC l = [([], l)] :=
  optC_no (ws1C_no h)

/-- Heads after consuming `j ≤ |D|` digits of a digit run: any property
holding both of digits and of the head of `r` holds of the head. -/
theorem drop_head_fact {D r : List Char} {j : ℕ} (P : Char → Prop)
    (hD : ∀ c ∈ D, isDigitCh c = true) (hj : j ≤ D.length)
    (hdig : ∀ c, isDigitCh c = true → P c)
    (hr : ∀ c, r.head? = some c → P c) :
    ∀ c, (D.drop j ++ r).head? = some c → P c := by
  intro c hc
  rcases Nat.lt_or_ge j D.length with hlt | hge
  · obtain ⟨d, t, hct, hd⟩ := drop_run hD hlt
    rw [hct] at hc
    simp only [List.cons_append, List.head?_cons, Option.some.injEq] at hc
    subst hc
    exact hdig d hd
  · have hnil : D.drop j = [] := by rw [List.drop_eq_nil_iff]; omega
    rw [hnil, List.nil_append] at hc
    exact hr c hc

/-- The head facts of a separator position (end of input or a comma). -/
theorem sepHead_facts {r : List Char} (hsep : SepHead r) :
    HeadNotDigit r ∧ (∀ c, r.head? = some c → c ≠ '.') ∧
    (∀ c, r.head? = some c → isSpaceCh c = false) ∧
    (∀ c, r.head? = some c → c ≠ '-') ∧
    (∀ c, r.head? = some c → c ∉ (['x', '%'] : List Char)) ∧
    (∀ c, r.head? = some c → isWordCh c = false) := by
  rcases hsep with hre | hre
  · subst hre
    exact ⟨fun c h => by simp at h, fun c h => by simp at h,
      fun c h => by simp at h, fun c h => by simp at h,
      fun c h => by simp at h, fun c h => by simp at h⟩
  · refine ⟨?_, ?_, ?_, ?_, ?_, ?_⟩ <;> (intro d hdd; rw [hre] at hdd; cases hdd)
    · decide
    · decide
    · decide
    · decide
    · decide
    · decide

/-- `numC` on a digit run whose remainder starts with neither a digit nor
a dot: every alternative consumes `k ∈ [1, |D|]` digits. -/
theorem numC_run_mem {D r : List Char} (hD : DigitRun D) (hr : HeadNotDigit r)
    (hdotr : ∀ c, r.head? = some c → c ≠ '.') :
    ∀ p ∈ numC (D ++ r), ∃ k, 1 ≤ k ∧ k ≤ D.length ∧
      p = (D.take k, D.drop k ++ r) := by
  obtain ⟨hDne, hDd⟩ := hD
  intro p hp
  simp only [numC, seqC, List.mem_flatMap, List.mem_map] at hp
  obtain ⟨⟨a₁, r₁⟩, h₁, ⟨a₂, r₂⟩, h₂, hpe⟩ := hp
  obtain ⟨j, hj, he⟩ := digitsStarC_run_mem hDd hr _ h₁
  cases he
  rw [dotOptC_no (drop_head_fact _ hDd hj
    (fun c h => (digit_ne h).2.2.2.1) hdotr)] at h₂
  simp only [List.mem_flatMap, List.mem_singleton, List.mem_map] at h₂
  obtain ⟨⟨a₃, r₃⟩, h₃, ⟨a₄, r₄⟩, h₄, he₂⟩ := h₂
  simp only [List.mem_singleton, Prod.mk.injEq] at h₃
  obtain ⟨h₃a, h₃r⟩ := h₃
  subst h₃a h₃r
  rcases Nat.lt_or_ge j D.length with hlt | hge
  · have hrunj : ∀ c ∈ D.drop j, isDigitCh c = true := fun c hc =>
      hDd c (List.drop_subset j D hc)
    rw [digitsPlusC_run hrunj hr] at h₄
    simp only [List.mem_map, List.mem_range, List.length_drop] at h₄
    obtain ⟨i, hi, he₄⟩ := h₄
    cases he₄
    cases he₂
    cases hpe
    refine ⟨j + (D.length - j - i), by omega, by omega, ?_⟩
    have h1 : D.take (j + (D.length - j - i)) =
        D.take j ++ (D.drop j).take (D.length - j - i) := List.take_add D j _
    have h2 : (D.drop j).drop (D.length - j - i) =
        D.drop (j + (D.length - j - i)) := List.drop_drop _ _ _
    simp [h1, h2]
  · have : D.drop j = [] := by rw [List.drop_eq_nil_iff]; omega
    rw [this, List.nil_append] at h₄
    rw [digitsPlusC_nil hr] at h₄
    simp at h₄

theorem head?_range_map {β : Type} (f : ℕ → β) {n : ℕ} (h : n ≠ 0) :
    ((List.range n).map f).head? = some (f 0) := by
  cases n with
  | zero => exact absurd rfl h
  | succ m => rw [List.range_succ_eq_map]; simp

theorem numC_nil {l : List Char} (hd : HeadNotDigit l)
    (hdot : ∀ c, l.head? = some c → c ≠ '.') : numC l = [] := by
  have hplus : digitsPlusC l = [] := digitsPlusC_nil hd
  have hstar : digitsStarC l = [([], l)] := by simp [digitsStarC, hplus, epsC]
  rw [numC, seqC_eps hstar, seqC_eps (dotOptC_no hdot)]
  exact hplus

theorem numC_run_head {D r : List Char} (hD : DigitRun D) (hr : HeadNotDigit r)
    (hdotr : ∀ c, r.head? = some c → c ≠ '.') :
    (numC (D ++ r)).head? = some (D, r) := by
  obtain ⟨hDne, hDd⟩ := hD
  have hlen : D.length ≠ 0 := fun h => hDne (List.length_eq_zero.mp h)
  have hinner : ∀ j, j < D.length →
      ((seqC dotOptC digitsPlusC (D.drop j ++ r)).map
        fun d => (D.take j ++ d.1, d.2)).head? = some (D, r) := by
    intro j hj
    have hrunj : ∀ c ∈ D.drop j, isDigitCh c = true := fun c hc =>
      hDd c (List.drop_subset j D hc)
    have hdot := drop_head_fact (fun c => c ≠ '.') hDd (le_of_lt hj)
      (fun c h => (digit_ne h).2.2.2.1) hdotr
    rw [seqC_eps (dotOptC_no hdot), List.head?_map, digitsPlusC_run hrunj hr,
      head?_range_map _ (by rw [List.length_drop]; omega)]
    simp only [Option.map_some', Nat.sub_zero, List.take_length, List.drop_length,
      List.nil_append, Option.some.injEq, Prod.mk.injEq]
    exact ⟨List.take_append_drop j D, trivial⟩
  rw [numC, seqC, digitsStarC, digitsPlusC_run hDd hr]
  obtain ⟨m, hm⟩ := Nat.exists_eq_succ_of_ne_zero hlen
  rw [hm, List.range_succ_eq_map]
  simp only [List.map_cons, List.cons_append, List.flatMap_cons]
  have hfirst : ((seqC dotOptC digitsPlusC (D.drop (m + 1 - 0) ++ r)).map
      fun d => (D.take (m + 1 - 0) ++ d.1, d.2)) = [] := by
    have h1 : D.drop (m + 1 - 0) = [] := by
      rw [List.drop_eq_nil_iff]; omega
    rw [h1, List.nil_append, seqC_eps (dotOptC_no hdotr), digitsPlusC_nil hr]
    rfl
  rw [hfirst, List.nil_append]
  apply head?_flatMap_const (by simp [epsC])
  intro y hy
  rcases List.mem_append.mp hy with h | h
  · simp only [List.mem_map, List.mem_range] at h
    obtain ⟨a, ⟨i, hi, hia⟩, he⟩ := h
    subst hia
    subst he
    exact hinner (m + 1 - (i + 1)) (by omega)
  · simp only [epsC, List.mem_singleton] at h
    subst h
    have h0 := hinner 0 (by omega)
    simpa using h0

theorem numericAltC_nil {l : List Char} (hd : HeadNotDigit l)
    (hdot : ∀ c, l.head? = some c → c ≠ '.') : numericAltC l = [] := by
  have hnum := numC_nil hd hdot
  have hplus := digitsPlusC_nil hd
  have hstar : digitsStarC l = [([], l)] := by simp [digitsStarC, hplus, epsC]
  rw [numericAltC, branch1C, seqC_nil hnum, branch2C, seqC_nil hnum,
    branch3C, seqC_eps hstar, seqC_nil (litC_no hdot), branch4C, seqC_nil hplus]
  rfl

theorem branch4_run_head {D r : List Char} (hD : DigitRun D)
    (hr : HeadNotDigit r) (hsep : SepHead r) :
    (branch4C (D ++ r)).head? = some (D, r) := by
  obtain ⟨hDne, hDd⟩ := hD
  have hlen : D.length ≠ 0 := fun h => hDne (List.length_eq_zero.mp h)
  rw [branch4C, seqC, digitsPlusC_run hDd hr]
  obtain ⟨m, hm⟩ := Nat.exists_eq_succ_of_ne_zero hlen
  rw [hm, List.range_succ_eq_map]
  simp only [List.map_cons, List.flatMap_cons]
  have h1 : D.drop (m + 1 - 0) = [] := by rw [List.drop_eq_nil_iff]; omega
  have h2 : D.take (m + 1 - 0) = D := by
    have : m + 1 - 0 = D.length := by omega
    rw [this, List.take_length]
  have hdot : dotOptC (D.drop (m + 1 - 0) ++ r) = [([], r)] := by
    rw [h1, List.nil_append]
    exact dotOptC_no (sepHead_facts hsep).2.1
  rw [hdot]
  have hle : D.length ≤ m + 1 := by omega
  simp [h1, h2, hle]

theorem branch1_nil_run {D r : List Char} (hD : DigitRun D) (hr : HeadNotDigit r)
    (hsep : SepHead r) : branch1C (D ++ r) = [] := by
  have hf := sepHead_facts hsep
  rw [branch1C, seqC]
  apply flatMap_nil_of_forall
  intro x hx
  obtain ⟨k, hk1, hk2, he⟩ := numC_run_mem hD hr hf.2.1 x hx
  subst he
  have hws := drop_head_fact (fun c => isSpaceCh c = false) hD.2 hk2
    (fun c h => (digit_ne h).1) hf.2.2.1
  have hmn := drop_head_fact (fun c => c ≠ '-') hD.2 hk2
    (fun c h => (digit_ne h).2.1) hf.2.2.2.1
  rw [seqC_eps (wsOptC_no hws), seqC_nil (litC_no hmn)]
  rfl

theorem branch2_nil_run {D r : List Char} (hD : DigitRun D) (hr : HeadNotDigit r)
    (hsep : SepHead r) : branch2C (D ++ r) = [] := by
  have hf := sepHead_facts hsep
  rw [branch2C, seqC]
  apply flatMap_nil_of_forall
  intro x hx
  obtain ⟨k, hk1, hk2, he⟩ := numC_run_mem hD hr hf.2.1 x hx
  subst he
  have hws := drop_head_fact (fun c => isSpaceCh c = false) hD.2 hk2
    (fun c h => (digit_ne h).1) hf.2.2.1
  have hmn := drop_head_fact (fun c => c ≠ '-') hD.2 hk2
    (fun c h => (digit_ne h).2.1) hf.2.2.2.1
  rw [seqC_eps (wsOptC_no hws), seqC_nil (litC_no hmn)]
  rfl

theorem branch3_nil_run {D r : List Char} (hD : DigitRun D) (hr : HeadNotDigit r)
    (hsep : SepHead r) : branch3C (D ++ r) = [] := by
  have hf := sepHead_facts hsep
  rw [branch3C, seqC]
  apply flatMap_nil_of_forall
  intro x hx
  obtain ⟨j, hj, he⟩ := digitsStarC_run_mem hD.2 hr x hx
  subst he
  have hdt := drop_head_fact (fun c => c ≠ '.') hD.2 hj
    (fun c h => (digit_ne h).2.2.2.1) hf.2.1
  rw [seqC_nil (litC_no hdt)]
  rfl

theorem numericAltC_run_head {D r : List Char} (hD : DigitRun D)
    (hr : HeadNotDigit r) (hsep : SepHead r) :
    (numericAltC (D ++ r)).head? = some (D, r) := by
  rw [numericAltC, branch1_nil_run hD hr hsep, branch2_nil_run hD hr hsep,
    branch3_nil_run hD hr hsep]
  simp only [List.nil_append]
  exact branch4_run_head hD hr hsep

theorem numericC_plain {l : List Char}
    (hc : ∀ c, l.head? = some c → c ∉ (['^', '!'] : List Char))
    (hw : ∀ c, l.head? = some c → isSpaceCh c = false)
    (hs : ∀ c, l.head? = some c → c ∉ (['-', '+'] : List Char)) :
    numericC l = numericAltC l := by
  have h1 : caretOptC l = [([], l)] := optC_no (setC_no hc)
  have h3 : signOptC l = [([], l)] := optC_no (setC_no hs)
  rw [numericC, seqC_eps h1, seqC_eps (wsLazyC_no hw), seqC_eps h3]

theorem numericAltC_minus_nil (t : List Char) : numericAltC ('-' :: t) = [] :=
  numericAltC_nil (fun c hc => by cases hc; decide) (fun c hc => by cases hc; decide)

theorem numericC_minus (t : List Char) :
    numericC ('-' :: t) = (numericAltC t).map fun d => ('-' :: d.1, d.2) := by
  have hc : caretOptC ('-' :: t) = [([], '-' :: t)] :=
    optC_no (setC_no fun c hcc => by cases hcc; decide)
  have hw : wsLazyC ('-' :: t) = [([], '-' :: t)] :=
    wsLazyC_no fun c hcc => by cases hcc; decide
  have hsg : signOptC ('-' :: t) = [(['-'], t), ([], '-' :: t)] := by
    simp [signOptC, optC, setC, epsC]
  rw [numericC, seqC_eps hc, seqC_eps hw, seqC, hsg]
  simp [List.flatMap_cons, numericAltC_minus_nil]

/-- First scanner lemma: an unsigned bare number token. -/
theorem matchNumericAt_int_run {D r : List Char} (hD : DigitRun D)
    (hr : HeadNotDigit r) (hsep : SepHead r) :
    matchNumericAt (D ++ r) = some (D, r) := by
  match D, hD with
  | c :: t, hD =>
    have hc := hD.2 c (by simp)
    have hne := digit_ne hc
    have hh : ∀ d, ((c :: t) ++ r).head? = some d → d = c := by
      intro d hd
      simp only [List.cons_append, List.head?_cons, Option.some.injEq] at hd
      exact hd.symm
    rw [matchNumericAt, numericC_plain
      (fun d hd => by rw [hh d hd]; simp [hne.2.2.2.2.2.2.2.1, hne.2.2.2.2.2.2.2.2.1])
      (fun d hd => by rw [hh d hd]; exact hne.1)
      (fun d hd => by rw [hh d hd]; simp [hne.2.1, hne.2.2.1])]
    exact numericAltC_run_head hD hr hsep

/-- First scanner lemma, signed form: a `-`-signed bare number token. -/
theorem matchNumericAt_neg_run {D r : List Char} (hD : DigitRun D)
    (hr : HeadNotDigit r) (hsep : SepHead r) :
    matchNumericAt ('-' :: (D ++ r)) = some ('-' :: D, r) := by
  rw [matchNumericAt, numericC_minus, List.head?_map,
    numericAltC_run_head hD hr hsep]
  rfl

theorem head?_append_left {α : Type} {l₁ l₂ : List α} {v : α}
    (h : l₁.head? = some v) : (l₁ ++ l₂).head? = some v := by
  cases l₁ with
  | nil => simp at h
  | cons x t => simpa using h

theorem head?_flatMap_first {α β : Type} {g : α → List β} {l : List α} {x : α}
    {v : β} (hl : l.head? = some x) (hx : (g x).head? = some v) :
    (l.flatMap g).head? = some v := by
  cases l with
  | nil => simp at hl
  | cons y t =>
    simp only [List.head?_cons, Option.some.injEq] at hl
    subst hl
    rw [List.flatMap_cons]
    exact head?_append_left hx

/-- Heads of a possibly `-`-signed digit run are never whitespace. -/
theorem signed_run_no_space {sg D r : List Char} (hsg : sg = [] ∨ sg = ['-'])
    (hD : DigitRun D) :
    ∀ c, (sg ++ (D ++ r)).head? = some c → isSpaceCh c = false := by
  rcases hsg with h | h <;> subst h
  · match D, hD with
    | c0 :: t, hD =>
      intro d hd
      simp only [List.nil_append, List.cons_append, List.head?_cons,
        Option.some.injEq] at hd
      subst hd
      exact (digit_ne (hD.2 c0 (by simp))).1
  · intro d hd
    simp only [List.cons_append, List.head?_cons, Option.some.injEq] at hd
    subst hd
    decide

/-- `[-+]? (\d* \.? \d+)` at a possibly signed digit run: the first
alternative consumes the sign and the whole run. -/
theorem seq_signOpt_numC_head {sg D r : List Char} (hsg : sg = [] ∨ sg = ['-'])
    (hD : DigitRun D) (hr : HeadNotDigit r)
    (hdotr : ∀ c, r.head? = some c → c ≠ '.') :
    (seqC signOptC numC (sg ++ (D ++ r))).head? = some (sg ++ D, r) := by
  rcases hsg with h | h <;> subst h
  · match D, hD with
    | c0 :: t, hD =>
      have hne := digit_ne (hD.2 c0 (by simp))
      have hsg' : signOptC ((c0 :: t) ++ r) = [([], (c0 :: t) ++ r)] :=
        optC_no (setC_no fun d hd => by
          simp only [List.cons_append, List.head?_cons, Option.some.injEq] at hd
          subst hd
          simp [hne.2.1, hne.2.2.1])
      rw [List.nil_append, seqC_eps hsg', numC_run_head hD hr hdotr]
      rfl
  · have hsg' : signOptC ('-' :: (D ++ r)) =
        [(['-'], D ++ r), ([], '-' :: (D ++ r))] := by
      simp [signOptC, optC, setC, epsC]
    have hnil : numC ('-' :: (D ++ r)) = [] :=
      numC_nil (fun c hc => by cases hc; decide) (fun c hc => by cases hc; decide)
    simp only [List.cons_append, List.nil_append]
    rw [seqC, hsg']
    simp only [List.flatMap_cons, List.flatMap_nil, hnil, List.map_nil,
      List.append_nil]
    rw [List.head?_map, numC_run_head hD hr hdotr]
    rfl

/-- Branch 2 on a range token: the first alternative takes the whole
`D1 - [sg2] D2` shape. -/
theorem branch2_head_range {D1 sg2 D2 r : List Char} (h1 : DigitRun D1)
    (h2 : DigitRun D2) (hsg2 : sg2 = [] ∨ sg2 = ['-']) (hr : HeadNotDigit r)
    (hdotr : ∀ c, r.head? = some c → c ≠ '.') :
    (branch2C (D1 ++ '-' :: (sg2 ++ (D2 ++ r)))).head? =
      some (D1 ++ '-' :: (sg2 ++ D2), r) := by
  have hrest : HeadNotDigit ('-' :: (sg2 ++ (D2 ++ r))) := fun c hc => by
    cases hc; decide
  have hdot1 : ∀ c, ('-' :: (sg2 ++ (D2 ++ r))).head? = some c → c ≠ '.' :=
    fun c hc => by cases hc; decide
  rw [branch2C, seqC]
  apply head?_flatMap_first (numC_run_head h1 hrest hdot1)
  rw [List.head?_map]
  have hws1 : wsOptC ('-' :: (sg2 ++ (D2 ++ r))) = [([], '-' :: (sg2 ++ (D2 ++ r)))] :=
    wsOptC_no fun c hc => by cases hc; decide
  have hlit : litC '-' ('-' :: (sg2 ++ (D2 ++ r))) = [(['-'], sg2 ++ (D2 ++ r))] := by
    simp [litC]
  rw [seqC_eps hws1, seqC_single hlit, List.head?_map,
    seqC_eps (wsOptC_no (signed_run_no_space hsg2 h2)),
    seq_signOpt_numC_head hsg2 h2 hr hdotr]
  rfl

/-- Branch 1 never matches a plain range token: after the end number it
needs `x` or `%`, which is neither a digit nor a separator head. -/
theorem branch1_nil_range {D1 sg2 D2 r : List Char} (h1 : DigitRun D1)
    (h2 : DigitRun D2) (hsg2 : sg2 = [] ∨ sg2 = ['-']) (hsep : SepHead r) :
    branch1C (D1 ++ '-' :: (sg2 ++ (D2 ++ r))) = [] := by
  have hf := sepHead_facts hsep
  have hrest : HeadNotDigit ('-' :: (sg2 ++ (D2 ++ r))) := fun c hc => by
    cases hc; decide
  have hdot1 : ∀ c, ('-' :: (sg2 ++ (D2 ++ r))).head? = some c → c ≠ '.' :=
    fun c hc => by cases hc; decide
  rw [branch1C, seqC]
  apply flatMap_nil_of_forall
  intro x hx
  obtain ⟨k, hk1, hk2, he⟩ := numC_run_mem h1 hrest hdot1 x hx
  subst he
  rcases Nat.lt_or_ge k D1.length with hlt | hge
  · obtain ⟨c, t, hct, hc⟩ := drop_run h1.2 hlt
    have hne := digit_ne hc
    rw [hct, List.cons_append, seqC_eps (wsOptC_no fun d hd => by
        simp only [List.head?_cons, Option.some.injEq] at hd
        subst hd; exact hne.1),
      seqC_nil (litC_no fun d hd => by
        simp only [List.head?_cons, Option.some.injEq] at hd
        subst hd; exact hne.2.1)]
    rfl
  · have hnil : D1.drop k = [] := by rw [List.drop_eq_nil_iff]; omega
    rw [hnil, List.nil_append,
      seqC_eps (wsOptC_no fun d hd => by cases hd; decide)]
    have hlit : litC '-' ('-' :: (sg2 ++ (D2 ++ r))) =
        [(['-'], sg2 ++ (D2 ++ r))] := by simp [litC]
    rw [seqC_single hlit]
    have hrest1 : seqC wsOptC (seqC numC (seqC wsOptC (seqC (setC ['x', '%'])
        (seqC wsOptC (seqC signOptC numC))))) (sg2 ++ (D2 ++ r)) = [] := by
      rw [seqC_eps (wsOptC_no (signed_run_no_space hsg2 h2))]
      rcases hsg2 with h | h <;> subst h
      · rw [List.nil_append, seqC]
        apply flatMap_nil_of_forall
        intro y hy
        obtain ⟨k2, hk21, hk22, he2⟩ := numC_run_mem h2 hf.1 hf.2.1 y hy
        subst he2
        have hws3 := drop_head_fact (fun c => isSpaceCh c = false) h2.2 hk22
          (fun c h => (digit_ne h).1) hf.2.2.1
        have hxp := drop_head_fact (fun c => c ∉ (['x', '%'] : List Char)) h2.2 hk22
          (fun c h => by
            simp [(digit_ne h).2.2.2.2.2.1, (digit_ne h).2.2.2.2.2.2.1])
          hf.2.2.2.2.1
        rw [seqC_eps (wsOptC_no hws3), seqC_nil (setC_no hxp)]
        rfl
      · simp only [List.cons_append, List.nil_append]
        have : numC ('-' :: (D2 ++ r)) = [] :=
          numC_nil (fun c hc => by cases hc; decide)
            (fun c hc => by cases hc; decide)
        rw [seqC_nil this]
    rw [hrest1]
    rfl

theorem numericAltC_range_head {D1 sg2 D2 r : List Char} (h1 : DigitRun D1)
    (h2 : DigitRun D2) (hsg2 : sg2 = [] ∨ sg2 = ['-']) (hsep : SepHead r) :
    (numericAltC (D1 ++ '-' :: (sg2 ++ (D2 ++ r)))).head? =
      some (D1 ++ '-' :: (sg2 ++ D2), r) := by
  have hf := sepHead_facts hsep
  rw [numericAltC, branch1_nil_range h1 h2 hsg2 hsep, List.nil_append]
  exact head?_append_left (head?_append_left (branch2_head_range h1 h2 hsg2 hf.1 hf.2.1))

/-- A digit-headed position collapses the caret, whitespace and sign
fragments, so the match is the alternation's head. -/
theorem matchNumericAt_digit_head {t : List Char} {v : List Char × List Char}
    (hd : ∃ c t', t = c :: t' ∧ isDigitCh c = true)
    (h : (numericAltC t).head? = some v) : matchNumericAt t = some v := by
  obtain ⟨c, t', ht, hc⟩ := hd
  subst ht
  have hne := digit_ne hc
  rw [matchNumericAt, numericC_plain
    (fun d hdd => by
      simp only [List.head?_cons, Option.some.injEq] at hdd
      subst hdd
      simp [hne.2.2.2.2.2.2.2.1, hne.2.2.2.2.2.2.2.2.1])
    (fun d hdd => by
      simp only [List.head?_cons, Option.some.injEq] at hdd
      subst hdd; exact hne.1)
    (fun d hdd => by
      simp only [List.head?_cons, Option.some.injEq] at hdd
      subst hdd
      simp [hne.2.1, hne.2.2.1])]
  exact h

/-- A `-`-headed position: the match is the alternation's head at the rest,
with the sign prepended. -/
theorem matchNumericAt_minus_head {t : List Char} {a r : List Char}
    (h : (numericAltC t).head? = some (a, r)) :
    matchNumericAt ('-' :: t) = some ('-' :: a, r) := by
  rw [matchNumericAt, numericC_minus, List.head?_map, h]
  rfl

/-- Scanner failure at a comma. -/
theorem matchNumericAt_comma (s : List Char) :
    matchNumericAt (',' :: s) = none := by
  have hd : HeadNotDigit (',' :: s) := fun c hc => by cases hc; decide
  have hdot : ∀ c, (',' :: s).head? = some c → c ≠ '.' := fun c hc => by
    cases hc; decide
  rw [matchNumericAt, numericC_plain (fun c hc => by cases hc; decide)
    (fun c hc => by cases hc; decide) (fun c hc => by cases hc; decide),
    numericAltC_nil hd hdot]
  rfl

/-! ## Integer tokens: `str(n)` facts and full-token matches -/

theorem natChars_digitRun (m : ℕ) : DigitRun (natChars m) := by
  constructor
  · unfold natChars
    split
    · simp
    · simp only [ne_eq, List.map_eq_nil_iff, List.reverse_eq_nil_iff]
      rename_i hm
      exact Nat.digits_ne_nil_iff_ne_zero.mpr hm
  · intro c hc
    unfold natChars at hc
    split at hc
    · simp only [List.mem_singleton] at hc
      subst hc
      decide
    · simp only [List.mem_map, List.mem_reverse] at hc
      obtain ⟨d, hd, he⟩ := hc
      have hdlt : d < 10 := Nat.digits_lt_base (by norm_num) hd
      subst he
      interval_cases d <;> decide

theorem intChars_split (n : ℤ) : ∃ sg D, intChars n = sg ++ D ∧
    (sg = [] ∨ sg = ['-']) ∧ DigitRun D := by
  unfold intChars
  split
  · exact ⟨['-'], natChars n.natAbs, rfl, Or.inr rfl, natChars_digitRun _⟩
  · exact ⟨[], natChars n.natAbs, rfl, Or.inl rfl, natChars_digitRun _⟩

/-- A bare integer token matches itself wherever a separator follows. -/
theorem matchNumericAt_intTok (n : ℤ) {r : List Char} (hsep : SepHead r) :
    matchNumericAt (intChars n ++ r) = some (intChars n, r) := by
  have hf := sepHead_facts hsep
  unfold intChars
  split
  · rw [List.cons_append]
    exact matchNumericAt_neg_run (natChars_digitRun _) hf.1 hsep
  · exact matchNumericAt_int_run (natChars_digitRun _) hf.1 hsep

/-- A plain range token `A-B` (`B` as printed by `str`, so its sign — if
any — is part of the token) matches itself wherever a separator follows. -/
theorem matchNumericAt_rangeTok (a b : ℤ) {r : List Char} (hsep : SepHead r) :
    matchNumericAt (intChars a ++ '-' :: (intChars b ++ r)) =
      some (intChars a ++ '-' :: intChars b, r) := by
  have hf := sepHead_facts hsep
  obtain ⟨sga, Da, hea, hsga, hDa⟩ := intChars_split a
  obtain ⟨sgb, Db, heb, hsgb, hDb⟩ := intChars_split b
  rw [hea, heb]
  have halt := numericAltC_range_head hDa hDb hsgb hsep
  rcases hsga with h | h <;> subst h
  · simp only [List.nil_append, List.append_assoc] at halt ⊢
    refine matchNumericAt_digit_head ?_ ?_
    · match Da, hDa with
      | c :: t, hDa =>
        exact ⟨c, t ++ '-' :: (sgb ++ (Db ++ r)), by simp, hDa.2 c (by simp)⟩
    · simpa using halt
  · simp only [List.cons_append, List.nil_append, List.append_assoc] at halt ⊢
    have := matchNumericAt_minus_head (t := Da ++ '-' :: (sgb ++ (Db ++ r)))
      (a := Da ++ '-' :: (sgb ++ Db)) (r := r) (by simpa using halt)
    simpa using this

theorem matchNumericAt_nil : matchNumericAt [] = none := by decide

theorem findallNumeric_nil : findallNumeric [] = [] := by
  unfold findallNumeric
  split
  · rename_i tr htr
    rw [matchNumericAt_nil] at htr
    cases htr
  · rfl

theorem findallNumeric_match {l tok rest : List Char}
    (h : matchNumericAt l = some (tok, rest)) :
    findallNumeric l = tok :: findallNumeric rest := by
  conv_lhs => rw [findallNumeric.eq_def]
  split
  · rename_i tr htr
    rw [h] at htr
    cases htr
    rfl
  · rename_i htr
    rw [h] at htr
    cases htr

theorem findallNumeric_skip {c : Char} {s : List Char}
    (h : matchNumericAt (c :: s) = none) :
    findallNumeric (c :: s) = findallNumeric s := by
  conv_lhs => rw [findallNumeric.eq_def]
  split
  · rename_i tr htr
    rw [h] at htr
    cases htr
  · rfl

theorem findallNumeric_comma (s : List Char) :
    findallNumeric (',' :: s) = findallNumeric s :=
  findallNumeric_skip (matchNumericAt_comma s)

theorem joinChars_cons₂ (sep : Char) (t t2 : List Char) (ts : List (List Char)) :
    joinChars sep (t :: t2 :: ts) = t ++ sep :: joinChars sep (t2 :: ts) := rfl

/-! ## `range_pattern` fragment heads -/

theorem digitsStarLazyC_no {l : List Char} (h : HeadNotDigit l) :
    digitsStarLazyC l = [([], l)] := by
  have ht : l.takeWhile isDigitCh = [] := by
    cases l with
    | nil => rfl
    | cons c t => simp [List.takeWhile_cons, h c rfl]
  have hd : l.dropWhile isDigitCh = l := by
    cases l with
    | nil => rfl
    | cons c t => simp [List.dropWhile_cons, h c rfl]
  simp [digitsStarLazyC, ht, hd, List.range_succ]

theorem digitsStarLazyC_head {D r : List Char} (hD : ∀ c ∈ D, isDigitCh c = true)
    (hr : HeadNotDigit r) :
    (digitsStarLazyC (D ++ r)).head? = some ([], D ++ r) := by
  rw [digitsStarLazyC_run hD hr, head?_range_map _ (by omega)]
  simp

theorem bAfterDigitC_pass {r : List Char}
    (hword : ∀ c, r.head? = some c → isWordCh c = false) :
    bAfterDigitC r = [([], r)] := by
  cases r with
  | nil => rfl
  | cons c t => simp [bAfterDigitC, hword c rfl]

theorem seq_plus_bAfter_head {D r : List Char} (hD : DigitRun D)
    (hr : HeadNotDigit r)
    (hword : ∀ c, r.head? = some c → isWordCh c = false) :
    (seqC digitsPlusC bAfterDigitC (D ++ r)).head? = some (D, r) := by
  have hlen : D.length ≠ 0 := fun h => hD.1 (List.length_eq_zero.mp h)
  rw [seqC]
  apply head?_flatMap_first (x := (D, r))
  · rw [digitsPlusC_run hD.2 hr, head?_range_map _ hlen]
    simp [List.take_length, List.drop_length]
  · rw [bAfterDigitC_pass hword]
    simp

/-- The tail of `range_pattern`'s start group fails at a non-digit, non-dot
position. -/
theorem lazyChain_nil {l : List Char} (hd : HeadNotDigit l)
    (hdot : ∀ c, l.head? = some c → c ≠ '.') :
    seqC digitsStarLazyC (seqC dotOptC (seqC digitsPlusC bAfterDigitC)) l = [] := by
  rw [seqC_eps (digitsStarLazyC_no hd), seqC_eps (dotOptC_no hdot),
    seqC_nil (digitsPlusC_nil hd)]

/-- The start group `[-+]? \d*? \.? [0-9]+ \b` on a signed digit run whose
remainder starts with a non-word character: sign and run are consumed. -/
theorem rangeStartNumC_head {sg D r : List Char} (hsg : sg = [] ∨ sg = ['-'])
    (hD : DigitRun D) (hr : HeadNotDigit r)
    (hword : ∀ c, r.head? = some c → isWordCh c = false) :
    (rangeStartNumC (sg ++ (D ++ r))).head? = some (sg ++ D, r) := by
  have hinner : (seqC digitsStarLazyC (seqC dotOptC
      (seqC digitsPlusC bAfterDigitC)) (D ++ r)).head? = some (D, r) := by
    have hdD : ∀ c, (D ++ r).head? = some c → c ≠ '.' := by
      match D, hD with
      | c0 :: t, hD =>
        intro d hd
        simp only [List.cons_append, List.head?_cons, Option.some.injEq] at hd
        subst hd
        exact (digit_ne (hD.2 c0 (by simp))).2.2.2.1
    rw [seqC]
    apply head?_flatMap_first (digitsStarLazyC_head hD.2 hr)
    rw [List.head?_map, seqC_eps (dotOptC_no hdD),
      seq_plus_bAfter_head hD hr hword]
    rfl
  rcases hsg with h | h <;> subst h
  · match D, hD with
    | c0 :: t, hD =>
      have hne := digit_ne (hD.2 c0 (by simp))
      have hsg' : signOptC ((c0 :: t) ++ r) = [([], (c0 :: t) ++ r)] :=
        optC_no (setC_no fun d hd => by
          simp only [List.cons_append, List.head?_cons, Option.some.injEq] at hd
          subst hd
          simp [hne.2.1, hne.2.2.1])
      rw [List.nil_append, rangeStartNumC, seqC_eps hsg']
      exact hinner
  · have hsg' : signOptC ('-' :: (D ++ r)) =
        [(['-'], D ++ r), ([], '-' :: (D ++ r))] := by
      simp [signOptC, optC, setC, epsC]
    have hnil : seqC digitsStarLazyC (seqC dotOptC
        (seqC digitsPlusC bAfterDigitC)) ('-' :: (D ++ r)) = [] :=
      lazyChain_nil (fun c hc => by cases hc; decide)
        (fun c hc => by cases hc; decide)
    simp only [List.cons_append, List.nil_append]
    rw [rangeStartNumC, seqC, hsg']
    simp only [List.flatMap_cons, List.flatMap_nil, hnil, List.map_nil,
      List.append_nil]
    rw [List.head?_map, hinner]
    rfl

/-- `seqC digitsStarC (seqC dotOptC (seqC digitsPlusC bAfterDigitC))` —
the unsigned body of the increment group — takes a whole digit run. -/
theorem numCb_run_head {D r : List Char} (hD : DigitRun D) (hr : HeadNotDigit r)
    (hdotr : ∀ c, r.head? = some c → c ≠ '.')
    (hword : ∀ c, r.head? = some c → isWordCh c = false) :
    (seqC digitsStarC (seqC dotOptC (seqC digitsPlusC bAfterDigitC))
      (D ++ r)).head? = some (D, r) := by
  obtain ⟨hDne, hDd⟩ := hD
  have hlen : D.length ≠ 0 := fun h => hDne (List.length_eq_zero.mp h)
  have hinner : ∀ j, j < D.length →
      ((seqC dotOptC (seqC digitsPlusC bAfterDigitC) (D.drop j ++ r)).map
        fun d => (D.take j ++ d.1, d.2)).head? = some (D, r) := by
    intro j hj
    have hrunj : DigitRun (D.drop j) := by
      refine ⟨?_, fun c hc => hDd c (List.drop_subset j D hc)⟩
      intro he
      rw [List.drop_eq_nil_iff] at he
      omega
    have hdot := drop_head_fact (fun c => c ≠ '.') hDd (le_of_lt hj)
      (fun c h => (digit_ne h).2.2.2.1) hdotr
    rw [List.head?_map, seqC_eps (dotOptC_no hdot),
      seq_plus_bAfter_head hrunj hr hword]
    simp [List.take_append_drop]
  rw [seqC, digitsStarC, digitsPlusC_run hDd hr]
  obtain ⟨m, hm⟩ := Nat.exists_eq_succ_of_ne_zero hlen
  rw [hm, List.range_succ_eq_map]
  simp only [List.map_cons, List.cons_append, List.flatMap_cons]
  have hfirst : ((seqC dotOptC (seqC digitsPlusC bAfterDigitC)
      (D.drop (m + 1 - 0) ++ r)).map
      fun d => (D.take (m + 1 - 0) ++ d.1, d.2)) = [] := by
    have h1 : D.drop (m + 1 - 0) = [] := by
      rw [List.drop_eq_nil_iff]; omega
    rw [h1, List.nil_append, seqC_eps (dotOptC_no hdotr),
      seqC_nil (digitsPlusC_nil hr)]
    rfl
  rw [hfirst, List.nil_append]
  apply head?_flatMap_const (by simp [epsC])
  intro y hy
  rcases List.mem_append.mp hy with h | h
  · simp only [List.mem_map, List.mem_range] at h
    obtain ⟨a, ⟨i, hi, hia⟩, he⟩ := h
    subst hia
    subst he
    exact hinner (m + 1 - (i + 1)) (by omega)
  · simp only [epsC, List.mem_singleton] at h
    subst h
    have h0 := hinner 0 (by omega)
    simpa using h0

/-- The unsigned increment group number `[-+]? \d* \.? [0-9]+ \b` on a
digit run: the run is consumed. -/
theorem rangeIncNumC_head {D r : List Char} (hD : DigitRun D)
    (hr : HeadNotDigit r) (hdotr : ∀ c, r.head? = some c → c ≠ '.')
    (hword : ∀ c, r.head? = some c → isWordCh c = false) :
    (rangeIncNumC (D ++ r)).head? = some (D, r) := by
  match D, hD with
  | c0 :: t, hD =>
    have hne := digit_ne (hD.2 c0 (by simp))
    have hsg' : signOptC ((c0 :: t) ++ r) = [([], (c0 :: t) ++ r)] :=
      optC_no (setC_no fun d hd => by
        simp only [List.cons_append, List.head?_cons, Option.some.injEq] at hd
        subst hd
        simp [hne.2.1, hne.2.2.1])
    rw [rangeIncNumC, seqC_eps hsg']
    exact numCb_run_head hD hr hdotr hword

/-- `re.findall` over a comma-joined list of tokens each of which matches
itself before any separator: exactly the tokens come back. -/
theorem findall_joinTokens {toks : List (List Char)}
    (h : ∀ t ∈ toks, ∀ r, SepHead r → matchNumericAt (t ++ r) = some (t, r)) :
    findallNumeric (joinChars ',' toks) = toks := by
  induction toks with
  | nil => exact findallNumeric_nil
  | cons t ts ih =>
    cases ts with
    | nil =>
      have hm : matchNumericAt t = some (t, []) := by
        simpa using h t (by simp) [] (Or.inl rfl)
      show findallNumeric t = [t]
      rw [findallNumeric_match hm, findallNumeric_nil]
    | cons t2 ts2 =>
      have hm := h t (by simp) (',' :: joinChars ',' (t2 :: ts2)) (Or.inr rfl)
      rw [joinChars_cons₂, findallNumeric_match hm, findallNumeric_comma,
        ih fun t' ht' => h t' (by simp [ht'])]

theorem rangeEndNumC_head {sg D r : List Char} (hsg : sg = [] ∨ sg = ['-'])
    (hD : DigitRun D) (hr : HeadNotDigit r)
    (hdotr : ∀ c, r.head? = some c → c ≠ '.') :
    (rangeEndNumC (sg ++ (D ++ r))).head? = some (sg ++ D, r) :=
  seq_signOpt_numC_head hsg hD hr hdotr

/-- The optional increment group is absent at a separator position. -/
theorem incOptCandsAt_sep {r : List Char} (hsep : SepHead r) :
    incOptCandsAt r = [(none, r)] := by
  have hf := sepHead_facts hsep
  unfold incOptCandsAt
  rw [wsLazyC_no hf.2.2.1]
  simp [setC_no hf.2.2.2.2.1]

/-- Heads of a non-empty digit run are not whitespace. -/
theorem run_head_no_space {D : List Char} (hD : DigitRun D) :
    ∀ c, D.head? = some c → isSpaceCh c = false := by
  match D, hD with
  | c0 :: t, hD =>
    intro c hc
    simp only [List.head?_cons, Option.some.injEq] at hc
    subst hc
    exact (digit_ne (hD.2 c0 (by simp))).1

/-- The optional increment group takes `x` followed by a digit run at the
end of the item. -/
theorem incOptCandsAt_x_head {Ds : List Char} (hDs : DigitRun Ds) :
    (incOptCandsAt ('x' :: Ds)).head? = some (some Ds, []) := by
  have hinc := rangeIncNumC_head hDs (r := []) (fun c hc => by simp at hc)
    (fun c hc => by simp at hc) (fun c hc => by simp at hc)
  rw [List.append_nil] at hinc
  unfold incOptCandsAt
  apply head?_append_left
  apply head?_flatMap_first
    (x := ([], 'x' :: Ds))
    (by rw [wsLazyC_no fun c hc => by cases hc; decide]; rfl)
  apply head?_flatMap_first (x := (['x'], Ds)) (by simp [setC])
  apply head?_flatMap_first
    (x := ([], Ds))
    (by rw [wsLazyC_no (run_head_no_space hDs)]; rfl)
  rw [List.head?_map, hinc]
  rfl

/-- `range_pattern` anchored at a plain range token: groups 1 and 3 take
the two signed numbers, the increment group is absent. -/
theorem rangeCandsAt_plain_head {sga Da sgb Db r : List Char}
    (hsga : sga = [] ∨ sga = ['-']) (hDa : DigitRun Da)
    (hsgb : sgb = [] ∨ sgb = ['-']) (hDb : DigitRun Db) (hsep : SepHead r) :
    (rangeCandsAt (sga ++ (Da ++ '-' :: (sgb ++ (Db ++ r))))).head? =
      some (sga ++ Da, sgb ++ Db, none, r) := by
  have hf := sepHead_facts hsep
  have hstart : (rangeStartNumC (sga ++ (Da ++ '-' :: (sgb ++ (Db ++ r))))).head? =
      some (sga ++ Da, '-' :: (sgb ++ (Db ++ r))) :=
    rangeStartNumC_head hsga hDa (fun c hc => by cases hc; decide)
      (fun c hc => by cases hc; decide)
  rw [rangeCandsAt]
  apply head?_flatMap_first hstart
  apply head?_flatMap_first
    (x := ([], '-' :: (sgb ++ (Db ++ r))))
    (by rw [wsLazyC_no fun c hc => by cases hc; decide]; rfl)
  apply head?_flatMap_first (x := (['-'], sgb ++ (Db ++ r))) (by simp [litC])
  apply head?_flatMap_first
    (x := ([], sgb ++ (Db ++ r)))
    (by rw [wsLazyC_no (signed_run_no_space hsgb hDb)]; rfl)
  apply head?_flatMap_first (rangeEndNumC_head hsgb hDb hf.1 hf.2.1)
  rw [incOptCandsAt_sep hsep]
  rfl

/-- `range_pattern` anchored at a range-with-increment token
`A-BxS` (`B` and `S` unsigned). -/
theorem rangeCandsAt_inc_head {sga Da Db Ds : List Char}
    (hsga : sga = [] ∨ sga = ['-']) (hDa : DigitRun Da) (hDb : DigitRun Db)
    (hDs : DigitRun Ds) :
    (rangeCandsAt (sga ++ (Da ++ '-' :: (Db ++ 'x' :: Ds)))).head? =
      some (sga ++ Da, Db, some Ds, []) := by
  have hstart : (rangeStartNumC (sga ++ (Da ++ '-' ::
      (Db ++ 'x' :: Ds)))).head? =
      some (sga ++ Da, '-' :: (Db ++ 'x' :: Ds)) :=
    rangeStartNumC_head hsga hDa (fun c hc => by cases hc; decide)
      (fun c hc => by cases hc; decide)
  rw [rangeCandsAt]
  apply head?_flatMap_first hstart
  apply head?_flatMap_first
    (x := ([], '-' :: (Db ++ 'x' :: Ds)))
    (by rw [wsLazyC_no fun c hc => by cases hc; decide]; rfl)
  apply head?_flatMap_first
    (x := (['-'], Db ++ 'x' :: Ds)) (by simp [litC])
  apply head?_flatMap_first
    (x := ([], Db ++ 'x' :: Ds))
    (by
      have hds : ∀ c, (Db ++ 'x' :: Ds).head? = some c → isSpaceCh c = false := by
        match Db, hDb with
        | c0 :: t0, hDb =>
          intro c hc
          simp only [List.cons_append, List.head?_cons, Option.some.injEq] at hc
          subst hc
          exact (digit_ne (hDb.2 c0 (by simp))).1
      rw [wsLazyC_no hds]; rfl)
  have hend : (rangeEndNumC ([] ++ (Db ++ 'x' :: Ds))).head? =
      some ([] ++ Db, 'x' :: Ds) :=
    rangeEndNumC_head (Or.inl rfl) hDb (fun c hc => by cases hc; decide)
      (fun c hc => by cases hc; decide)
  apply head?_flatMap_first (by simpa using hend)
  rw [List.head?_map, incOptCandsAt_x_head hDs]
  rfl

theorem rangeSearch_cons {c : Char} {t : List Char} {g1 g3 : List Char}
    {g6 : Option (List Char)} {rest : List Char}
    (h : (rangeCandsAt (c :: t)).head? = some (g1, g3, g6, rest)) :
    rangeSearch (c :: t) = some (g1, g3, g6) := by
  unfold rangeSearch
  rw [h]

/-- `rx_group.search` on the plain range token `str(a) - str(b)`. -/
theorem rangeSearch_rangeTok (a b : ℤ) :
    rangeSearch (intChars a ++ '-' :: intChars b) =
      some (intChars a, intChars b, none) := by
  obtain ⟨sga, Da, hea, hsga, hDa⟩ := intChars_split a
  obtain ⟨sgb, Db, heb, hsgb, hDb⟩ := intChars_split b
  have h := rangeCandsAt_plain_head hsga hDa hsgb hDb (r := []) (Or.inl rfl)
  rw [List.append_nil] at h
  rw [hea, heb]
  rcases hsga with hs | hs <;> subst hs
  · match Da, hDa with
    | c0 :: t0, hDa =>
      apply rangeSearch_cons (c := c0) (t := t0 ++ '-' :: (sgb ++ Db))
      simpa using h
  · apply rangeSearch_cons (c := '-') (t := Da ++ '-' :: (sgb ++ Db))
    simpa using h

/-- `rx_group.search` on the increment token `str(a) - B x S`
(`B`, `S` unsigned digit runs). -/
theorem rangeSearch_incTok (a : ℤ) {Db Ds : List Char} (hDb : DigitRun Db)
    (hDs : DigitRun Ds) :
    rangeSearch (intChars a ++ '-' :: (Db ++ 'x' :: Ds)) =
      some (intChars a, Db, some Ds) := by
  obtain ⟨sga, Da, hea, hsga, hDa⟩ := intChars_split a
  have h := rangeCandsAt_inc_head hsga hDa hDb hDs
  rw [hea]
  rcases hsga with hs | hs <;> subst hs
  · match Da, hDa with
    | c0 :: t0, hDa =>
      apply rangeSearch_cons (c := c0) (t := t0 ++ '-' :: (Db ++ 'x' :: Ds))
      simpa using h
  · apply rangeSearch_cons (c := '-') (t := Da ++ '-' :: (Db ++ 'x' :: Ds))
    simpa using h

/-- Branch 1 of `numeric_pattern` takes a whole increment token. -/
theorem branch1_head_inc {Da Db Ds : List Char} (hDa : DigitRun Da)
    (hDb : DigitRun Db) (hDs : DigitRun Ds) :
    (branch1C (Da ++ '-' :: (Db ++ 'x' :: Ds))).head? =
      some (Da ++ '-' :: (Db ++ 'x' :: Ds), []) := by
  have hds : ∀ c, (Db ++ 'x' :: Ds).head? = some c → isSpaceCh c = false := by
    match Db, hDb with
    | c0 :: t0, hDb =>
      intro c hc
      simp only [List.cons_append, List.head?_cons, Option.some.injEq] at hc
      subst hc
      exact (digit_ne (hDb.2 c0 (by simp))).1
  have hnum2 := numC_run_head hDb (r := 'x' :: Ds)
    (fun c hc => by cases hc; decide) (fun c hc => by cases hc; decide)
  have hsg := seq_signOpt_numC_head (Or.inl rfl) hDs (r := [])
    (fun c hc => by simp at hc) (fun c hc => by simp at hc)
  simp only [List.nil_append, List.append_nil] at hsg
  have h3 : (seqC wsOptC (seqC signOptC numC) Ds).head? = some (Ds, []) := by
    rw [seqC_eps (wsOptC_no (run_head_no_space hDs))]
    exact hsg
  have hset : setC ['x', '%'] ('x' :: Ds) = [(['x'], Ds)] := by simp [setC]
  have h2 : (seqC (setC ['x', '%'])
      (seqC wsOptC (seqC signOptC numC)) ('x' :: Ds)).head? =
      some ('x' :: Ds, []) := by
    rw [seqC_single hset, List.head?_map, h3]
    rfl
  have h2' : (seqC wsOptC (seqC (setC ['x', '%'])
      (seqC wsOptC (seqC signOptC numC))) ('x' :: Ds)).head? =
      some ('x' :: Ds, []) := by
    rw [seqC_eps (wsOptC_no fun c hc => by cases hc; decide)]
    exact h2
  have h1 : (seqC numC (seqC wsOptC (seqC (setC ['x', '%'])
      (seqC wsOptC (seqC signOptC numC)))) (Db ++ 'x' :: Ds)).head? =
      some (Db ++ 'x' :: Ds, []) := by
    rw [seqC]
    apply head?_flatMap_first hnum2
    rw [List.head?_map, h2']
    rfl
  have hlit : litC '-' ('-' :: (Db ++ 'x' :: Ds)) =
      [(['-'], Db ++ 'x' :: Ds)] := by simp [litC]
  rw [branch1C, seqC]
  apply head?_flatMap_first (numC_run_head hDa
    (fun c hc => by cases hc; decide) (fun c hc => by cases hc; decide))
  rw [List.head?_map, seqC_eps (wsOptC_no fun c hc => by cases hc; decide),
    seqC_single hlit, List.head?_map, seqC_eps (wsOptC_no hds), h1]
  rfl

/-- The scanner takes a whole increment token `str(a)-BxS`. -/
theorem matchNumericAt_incTok (a : ℤ) {Db Ds : List Char} (hDb : DigitRun Db)
    (hDs : DigitRun Ds) :
    matchNumericAt (intChars a ++ '-' :: (Db ++ 'x' :: Ds)) =
      some (intChars a ++ '-' :: (Db ++ 'x' :: Ds), []) := by
  obtain ⟨sga, Da, hea, hsga, hDa⟩ := intChars_split a
  rw [hea]
  have halt : (numericAltC (Da ++ '-' :: (Db ++ 'x' :: Ds))).head? =
      some (Da ++ '-' :: (Db ++ 'x' :: Ds), []) := by
    rw [numericAltC]
    exact head?_append_left (head?_append_left
      (head?_append_left (branch1_head_inc hDa hDb hDs)))
  rcases hsga with hs | hs <;> subst hs
  · simp only [List.nil_append, List.append_assoc] at halt ⊢
    refine matchNumericAt_digit_head ?_ ?_
    · match Da, hDa with
      | c0 :: t0, hDa =>
        exact ⟨c0, t0 ++ '-' :: (Db ++ 'x' :: Ds), by simp, hDa.2 c0 (by simp)⟩
    · simpa using halt
  · simp only [List.cons_append, List.nil_append] at halt ⊢
    exact matchNumericAt_minus_head halt

/-! ## `exclude_pattern` and `float` on tokens -/

theorem excludeSearch_none {l : List Char}
    (h : ∀ c ∈ l, c ≠ '^' ∧ c ≠ '!') : excludeSearch l = none := by
  induction l with
  | nil => rfl
  | cons c t ih =>
    have hc := h c (by simp)
    have hcands : excludeCandsAt (c :: t) = [] := by
      unfold excludeCandsAt
      rw [setC_no fun d hd => by
        simp only [List.head?_cons, Option.some.injEq] at hd
        subst hd
        simp [hc.1, hc.2]]
      rfl
    unfold excludeSearch
    rw [hcands]
    exact ih fun d hd => h d (by simp [hd])

theorem digitVal_char (d : ℕ) (hd : d < 10) :
    digitVal (Char.ofNat (48 + d)) = d := by
  interval_cases d <;> decide

/-- Horner evaluation of a most-significant-first digit list. -/
theorem foldl_horner (L : List ℕ) (hL : ∀ d ∈ L, d < 10) (acc : ℕ) :
    List.foldl (fun a c => 10 * a + digitVal c) acc
        (L.reverse.map fun d => Char.ofNat (48 + d)) =
      acc * 10 ^ L.length + Nat.ofDigits 10 L := by
  induction L generalizing acc with
  | nil => simp
  | cons d t ih =>
    have hd := hL d (by simp)
    have ht : ∀ x ∈ t, x < 10 := fun x hx => hL x (by simp [hx])
    rw [List.reverse_cons, List.map_append, List.foldl_append, ih ht]
    simp only [List.map_cons, List.map_nil, List.foldl_cons, List.foldl_nil,
      digitVal_char d hd, Nat.ofDigits_cons, List.length_cons]
    ring

theorem parseNat_natChars (m : ℕ) : parseNatDigits (natChars m) = m := by
  unfold natChars parseNatDigits
  split
  · rename_i hm
    subst hm
    decide
  · rw [foldl_horner _ (fun d hd => Nat.digits_lt_base (by norm_num) hd)]
    simp [Nat.ofDigits_digits]

theorem noSpace_of_digitOrSign {l : List Char}
    (h : ∀ c ∈ l, isDigitCh c = true ∨ c = '-' ∨ c = '+' ∨ c = 'x') :
    (∀ c ∈ l, isSpaceCh c = false) := by
  intro c hc
  rcases h c hc with hd | hd | hd | hd
  · exact (digit_ne hd).1
  · subst hd; decide
  · subst hd; decide
  · subst hd; decide

theorem strip_noSpace {l : List Char} (h : ∀ c ∈ l, isSpaceCh c = false) :
    ((l.dropWhile isSpaceCh).reverse.dropWhile isSpaceCh).reverse = l := by
  have h1 : l.dropWhile isSpaceCh = l := by
    cases l with
    | nil => rfl
    | cons c t => simp [List.dropWhile_cons, h c (by simp)]
  rw [h1]
  have h2 : l.reverse.dropWhile isSpaceCh = l.reverse := by
    cases hr : l.reverse with
    | nil => rfl
    | cons c t =>
      have hc : c ∈ l := by
        rw [← List.mem_reverse, hr]
        simp
      simp [List.dropWhile_cons, h c hc]
  rw [h2, List.reverse_reverse]

theorem intChars_mem {n : ℤ} :
    ∀ c ∈ intChars n, isDigitCh c = true ∨ c = '-' := by
  intro c hc
  unfold intChars at hc
  split at hc
  · rcases List.mem_cons.mp hc with h | h
    · exact Or.inr h
    · exact Or.inl ((natChars_digitRun _).2 c h)
  · exact Or.inl ((natChars_digitRun _).2 c hc)

theorem pySign_neg (r : List Char) : pySign ('-' :: r) = (-1, r) := by
  simp [pySign]

theorem pySign_plain {c0 : Char} {t0 : List Char} (h1 : c0 ≠ '-')
    (h2 : c0 ≠ '+') : pySign (c0 :: t0) = (1, c0 :: t0) := by
  simp [pySign, h1, h2]

/-- A bare digit run parses as its natural-number value. -/
theorem pyFloatSigned_run {sgn : ℚ} {D : List Char} (hD : DigitRun D) :
    pyFloatSigned sgn D = some (sgn * (parseNatDigits D : ℚ)) := by
  have ht := takeWhile_run hD.2 (r := []) (fun c hc => by simp at hc)
  simp only [List.append_nil] at ht
  unfold pyFloatSigned
  simp [ht.1, ht.2, hD.1]

/-- `float(str(n))` returns the value of `n`. -/
theorem pyFloat_intChars (n : ℤ) : pyFloat (intChars n) = some (n : ℚ) := by
  have hns : ∀ c ∈ intChars n, isSpaceCh c = false :=
    noSpace_of_digitOrSign fun c hc => by
      rcases intChars_mem c hc with h | h
      · exact Or.inl h
      · exact Or.inr (Or.inl h)
  unfold pyFloat pyStrip
  rw [strip_noSpace hns]
  unfold intChars
  split
  · rename_i hneg
    have hrun := natChars_digitRun n.natAbs
    unfold pyFloatBody
    rw [pySign_neg]
    simp only []
    rw [pyFloatSigned_run hrun, parseNat_natChars]
    have h1 : (n.natAbs : ℤ) = -n := by omega
    have h3 : ((n.natAbs : ℕ) : ℚ) = ((n.natAbs : ℤ) : ℚ) := by
      norm_cast
      rw [Int.abs_eq_natAbs]
      exact (Int.cast_natCast _).symm
    rw [h3, h1, Int.cast_neg]
    norm_num
  · rename_i hneg
    have hrun := natChars_digitRun n.natAbs
    obtain ⟨c0, t0, hnc⟩ : ∃ c0 t0, natChars n.natAbs = c0 :: t0 := by
      cases h : natChars n.natAbs with
      | nil => exact absurd h hrun.1
      | cons a b => exact ⟨a, b, rfl⟩
    rw [hnc] at hrun ⊢
    have hne := digit_ne (hrun.2 c0 (by simp))
    unfold pyFloatBody
    rw [pySign_plain hne.2.1 hne.2.2.1]
    simp only []
    rw [pyFloatSigned_run hrun, ← hnc, parseNat_natChars]
    have h1 : (n.natAbs : ℤ) = n := by omega
    have h3 : ((n.natAbs : ℕ) : ℚ) = ((n.natAbs : ℤ) : ℚ) := by
      norm_cast
      rw [Int.abs_eq_natAbs]
      exact (Int.cast_natCast _).symm
    rw [h3, h1, one_mul]

/-! ## `filter_frames` at the top level -/

theorem filter_frames_nil {s : String} (inc : ℚ) (b : Bool)
    (h : findallNumeric s.data = []) : filter_frames s inc b = .ok none := by
  unfold filter_frames
  rw [h]
  simp

theorem filter_frames_cons {s : String} {t ts} (inc : ℚ) (b : Bool)
    (h : findallNumeric s.data = t :: ts) :
    filter_frames s inc b =
      match (if b then t :: ts else autoExclude (t :: ts)).foldlM
          (procItem b inc) ⟨[], [], [], false⟩ with
      | .error e => .error e
      | .ok acc => .ok (some (postProcess b acc)) := by
  unfold filter_frames
  rw [h]
  simp

/-- `filter_frames` reports the no-frames outcome (`return None`) exactly
when the scanner finds no token in the input. -/
theorem filter_frames_none_iff (s : String) (inc : ℚ) (b : Bool) :
    filter_frames s inc b = .ok none ↔ findallNumeric s.data = [] := by
  cases h : findallNumeric s.data with
  | nil => simp [filter_frames_nil inc b h]
  | cons t ts =>
    rw [filter_frames_cons inc b h]
    constructor
    · intro hc
      split at hc <;> simp at hc
    · intro hc
      cases hc

/-! ## `float`, `around` and sorting on integer values -/

/-- The executable `Rat.ceil` agrees with the mathematical ceiling. -/
theorem rat_ceil_eq (q : ℚ) : q.ceil = ⌈q⌉ := by
  unfold Rat.ceil
  split
  · rename_i hden
    have hq : ((q.num : ℚ)) = q := by
      have := Rat.num_div_den q
      rw [hden] at this
      simpa using this
    conv_rhs => rw [← hq]
    rw [Int.ceil_intCast]
  · rename_i hden
    have hfl : ⌊q⌋ = q.num / q.den := Rat.floor_def
    have hne : ((⌊q⌋ : ℚ)) ≠ q := by
      intro h
      apply hden
      rw [← h, Rat.den_intCast]
    have hlt : ((⌊q⌋ : ℚ)) < q := lt_of_le_of_ne (Int.floor_le q) hne
    have hup : q < ((⌊q⌋ : ℚ)) + 1 := Int.lt_floor_add_one q
    have h1 : ⌈q⌉ ≤ ⌊q⌋ + 1 := Int.ceil_le.mpr (by push_cast; linarith)
    have h2 : ⌊q⌋ < ⌈q⌉ := Int.lt_ceil.mpr hlt
    rw [← hfl]
    omega

theorem roundHalfEven_intCast (z : ℤ) : roundHalfEven (z : ℚ) = z := by
  unfold roundHalfEven
  simp [Int.floor_intCast, sub_self]

theorem around5_intCast (z : ℤ) : around5 (z : ℚ) = (z : ℚ) := by
  unfold around5
  have h : (z : ℚ) * 100000 = ((z * 100000 : ℤ) : ℚ) := by push_cast; ring
  rw [h, roundHalfEven_intCast]
  push_cast
  field_simp

/-- `float()` fails on a digit run followed by a non-digit, non-dot
character. -/
theorem pyFloatSigned_mid {sgn : ℚ} {D : List Char} {c : Char} {r : List Char}
    (hD : DigitRun D) (hc : isDigitCh c = false) (hdot : c ≠ '.') :
    pyFloatSigned sgn (D ++ c :: r) = none := by
  have ht := takeWhile_run hD.2 (r := c :: r) (fun d hd => by
    simp only [List.head?_cons, Option.some.injEq] at hd
    subst hd
    exact hc)
  unfold pyFloatSigned
  simp [ht.1, ht.2, hdot]

/-- `float(str(a) + c + r)` fails for a non-digit, non-dot `c`. -/
theorem pyFloat_intChars_mid (a : ℤ) {c : Char} {r : List Char}
    (hsp : ∀ ch ∈ c :: r, isSpaceCh ch = false)
    (hc : isDigitCh c = false) (hdot : c ≠ '.') :
    pyFloat (intChars a ++ c :: r) = none := by
  have hns : ∀ ch ∈ intChars a ++ c :: r, isSpaceCh ch = false := by
    intro ch hch
    rcases List.mem_append.mp hch with h | h
    · rcases intChars_mem ch h with hd | hd
      · exact (digit_ne hd).1
      · subst hd; decide
    · exact hsp ch h
  unfold pyFloat pyStrip
  rw [strip_noSpace hns]
  unfold intChars
  split
  · rw [List.cons_append]
    unfold pyFloatBody
    rw [pySign_neg]
    exact pyFloatSigned_mid (natChars_digitRun _) hc hdot
  · have hrun := natChars_digitRun a.natAbs
    obtain ⟨c0, t0, hnc⟩ : ∃ c0 t0, natChars a.natAbs = c0 :: t0 := by
      cases h : natChars a.natAbs with
      | nil => exact absurd h hrun.1
      | cons x y => exact ⟨x, y, rfl⟩
    rw [hnc] at hrun ⊢
    have hne := digit_ne (hrun.2 c0 (by simp))
    unfold pyFloatBody
    rw [List.cons_append, pySign_plain hne.2.1 hne.2.2.1]
    rw [← List.cons_append]
    exact pyFloatSigned_mid hrun hc hdot

/-- `sorted(set(l))` is the identity on a strictly increasing list. -/
theorem pySortedSet_sorted {l : List ℚ} (h : l.Chain' (· < ·)) :
    pySortedSet l = l := by
  have hp : l.Pairwise (· < ·) := List.chain'_iff_pairwise.mp h
  have hnd : l.Nodup := hp.imp ne_of_lt
  have hs : l.Sorted (· ≤ ·) := hp.imp le_of_lt
  unfold pySortedSet
  rw [List.dedup_eq_self.mpr hnd, hs.insertionSort_eq]

theorem chain'_intCast {l : List ℤ} (h : l.Chain' (· < ·)) :
    (l.map fun z : ℤ => (z : ℚ)).Chain' (· < ·) := by
  rw [List.chain'_map]
  exact List.Chain'.imp (fun a b hab => by exact_mod_cast hab) h

/-- `postProcess` in global mode on an all-integer strictly increasing frame
list with no exclusions: the integer result. -/
theorem postProcess_global_ints {l : List ℤ} {cl : List ℚ} {flag : Bool}
    (h : l.Chain' (· < ·)) :
    postProcess false ⟨l.map fun z : ℤ => (z : ℚ), [], cl, flag⟩ = .ints l := by
  unfold postProcess
  simp only [Bool.false_eq_true, if_false]
  have hfilter : (l.map fun z : ℤ => (z : ℚ)).filter
      (fun q => decide (q ∉ ([] : List ℚ))) = l.map fun z : ℤ => (z : ℚ) :=
    List.filter_eq_self.mpr fun x _ => by simp
  rw [hfilter, pySortedSet_sorted (chain'_intCast h)]
  have hnone : ¬ none ∈ (l.map fun z : ℤ => (z : ℚ)).map int_filter := by
    intro hmem
    rw [List.map_map] at hmem
    obtain ⟨z, hz, hc⟩ := List.mem_map.mp hmem
    simp [Function.comp, int_filter, Rat.den_intCast] at hc
  rw [if_neg hnone]
  congr 1
  rw [List.map_map]
  have : (fun q : ℚ => q.num) ∘ (fun z : ℤ => (z : ℚ)) = id := by
    funext z
    simp [Function.comp, Rat.num_intCast]
  rw [this, List.map_id]

/-! ## Token character classes -/

/-- Characters of the tokens built from `str` of numbers: digits, `-`, `x`. -/
def NumTokChars (t : List Char) : Prop :=
  ∀ c ∈ t, isDigitCh c = true ∨ c = '-' ∨ c = 'x'

theorem numTokChars_intChars (a : ℤ) : NumTokChars (intChars a) := by
  intro c hc
  rcases intChars_mem c hc with h | h
  · exact Or.inl h
  · exact Or.inr (Or.inl h)

theorem numTokChars_natChars (n : ℕ) : NumTokChars (natChars n) := by
  intro c hc
  exact Or.inl ((natChars_digitRun n).2 c hc)

theorem numTokChars_append {t u : List Char} (ht : NumTokChars t)
    (hu : NumTokChars u) : NumTokChars (t ++ u) := by
  intro c hc
  rcases List.mem_append.mp hc with h | h
  · exact ht c h
  · exact hu c h

theorem numTokChars_cons {c : Char} {t : List Char}
    (hc : isDigitCh c = true ∨ c = '-' ∨ c = 'x') (ht : NumTokChars t) :
    NumTokChars (c :: t) := by
  intro d hd
  rcases List.mem_cons.mp hd with h | h
  · subst h; exact hc
  · exact ht d h

theorem numTok_not_mark {t : List Char} (h : NumTokChars t) :
    ∀ c ∈ t, c ≠ '^' ∧ c ≠ '!' := by
  intro c hc
  rcases h c hc with hd | hd | hd
  · exact ⟨(digit_ne hd).2.2.2.2.2.2.2.1, (digit_ne hd).2.2.2.2.2.2.2.2.1⟩
  · subst hd; exact ⟨by decide, by decide⟩
  · subst hd; exact ⟨by decide, by decide⟩

theorem numTok_no_space {t : List Char} (h : NumTokChars t) :
    ∀ c ∈ t, isSpaceCh c = false := by
  intro c hc
  rcases h c hc with hd | hd | hd
  · exact (digit_ne hd).1
  · subst hd; decide
  · subst hd; decide

theorem hasExcludeMark_eq_false {t : List Char} (h : ∀ c ∈ t, c ≠ '^' ∧ c ≠ '!') :
    hasExcludeMark t = false := by
  unfold hasExcludeMark
  simp only [Bool.or_eq_false_iff]
  constructor <;> {
    rw [List.contains_eq_any_beq]
    simp only [List.any_eq_false, beq_iff_eq]
    intro c hc
    first
      | exact fun he => (h c hc).1 he.symm
      | exact fun he => (h c hc).2 he.symm }

theorem startsExclude_eq_false {t : List Char} (h : ∀ c ∈ t, c ≠ '^' ∧ c ≠ '!') :
    startsExclude t = false := by
  unfold startsExclude
  cases t with
  | nil => rfl
  | cons c r =>
    have := h c (by simp)
    simp [this.1, this.2]

theorem autoExclude_id {toks : List (List Char)}
    (h : ∀ t ∈ toks, hasExcludeMark t = false) : autoExclude toks = toks := by
  unfold autoExclude
  rw [List.findIdx?_eq_none_iff.mpr h]

/-! ## The token loop on pure frame tokens -/

/-- A token that only ever appends frames: the fold of `procItem` over a
list of such tokens concatenates their expansions. -/
theorem procItem_foldAppend {inc : ℚ} {toks : List (List Char)}
    {f : List Char → List ℚ}
    (h : ∀ t ∈ toks, ∀ fl cl, procItem false inc ⟨fl, [], cl, false⟩ t =
      .ok ⟨fl ++ f t, [], cl, false⟩) :
    ∀ fl cl, toks.foldlM (procItem false inc) ⟨fl, [], cl, false⟩ =
      .ok ⟨fl ++ (toks.map f).flatten, [], cl, false⟩ := by
  induction toks with
  | nil =>
    intro fl cl
    simp only [List.foldlM_nil, List.map_nil, List.flatten_nil, List.append_nil]
    rfl
  | cons t ts ih =>
    intro fl cl
    rw [List.foldlM_cons, h t (by simp) fl cl]
    have := ih (fun u hu => h u (by simp [hu])) (fl ++ f t) cl
    show Except.bind _ _ = _
    rw [Except.bind, this]
    simp [List.append_assoc]

/-! ## Integer range expansion -/

theorem intRange_chain (a : ℤ) (n : ℕ) : (intRange a n).Chain' (· < ·) := by
  rw [List.chain'_iff_pairwise]
  unfold intRange
  exact (List.pairwise_lt_range n).map _ fun k l hkl => by omega

theorem intRange_snoc (a : ℤ) (n : ℕ) :
    intRange a (n + 1) = intRange a n ++ [a + n] := by
  unfold intRange
  rw [List.range_succ, List.map_append]
  rfl

theorem mem_intRange {a x : ℤ} {n : ℕ} : x ∈ intRange a n ↔ a ≤ x ∧ x < a + n := by
  unfold intRange
  simp only [List.mem_map, List.mem_range]
  constructor
  · rintro ⟨k, hk, rfl⟩
    omega
  · intro ⟨h1, h2⟩
    exact ⟨(x - a).toNat, by omega, by omega⟩

theorem arange_int (a b : ℤ) (s : ℕ) :
    arange (a : ℚ) (b : ℚ) (s : ℚ) =
      ((List.range (⌈((b : ℚ) - a) / s⌉.toNat)).map
        fun k : ℕ => a + (k : ℤ) * (s : ℤ)).map fun z : ℤ => (z : ℚ) := by
  unfold arange
  rw [rat_ceil_eq, List.map_map]
  refine List.map_congr_left fun k _ => ?_
  simp only [Function.comp]
  push_cast
  ring

theorem map_around5_intCast (l : List ℤ) :
    (l.map fun z : ℤ => (z : ℚ)).map around5 = l.map fun z : ℤ => (z : ℚ) := by
  rw [List.map_map]
  refine List.map_congr_left fun z _ => ?_
  simp [Function.comp, around5_intCast]

theorem ceil_int_div_one (z : ℤ) : ⌈((z : ℚ)) / 1⌉ = z := by
  rw [div_one, Int.ceil_intCast]

theorem getLast?_range_map {α : Type} (f : ℕ → α) (n : ℕ) (h : 0 < n) :
    ((List.range n).map f).getLast? = some (f (n - 1)) := by
  have hn : n = (n - 1) + 1 := by omega
  rw [hn, List.range_succ, List.map_append]
  simp

theorem except_foldlM_single {f : ParseAcc → List Char → Except Unit ParseAcc}
    {b : ParseAcc} {t : List Char} : [t].foldlM f b = f b t := by
  simp only [List.foldlM_cons, List.foldlM_nil]
  exact bind_pure _

/-! ## `procItem` on the token shapes of `str`-printed frames -/

/-- A bare integer token appends its value. -/
theorem procItem_intTok {inc : ℚ} (a : ℤ) : ∀ fl cl,
    procItem false inc ⟨fl, [], cl, false⟩ (intChars a) =
      .ok ⟨fl ++ [(a : ℚ)], [], cl, false⟩ := by
  intro fl cl
  simp only [procItem, pyFloat_intChars]
  rfl

/-- A plain range token `str(a)-str(b)`, `a ≠ b`, appends the integer range
from `min a b` to `max a b` inclusive (around, isclose and the default
step 1 collapse to exact integer arithmetic). -/
theorem procItem_rangeTok (a b : ℤ) (hne : a ≠ b) : ∀ fl cl,
    procItem false 1 ⟨fl, [], cl, false⟩ (intChars a ++ '-' :: intChars b) =
      .ok ⟨fl ++ (intRange (min a b) (max a b + 1 - min a b).toNat).map
        (fun z : ℤ => (z : ℚ)), [], cl, false⟩ := by
  intro fl cl
  have htok : NumTokChars (intChars a ++ '-' :: intChars b) :=
    numTokChars_append (numTokChars_intChars a)
      (numTokChars_cons (Or.inr (Or.inl rfl)) (numTokChars_intChars b))
  have hfl : pyFloat (intChars a ++ '-' :: intChars b) = none :=
    pyFloat_intChars_mid a
      (fun ch hch => numTok_no_space htok ch (by
        rcases List.mem_cons.mp hch with h | h
        · subst h; simp
        · simp [h]))
      (by decide) (by decide)
  have hex : excludeSearch (intChars a ++ '-' :: intChars b) = none :=
    excludeSearch_none (numTok_not_mark htok)
  have hrs := rangeSearch_rangeTok a b
  simp only [procItem, hfl, hex, hrs, pyFloat_intChars]
  have hmin : min (a : ℚ) (b : ℚ) = ((min a b : ℤ) : ℚ) := by push_cast; rfl
  have hmax : max (a : ℚ) (b : ℚ) = ((max a b : ℤ) : ℚ) := by push_cast; rfl
  rw [hmin, hmax]
  have hlt : ((min a b : ℤ) : ℚ) < ((max a b : ℤ) : ℚ) := by
    exact_mod_cast min_lt_max.mpr hne
  rw [if_pos hlt, if_neg (by norm_num)]
  set u := min a b with hu
  set v := max a b with hv
  have huv : u < v := min_lt_max.mpr hne
  have hn : ⌈((v : ℚ) - u) / 1⌉.toNat = (v - u).toNat := by
    have : (v : ℚ) - u = ((v - u : ℤ) : ℚ) := by push_cast; ring
    rw [this, ceil_int_div_one]
  have hone : ((1 : ℕ) : ℚ) = 1 := by norm_num
  have hfr : (arange (u : ℚ) (v : ℚ) 1).map around5 =
      (intRange u (v - u).toNat).map fun z : ℤ => (z : ℚ) := by
    rw [← hone, arange_int u v 1, map_around5_intCast, hone, hn]
    unfold intRange
    congr 1
    refine List.map_congr_left fun k _ => by push_cast; ring
  rw [hfr]
  have hlen : (v - u).toNat = (v - u).toNat - 1 + 1 := by omega
  have hlast : ((intRange u (v - u).toNat).map fun z : ℤ => (z : ℚ)).getLast? =
      some (((v - 1 : ℤ) : ℚ)) := by
    unfold intRange
    rw [List.map_map, hlen, getLast?_range_map _ _ (by omega)]
    simp only [Function.comp, Option.some.injEq]
    push_cast
    have h1 : (((v - u).toNat - 1 : ℕ) : ℚ) = ((v - u - 1 : ℤ) : ℚ) := by
      exact_mod_cast (by omega : (((v - u).toNat - 1 : ℕ) : ℤ) = v - u - 1)
    rw [h1]
    push_cast
    ring
  have hiscl : npisclose 1 ((v : ℚ) - ((v - 1 : ℤ) : ℚ)) = true := by
    have : (v : ℚ) - ((v - 1 : ℤ) : ℚ) = 1 := by push_cast; ring
    rw [this]
    norm_num [npisclose]
  have hse : startsExclude (intChars a ++ '-' :: intChars b) = false :=
    startsExclude_eq_false (numTok_not_mark htok)
  simp only [hlast, hiscl, hse, Bool.false_eq_true, if_false, if_true]
  congr 2
  have hsnoc : intRange u ((v - u).toNat + 1) =
      intRange u (v - u).toNat ++ [v] := by
    rw [intRange_snoc]
    congr 2
    omega
  have : (v + 1 - u).toNat = (v - u).toNat + 1 := by omega
  rw [this, hsnoc, List.map_append, List.append_assoc]
  rfl

/-! ## `filter_frames` on a single frame token -/

/-- Assemble `filter_frames` for an input that is one mark-free token. -/
theorem filter_frames_single_frameTok {tok : List Char} {vals : List ℚ}
    (hmatch : matchNumericAt tok = some (tok, []))
    (hmark : hasExcludeMark tok = false)
    (hproc : ∀ fl cl, procItem false 1 ⟨fl, [], cl, false⟩ tok =
      .ok ⟨fl ++ vals, [], cl, false⟩) :
    filter_frames (String.mk tok) 1 false =
      .ok (some (postProcess false ⟨vals, [], [], false⟩)) := by
  have hfa : findallNumeric (String.mk tok).data = [tok] := by
    show findallNumeric tok = [tok]
    rw [findallNumeric_match hmatch, findallNumeric_nil]
  rw [filter_frames_cons 1 false hfa]
  have hauto : autoExclude [tok] = [tok] :=
    autoExclude_id (by simpa using hmark)
  simp only [Bool.false_eq_true, if_false, hauto, except_foldlM_single,
    hproc [] [], List.nil_append]

/-- `filter_frames` on the plain range token `str(a)-str(b)`: the inclusive
integer range between the direction-normalized endpoints. -/
theorem filter_frames_rangeTok (a b : ℤ) (hne : a ≠ b) :
    filter_frames (String.mk (intChars a ++ '-' :: intChars b)) 1 false =
      .ok (some (.ints (intRange (min a b) (max a b + 1 - min a b).toNat))) := by
  have htok : NumTokChars (intChars a ++ '-' :: intChars b) :=
    numTokChars_append (numTokChars_intChars a)
      (numTokChars_cons (Or.inr (Or.inl rfl)) (numTokChars_intChars b))
  have hmatch : matchNumericAt (intChars a ++ '-' :: intChars b) =
      some (intChars a ++ '-' :: intChars b, []) := by
    have := matchNumericAt_rangeTok a b (r := []) (Or.inl rfl)
    simpa using this
  rw [filter_frames_single_frameTok hmatch
    (hasExcludeMark_eq_false (numTok_not_mark htok)) (procItem_rangeTok a b hne),
    postProcess_global_ints (intRange_chain _ _)]

/-! ## The increment token -/

theorem intChars_ofNat (n : ℕ) : intChars (n : ℤ) = natChars n := by
  unfold intChars
  rw [if_neg (by omega), Int.natAbs_ofNat]

/-- The expansion of a matched range-with-increment item, as the source
computes it: `ceil((stop-start)/step)` steps from the start, plus the stop
itself when the remaining distance is `isclose` to the step. -/
def incExpand (a b : ℤ) (s : ℕ) : List ℤ :=
  ((List.range (⌈((b : ℚ) - (a : ℚ)) / (s : ℚ)⌉.toNat)).map
    fun k : ℕ => a + (k : ℤ) * (s : ℤ)) ++
  (if npisclose (s : ℚ) ((b : ℚ) -
      ((a + ((⌈((b : ℚ) - (a : ℚ)) / (s : ℚ)⌉.toNat : ℤ) - 1) * (s : ℤ) : ℤ) : ℚ))
   then [b] else [])

theorem incExpand_ceil_facts (a b : ℤ) (s : ℕ) (hab : a < b) (hs : 0 < s) :
    0 < ⌈((b : ℚ) - (a : ℚ)) / (s : ℚ)⌉ ∧
      a + (((⌈((b : ℚ) - (a : ℚ)) / (s : ℚ)⌉.toNat : ℤ)) - 1) * (s : ℤ) < b := by
  have hsq : (0 : ℚ) < (s : ℚ) := by exact_mod_cast hs
  have hx : (0 : ℚ) < ((b : ℚ) - (a : ℚ)) / (s : ℚ) := by
    apply div_pos _ hsq
    have : (a : ℚ) < (b : ℚ) := by exact_mod_cast hab
    linarith
  have hpos := Int.ceil_pos.mpr hx
  refine ⟨hpos, ?_⟩
  have hlt := Int.ceil_lt_add_one (((b : ℚ) - (a : ℚ)) / (s : ℚ))
  have htn : ((⌈((b : ℚ) - (a : ℚ)) / (s : ℚ)⌉.toNat : ℤ)) =
      ⌈((b : ℚ) - (a : ℚ)) / (s : ℚ)⌉ := Int.toNat_of_nonneg (by omega)
  rw [htn]
  have h1 : ((⌈((b : ℚ) - (a : ℚ)) / (s : ℚ)⌉ : ℚ)) - 1 <
      ((b : ℚ) - (a : ℚ)) / (s : ℚ) := by linarith
  have h2 : (((⌈((b : ℚ) - (a : ℚ)) / (s : ℚ)⌉ : ℚ)) - 1) * (s : ℚ) <
      (b : ℚ) - (a : ℚ) := by
    rw [← lt_div_iff₀ hsq]
    exact h1
  have h3 : ((a + (⌈((b : ℚ) - (a : ℚ)) / (s : ℚ)⌉ - 1) * (s : ℤ) : ℤ) : ℚ) <
      (b : ℚ) := by
    push_cast
    linarith
  exact_mod_cast h3

theorem incExpand_chain (a b : ℤ) (s : ℕ) (hab : a < b) (hs : 0 < s) :
    (incExpand a b s).Chain' (· < ·) := by
  obtain ⟨hpos, hlast⟩ := incExpand_ceil_facts a b s hab hs
  unfold incExpand
  rw [List.chain'_iff_pairwise]
  set n := ⌈((b : ℚ) - (a : ℚ)) / (s : ℚ)⌉.toNat with hn
  have hstep : ∀ k l : ℕ, k < l →
      a + (k : ℤ) * (s : ℤ) < a + (l : ℤ) * (s : ℤ) := by
    intro k l hkl
    have : (k : ℤ) * (s : ℤ) < (l : ℤ) * (s : ℤ) :=
      mul_lt_mul_of_pos_right (by exact_mod_cast hkl) (by exact_mod_cast hs)
    omega
  have hL : ((List.range n).map fun k : ℕ =>
      a + (k : ℤ) * (s : ℤ)).Pairwise (· < ·) :=
    (List.pairwise_lt_range n).map _ fun k l hkl => hstep k l hkl
  rw [List.pairwise_append]
  refine ⟨hL, by split <;> simp, ?_⟩
  intro x hx y hy
  have hyb : y = b := by
    rcases hcl : npisclose (s : ℚ) ((b : ℚ) -
        ((a + ((n : ℤ) - 1) * (s : ℤ) : ℤ) : ℚ)) with _ | _
    · rw [hcl] at hy
      simp at hy
    · rw [hcl] at hy
      simpa using hy
  subst hyb
  obtain ⟨k, hk, rfl⟩ := List.mem_map.mp hx
  rw [List.mem_range] at hk
  have hk1 : (k : ℤ) ≤ (n : ℤ) - 1 := by omega
  have : (k : ℤ) * (s : ℤ) ≤ ((n : ℤ) - 1) * (s : ℤ) :=
    mul_le_mul_of_nonneg_right hk1 (by omega)
  omega

/-- `procItem` on a range-with-increment token `str(a)-BxS` with unsigned
`B`, `S`: the increment expansion. -/
theorem procItem_incTok (a : ℤ) (bn sn : ℕ) (hab : a < (bn : ℤ)) (hs : 0 < sn) :
    ∀ fl cl, procItem false 1 ⟨fl, [], cl, false⟩
        (intChars a ++ '-' :: (natChars bn ++ 'x' :: natChars sn)) =
      .ok ⟨fl ++ (incExpand a bn sn).map fun z : ℤ => (z : ℚ), [], cl, false⟩ := by
  intro fl cl
  have htok : NumTokChars (intChars a ++ '-' :: (natChars bn ++ 'x' :: natChars sn)) :=
    numTokChars_append (numTokChars_intChars a)
      (numTokChars_cons (Or.inr (Or.inl rfl))
        (numTokChars_append (numTokChars_natChars bn)
          (numTokChars_cons (Or.inr (Or.inr rfl)) (numTokChars_natChars sn))))
  have hfl : pyFloat (intChars a ++ '-' :: (natChars bn ++ 'x' :: natChars sn)) = none :=
    pyFloat_intChars_mid a
      (fun ch hch => numTok_no_space htok ch (by
        rcases List.mem_cons.mp hch with h | h
        · subst h; simp
        · simp [h]))
      (by decide) (by decide)
  have hex : excludeSearch (intChars a ++ '-' :: (natChars bn ++ 'x' :: natChars sn)) =
      none := excludeSearch_none (numTok_not_mark htok)
  have hrs := rangeSearch_incTok a (natChars_digitRun bn) (natChars_digitRun sn)
  have hg3 : pyFloat (natChars bn) = some (((bn : ℤ)) : ℚ) := by
    rw [← intChars_ofNat]
    exact pyFloat_intChars _
  have hg6 : pyFloat (natChars sn) = some (((sn : ℤ)) : ℚ) := by
    rw [← intChars_ofNat]
    exact pyFloat_intChars _
  simp only [procItem, hfl, hex, hrs, pyFloat_intChars, hg3, hg6]
  have hcb : (((bn : ℤ)) : ℚ) = ((bn : ℕ) : ℚ) := by push_cast; rfl
  have hcs : (((sn : ℤ)) : ℚ) = ((sn : ℕ) : ℚ) := by push_cast; rfl
  have habq : (a : ℚ) < ((bn : ℤ) : ℚ) := by exact_mod_cast hab
  have hmin : min (a : ℚ) (((bn : ℤ)) : ℚ) = (a : ℚ) := min_eq_left habq.le
  have hmax : max (a : ℚ) (((bn : ℤ)) : ℚ) = (((bn : ℤ)) : ℚ) := max_eq_right habq.le
  rw [hmin, hmax, if_pos habq]
  have hs0 : ¬ (((sn : ℤ)) : ℚ) = 0 := by
    intro h
    have : (sn : ℤ) = 0 := by exact_mod_cast h
    omega
  rw [if_neg hs0, hcs]
  obtain ⟨hpos, hlastlt⟩ := incExpand_ceil_facts a bn sn hab hs
  have hnpos : 0 < ⌈((((bn : ℤ)) : ℚ) - (a : ℚ)) / ((sn : ℕ) : ℚ)⌉.toNat := by
    omega
  have hfr : (arange (a : ℚ) (((bn : ℤ)) : ℚ) ((sn : ℕ) : ℚ)).map around5 =
      ((List.range (⌈((((bn : ℤ)) : ℚ) - (a : ℚ)) / ((sn : ℕ) : ℚ)⌉.toNat)).map
        fun k : ℕ => a + (k : ℤ) * (sn : ℤ)).map fun z : ℤ => (z : ℚ) := by
    rw [arange_int a ((bn : ℕ) : ℤ) sn, map_around5_intCast]
  rw [hfr]
  have hlast : ((((List.range
      (⌈((((bn : ℤ)) : ℚ) - (a : ℚ)) / ((sn : ℕ) : ℚ)⌉.toNat)).map
      fun k : ℕ => a + (k : ℤ) * (sn : ℤ)).map fun z : ℤ => (z : ℚ)).getLast? =
      some (((a + ((⌈((((bn : ℤ)) : ℚ) - (a : ℚ)) / ((sn : ℕ) : ℚ)⌉.toNat : ℤ) - 1) *
        (sn : ℤ) : ℤ)) : ℚ)) := by
    rw [List.map_map, getLast?_range_map _ _ hnpos]
    simp only [Function.comp, Option.some.injEq]
    have h9 : ((⌈((((bn : ℤ)) : ℚ) - (a : ℚ)) / ((sn : ℕ) : ℚ)⌉.toNat - 1 : ℕ) : ℤ) =
        (⌈((((bn : ℤ)) : ℚ) - (a : ℚ)) / ((sn : ℕ) : ℚ)⌉.toNat : ℤ) - 1 := by
      omega
    congr 1
    rw [h9]
  simp only [hlast]
  have hse : startsExclude (intChars a ++ '-' :: (natChars bn ++ 'x' :: natChars sn)) =
      false := startsExclude_eq_false (numTok_not_mark htok)
  simp only [hse, Bool.false_eq_true, if_false]
  congr 2
  rw [List.append_assoc]
  congr 1
  unfold incExpand
  rw [List.map_append]
  congr 1
  rw [apply_ite (List.map (fun z : ℤ => (z : ℚ)))]
  split <;> simp

/-- `filter_frames` on one increment token: the increment expansion as an
integer result. -/
theorem filter_frames_incTok (a : ℤ) (bn sn : ℕ) (hab : a < (bn : ℤ))
    (hs : 0 < sn) :
    filter_frames (String.mk (intChars a ++ '-' :: (natChars bn ++ 'x' ::
        natChars sn))) 1 false =
      .ok (some (.ints (incExpand a bn sn))) := by
  have hmatch := matchNumericAt_incTok a (natChars_digitRun bn)
    (natChars_digitRun sn)
  have htok : NumTokChars (intChars a ++ '-' :: (natChars bn ++ 'x' :: natChars sn)) :=
    numTokChars_append (numTokChars_intChars a)
      (numTokChars_cons (Or.inr (Or.inl rfl))
        (numTokChars_append (numTokChars_natChars bn)
          (numTokChars_cons (Or.inr (Or.inr rfl)) (numTokChars_natChars sn))))
  rw [filter_frames_single_frameTok hmatch
    (hasExcludeMark_eq_false (numTok_not_mark htok)) (procItem_incTok a bn sn hab hs),
    postProcess_global_ints (incExpand_chain a bn sn hab hs)]

/-! ## `groupby` structure -/

theorem groupAdjCore_head {α : Type} (R : α → α → Bool) (x : α) (l : List α) :
    ∃ g', (groupAdjCore R x l).1 = x :: g' := by
  cases l with
  | nil => exact ⟨[], rfl⟩
  | cons y t =>
    unfold groupAdjCore
    split
    · exact ⟨(groupAdjCore R y t).1, rfl⟩
    · exact ⟨[], rfl⟩

theorem groupAdjCore_flatten {α : Type} (R : α → α → Bool) :
    ∀ (l : List α) (x : α),
      (groupAdjCore R x l).1 ++ ((groupAdjCore R x l).2).flatten = x :: l := by
  intro l
  induction l with
  | nil => intro x; rfl
  | cons y t ih =>
    intro x
    unfold groupAdjCore
    split
    · simp only [List.cons_append]
      rw [ih y]
    · simp only [List.singleton_append, List.flatten_cons]
      rw [ih y]

theorem groupAdjCore_chainS {α : Type} {R : α → α → Bool} {S : α → α → Prop} :
    ∀ {l : List α} {x : α}, (x :: l).Chain' S →
      (groupAdjCore R x l).1.Chain' S ∧
        ∀ g ∈ (groupAdjCore R x l).2, g.Chain' S := by
  intro l
  induction l with
  | nil => intro x _; exact ⟨List.chain'_singleton x, by simp [groupAdjCore]⟩
  | cons y t ih =>
    intro x hx
    have hxy : S x y := (List.chain'_cons.mp hx).1
    have htail : (y :: t).Chain' S := (List.chain'_cons.mp hx).2
    obtain ⟨hg, hgs⟩ := ih htail
    unfold groupAdjCore
    split
    · constructor
      · obtain ⟨g', hg'⟩ := groupAdjCore_head R y t
        rw [List.chain'_cons']
        refine ⟨?_, hg⟩
        intro b hb
        rw [hg'] at hb
        simp only [List.head?_cons, Option.mem_def, Option.some.injEq] at hb
        subst hb
        exact hxy
      · exact hgs
    · refine ⟨List.chain'_singleton x, ?_⟩
      intro g hgmem
      rcases List.mem_cons.mp hgmem with h | h
      · subst h; exact hg
      · exact hgs g h

theorem groupAdjCore_chainR {α : Type} (R : α → α → Bool) :
    ∀ (l : List α) (x : α),
      (groupAdjCore R x l).1.Chain' (fun a b => R a b = true) ∧
        ∀ g ∈ (groupAdjCore R x l).2, g.Chain' (fun a b => R a b = true) := by
  intro l
  induction l with
  | nil => intro x; exact ⟨List.chain'_singleton x, by simp [groupAdjCore]⟩
  | cons y t ih =>
    intro x
    obtain ⟨hg, hgs⟩ := ih y
    unfold groupAdjCore
    split
    · rename_i hR
      constructor
      · obtain ⟨g', hg'⟩ := groupAdjCore_head R y t
        rw [List.chain'_cons']
        refine ⟨?_, hg⟩
        intro b hb
        rw [hg'] at hb
        simp only [List.head?_cons, Option.mem_def, Option.some.injEq] at hb
        subst hb
        exact hR
      · exact hgs
    · refine ⟨List.chain'_singleton x, ?_⟩
      intro g hgmem
      rcases List.mem_cons.mp hgmem with h | h
      · subst h; exact hg
      · exact hgs g h

theorem groupAdj_flatten {α : Type} (R : α → α → Bool) (l : List α) :
    (groupAdj R l).flatten = l := by
  cases l with
  | nil => rfl
  | cons x xs =>
    unfold groupAdj
    rw [List.flatten_cons]
    exact groupAdjCore_flatten R xs x

theorem groupAdj_chainS {α : Type} {R : α → α → Bool} {S : α → α → Prop}
    {l : List α} (h : l.Chain' S) : ∀ g ∈ groupAdj R l, g.Chain' S := by
  cases l with
  | nil => simp [groupAdj]
  | cons x xs =>
    intro g hg
    obtain ⟨h1, h2⟩ := groupAdjCore_chainS (R := R) h
    rcases List.mem_cons.mp hg with hh | hh
    · subst hh; exact h1
    · exact h2 g hh

theorem groupAdj_chainR {α : Type} (R : α → α → Bool) (l : List α) :
    ∀ g ∈ groupAdj R l, g.Chain' (fun a b => R a b = true) := by
  cases l with
  | nil => simp [groupAdj]
  | cons x xs =>
    intro g hg
    obtain ⟨h1, h2⟩ := groupAdjCore_chainR R xs x
    rcases List.mem_cons.mp hg with hh | hh
    · subst hh; exact h1
    · exact h2 g hh

theorem groupAdj_ne_nil {α : Type} (R : α → α → Bool) (l : List α) :
    ∀ g ∈ groupAdj R l, g ≠ [] := by
  have hcore : ∀ (t : List α) (x : α), ∀ g ∈ (groupAdjCore R x t).2, g ≠ [] := by
    intro t
    induction t with
    | nil => intro x g hg; simp [groupAdjCore] at hg
    | cons y r ih =>
      intro x g hg
      unfold groupAdjCore at hg
      split at hg
      · exact ih y g hg
      · rcases List.mem_cons.mp hg with hh | hh
        · subst hh
          obtain ⟨g', hg'⟩ := groupAdjCore_head R y r
          rw [hg']
          simp
        · exact ih y g hh
  cases l with
  | nil => simp [groupAdj]
  | cons x xs =>
    intro g hg
    rcases List.mem_cons.mp hg with hh | hh
    · subst hh
      obtain ⟨g', hg'⟩ := groupAdjCore_head R x xs
      rw [hg']
      simp
    · exact hcore xs x g hh

/-! ## Consecutive runs -/

theorem intRange_cons (a : ℤ) (n : ℕ) :
    intRange a (n + 1) = a :: intRange (a + 1) n := by
  unfold intRange
  rw [List.range_succ_eq_map, List.map_cons, List.map_map]
  simp only [Nat.cast_zero, add_zero, List.cons.injEq, true_and]
  refine List.map_congr_left fun k _ => ?_
  simp only [Function.comp, Nat.succ_eq_add_one]
  push_cast
  ring

/-- A consecutive run is the integer range from its head. -/
theorem consecRun_eq_intRange :
    ∀ (w : List ℤ), w.Chain' (fun a b => b = a + 1) →
      w = intRange (w.headD 0) w.length := by
  intro w
  induction w with
  | nil => intro _; rfl
  | cons x t ih =>
    intro h
    cases t with
    | nil => simp [intRange, List.range_succ]
    | cons y r =>
      have hxy : y = x + 1 := (List.chain'_cons.mp h).1
      have ht := ih (List.chain'_cons.mp h).2
      simp only [List.headD_cons] at ht ⊢
      rw [List.length_cons, intRange_cons]
      rw [← hxy]
      exact congrArg (x :: ·) ht

theorem getLastD_intRange (a : ℤ) (n : ℕ) (h : 0 < n) :
    (intRange a n).getLastD 0 = a + ((n : ℤ) - 1) := by
  have hn : n = (n - 1) + 1 := by omega
  rw [hn, intRange_snoc]
  have : ((n - 1 : ℕ) : ℤ) = (n : ℤ) - 1 := by omega
  simp [this]

/-! ## The compactor round trip -/

theorem getLastD_cons₂ (a b : ℤ) (t : List ℤ) :
    (a :: b :: t).getLastD 0 = (b :: t).getLastD 0 := by
  simp [List.getLastD]

theorem numTokChars_groupTok (w : List ℤ) : NumTokChars (groupTok w) := by
  unfold groupTok
  match w with
  | [] => intro c hc; simp at hc
  | [x] => exact numTokChars_intChars x
  | x :: y :: t =>
    exact numTokChars_append (numTokChars_intChars x)
      (numTokChars_cons (Or.inr (Or.inl rfl)) (numTokChars_intChars _))

/-- A nonempty consecutive run prints as a token that scans as one item. -/
theorem matchNumericAt_groupTok {w : List ℤ} (hw : w ≠ []) :
    ∀ r, SepHead r → matchNumericAt (groupTok w ++ r) = some (groupTok w, r) := by
  intro r hr
  unfold groupTok
  match w with
  | [x] => exact matchNumericAt_intTok x hr
  | x :: y :: t =>
    simp only [List.append_assoc, List.cons_append]
    have := matchNumericAt_rangeTok x ((y :: t).getLastD 0) (r := r) hr
    simpa using this

/-- `procItem` appends the values of a consecutive run's token. -/
theorem procItem_groupTok {w : List ℤ} (hw : w ≠ [])
    (hchain : w.Chain' (fun a b => b = a + 1)) :
    ∀ fl cl, procItem false 1 ⟨fl, [], cl, false⟩ (groupTok w) =
      .ok ⟨fl ++ w.map (fun z : ℤ => (z : ℚ)), [], cl, false⟩ := by
  intro fl cl
  match w with
  | [x] => exact procItem_intTok x fl cl
  | x :: y :: t =>
    have hrun := consecRun_eq_intRange (x :: y :: t) hchain
    simp only [List.headD_cons, List.length_cons] at hrun
    have hlen : 0 < t.length + 1 + 1 := by omega
    have hlast : ((y :: t).getLastD 0) = x + ((t.length + 1 + 1 : ℕ) : ℤ) - 1 := by
      have h1 : (x :: y :: t).getLastD 0 = (y :: t).getLastD 0 := getLastD_cons₂ x y t
      rw [← h1, hrun, getLastD_intRange _ _ hlen]
      push_cast
      ring
    have hcount : (((y :: t).getLastD 0) + 1 - x).toNat = t.length + 1 + 1 := by
      rw [hlast]
      omega
    have hxv : x < (y :: t).getLastD 0 := by
      rw [hlast]
      push_cast
      omega
    have hproc := procItem_rangeTok x ((y :: t).getLastD 0) (ne_of_lt hxv) fl cl
    rw [min_eq_left hxv.le, max_eq_right hxv.le, hcount, ← hrun] at hproc
    show procItem false 1 ⟨fl, [], cl, false⟩
      (intChars x ++ '-' :: intChars ((y :: t).getLastD 0)) = _
    exact hproc

/-- The fold of the token loop over a list of run tokens. -/
theorem foldlM_groupToks {gs : List (List ℤ)}
    (h : ∀ g ∈ gs, g ≠ [] ∧ g.Chain' (fun a b => b = a + 1)) :
    ∀ fl cl, (gs.map groupTok).foldlM (procItem false 1) ⟨fl, [], cl, false⟩ =
      .ok ⟨fl ++ gs.flatten.map (fun z : ℤ => (z : ℚ)), [], cl, false⟩ := by
  induction gs with
  | nil =>
    intro fl cl
    simp only [List.map_nil, List.foldlM_nil, List.flatten_nil, List.append_nil]
    rfl
  | cons g gs' ih =>
    intro fl cl
    obtain ⟨hne, hch⟩ := h g (by simp)
    rw [List.map_cons, List.foldlM_cons, procItem_groupTok hne hch fl cl]
    show Except.bind _ _ = _
    rw [Except.bind, ih (fun u hu => h u (by simp [hu])) _ cl]
    simp [List.append_assoc]

/-- Every chain relation of a list is inherited by the groups of its
`groupby`, pairwise-conjoined with the grouping relation. -/
theorem chain'_and {α : Type} {R S : α → α → Prop} :
    ∀ {l : List α}, l.Chain' R → l.Chain' S →
      l.Chain' (fun a b => R a b ∧ S a b) := by
  intro l
  induction l with
  | nil => intro _ _; trivial
  | cons x t ih =>
    intro hR hS
    rw [List.chain'_cons'] at hR hS ⊢
    exact ⟨fun b hb => ⟨hR.1 b hb, hS.1 b hb⟩, ih hR.2 hS.2⟩

/-- Keyed by `index - value`, adjacent entries with equal keys hold
consecutive values. -/
theorem keyed_chainS (xs : List ℤ) :
    ((xs.enum).map fun p => ((p.1 : ℤ) - p.2, p.2)).Chain'
      (fun a b => (a.1 = b.1 → b.2 = a.2 + 1)) := by
  have haux : ∀ (l : List ℤ) (n : ℕ),
      ((l.enumFrom n).map fun p => ((p.1 : ℤ) - p.2, p.2)).Chain'
        (fun a b => (a.1 = b.1 → b.2 = a.2 + 1)) := by
    intro l
    induction l with
    | nil => intro n; trivial
    | cons x t ih =>
      intro n
      rw [List.enumFrom_cons, List.map_cons, List.chain'_cons']
      refine ⟨?_, ih (n + 1)⟩
      intro b hb
      cases t with
      | nil => simp at hb
      | cons y r =>
        rw [List.enumFrom_cons, List.map_cons, List.head?_cons] at hb
        simp only [Option.mem_def, Option.some.injEq] at hb
        subst hb
        intro hk
        simp only at hk ⊢
        omega
  exact haux xs 0

/-- The value groups of `rangify_frames`: nonempty consecutive runs whose
concatenation is the input. -/
theorem rangify_groups_props (xs : List ℤ) :
    (∀ w ∈ ((groupAdj (fun a b => a.1 == b.1)
        ((xs.enum).map fun p => ((p.1 : ℤ) - p.2, p.2))).map
          fun g => g.map Prod.snd),
      w ≠ [] ∧ w.Chain' (fun a b => b = a + 1)) ∧
    ((groupAdj (fun a b => a.1 == b.1)
        ((xs.enum).map fun p => ((p.1 : ℤ) - p.2, p.2))).map
          fun g => g.map Prod.snd).flatten = xs := by
  set keyed := (xs.enum).map fun p => ((p.1 : ℤ) - p.2, p.2) with hkeyed
  constructor
  · intro w hw
    obtain ⟨g, hg, rfl⟩ := List.mem_map.mp hw
    have hne := groupAdj_ne_nil _ keyed g hg
    have hR := groupAdj_chainR _ keyed g hg
    have hS := groupAdj_chainS (R := fun a b => a.1 == b.1) (keyed_chainS xs) g hg
    refine ⟨by simpa using hne, ?_⟩
    have hT := chain'_and hR hS
    rw [List.chain'_map]
    refine hT.imp ?_
    intro a b hab
    exact hab.2 (by simpa using hab.1)
  · rw [← List.map_flatten, groupAdj_flatten, hkeyed, List.map_map]
    have : Prod.snd ∘ (fun p : ℕ × ℤ => ((p.1 : ℤ) - p.2, p.2)) = Prod.snd := by
      funext p
      rfl
    rw [this, List.enum_map_snd]

/-- `parse(compact(xs)) = xs` for every nonempty strictly increasing `xs`. -/
theorem rangify_roundTrip (xs : List ℤ) (hne : xs ≠ [])
    (hchain : xs.Chain' (· < ·)) :
    filter_frames (String.mk (rangify_frames xs)) 1 false =
      .ok (some (.ints xs)) := by
  obtain ⟨hprops, hflat⟩ := rangify_groups_props xs
  set gs := (groupAdj (fun a b => a.1 == b.1)
      ((xs.enum).map fun p => ((p.1 : ℤ) - p.2, p.2))).map
        fun g => g.map Prod.snd with hgs
  have hgs_ne : gs ≠ [] := by
    intro h
    apply hne
    rw [← hflat, h]
    rfl
  have hdata : (String.mk (rangify_frames xs)).data =
      joinChars ',' (gs.map groupTok) := rfl
  have hfa : findallNumeric (String.mk (rangify_frames xs)).data =
      gs.map groupTok := by
    rw [hdata]
    exact findall_joinTokens fun t ht r hr => by
      obtain ⟨w, hwmem, rfl⟩ := List.mem_map.mp ht
      exact matchNumericAt_groupTok (hprops w hwmem).1 r hr
  obtain ⟨t0, ts, hts⟩ : ∃ t0 ts, gs.map groupTok = t0 :: ts := by
    cases h : gs.map groupTok with
    | nil =>
      rw [List.map_eq_nil_iff] at h
      exact absurd h hgs_ne
    | cons a b => exact ⟨a, b, rfl⟩
  rw [filter_frames_cons 1 false (by rw [hfa, hts])]
  have hauto : autoExclude (t0 :: ts) = t0 :: ts := by
    apply autoExclude_id
    intro t ht
    rw [← hts] at ht
    obtain ⟨w, hwmem, rfl⟩ := List.mem_map.mp ht
    exact hasExcludeMark_eq_false (numTok_not_mark (numTokChars_groupTok w))
  simp only [Bool.false_eq_true, if_false, hauto]
  rw [← hts]
  simp only [foldlM_groupToks (fun g hg => hprops g hg) [] [], hflat,
    List.nil_append]
  rw [postProcess_global_ints hchain]

/-! ## Restoration of the output paths -/

/-- Shape invariant between the nodes recorded at the start of a run and
the current nodes: layer flags and (for non-layer nodes) slot counts never
change, and layer nodes' slots are never touched. -/
def NodesOK (orig cur : List OutNode) : Prop :=
  List.Forall₂ (fun o n =>
    n.is_layer = o.is_layer ∧
    (if o.is_layer then n.slots = o.slots
     else n.slots.length = o.slots.length)) orig cur

theorem nodesOK_refl (orig : List OutNode) : NodesOK orig orig := by
  unfold NodesOK
  rw [List.forall₂_same]
  intro x _
  exact ⟨rfl, by split <;> rfl⟩

theorem zipWith_const_left {α β : Type} :
    ∀ (l1 : List α) (l2 : List β), l1.length ≤ l2.length →
      List.zipWith (fun s _ => s) l1 l2 = l1 := by
  intro l1
  induction l1 with
  | nil => intro l2 _; rfl
  | cons a t ih =>
    intro l2 h
    cases l2 with
    | nil => simp at h
    | cons b u =>
      rw [List.zipWith_cons_cons, ih u (by simpa using h)]

/-- `frame_repath` keeps the node shapes. -/
theorem nodesOK_repath {env : Env} {cfg : Config} {f : SchedFrame}
    {orig cur : List OutNode} (h : NodesOK orig cur) :
    NodesOK orig (List.zipWith (nodeRepath env cfg f) cur
      (orig.map (nodeRecord env))) := by
  induction h with
  | nil => exact List.Forall₂.nil
  | cons hpair htail ih =>
    rename_i o n os ns
    rw [List.map_cons, List.zipWith_cons_cons]
    refine List.Forall₂.cons ?_ ih
    have h1 := hpair.1
    have h2 := hpair.2
    cases ho : o.is_layer with
    | true =>
      rw [ho] at h2
      simp only [if_true] at h2
      simp [nodeRepath, nodeRecord, ho, h1, h2]
    | false =>
      rw [ho] at h2
      simp only [Bool.false_eq_true, if_false] at h2
      simp [nodeRepath, nodeRecord, ho, h1, h2]

/-- `reset_output_paths` puts the recorded nodes back. -/
theorem reset_restores {env : Env} {orig cur : List OutNode}
    (h : NodesOK orig cur) :
    List.zipWith resetNode cur (orig.map (nodeRecord env)) = orig := by
  induction h with
  | nil => rfl
  | cons hpair htail ih =>
    rename_i o n os ns
    rw [List.map_cons, List.zipWith_cons_cons, ih]
    congr 1
    obtain ⟨obp, osl, oil⟩ := o
    obtain ⟨nbp, nsl, nl⟩ := n
    simp only at hpair
    cases oil with
    | true =>
      simp only [if_true] at hpair
      simp [resetNode, nodeRecord, hpair.1, hpair.2]
    | false =>
      simp only [Bool.false_eq_true, if_false] at hpair
      simp [resetNode, nodeRecord, hpair.1,
        zipWith_const_left osl nsl (le_of_eq hpair.2.symm)]

theorem frame_repath_nodes (env : Env) (cfg : Config) (scene : Scene)
    (f : SchedFrame) :
    (frame_repath env cfg scene f).nodes =
      List.zipWith (nodeRepath env cfg f) scene.nodes cfg.records := by
  unfold frame_repath
  cases f <;> rfl

/-- A `FINISHED` transition hands back the reset scene with the recorded
render/skip lists. -/
theorem modalStep_finished {env : Env} {cfg : Config} {scene : Scene}
    {op : OpState} {e : Ev} {s : Scene} {r k : List SchedFrame}
    (h : modalStep env cfg scene op e = .finished s r k) :
    s = reset_output_paths cfg scene ∧ r = op.rendered ∧ k = op.skipped := by
  cases e with
  | timer =>
    simp only [modalStep] at h
    split at h
    · rw [StepRes.finished.injEq] at h
      obtain ⟨rfl, rfl, rfl⟩ := h
      exact ⟨rfl, rfl, rfl⟩
    · split at h
      · split at h
        · simp at h
        · split at h
          · simp at h
          · simp at h
      · simp at h
  | complete =>
    simp [modalStep] at h
  | cancel =>
    simp [modalStep] at h

/-- Every continuing transition keeps the node-shape invariant. -/
theorem modalStep_cont_nodes {env : Env} {cfg : Config}
    {orig : List OutNode} (hrec : cfg.records = orig.map (nodeRecord env))
    {scene : Scene} {op : OpState} {e : Ev} {s' : Scene} {o' : OpState}
    (hok : NodesOK orig scene.nodes)
    (h : modalStep env cfg scene op e = .cont s' o') :
    NodesOK orig s'.nodes := by
  cases e with
  | timer =>
    simp only [modalStep] at h
    split at h
    · simp at h
    · split at h
      · split at h
        · rw [StepRes.cont.injEq] at h
          obtain ⟨rfl, rfl⟩ := h
          exact hok
        · split at h
          · rw [StepRes.cont.injEq] at h
            obtain ⟨rfl, rfl⟩ := h
            show NodesOK orig (frame_repath env cfg scene _).nodes
            rw [frame_repath_nodes, hrec]
            exact nodesOK_repath hok
          · rw [StepRes.cont.injEq] at h
            obtain ⟨rfl, rfl⟩ := h
            show NodesOK orig (frame_repath env cfg scene _).nodes
            rw [frame_repath_nodes, hrec]
            exact nodesOK_repath hok
      · rw [StepRes.cont.injEq] at h
        obtain ⟨rfl, rfl⟩ := h
        exact hok
  | complete =>
    simp only [modalStep] at h
    rw [StepRes.cont.injEq] at h
    obtain ⟨rfl, rfl⟩ := h
    exact hok
  | cancel =>
    simp only [modalStep] at h
    rw [StepRes.cont.injEq] at h
    obtain ⟨rfl, rfl⟩ := h
    show NodesOK orig (reset_output_paths cfg scene).nodes
    have hre : (reset_output_paths cfg scene).nodes = orig := by
      show List.zipWith resetNode scene.nodes cfg.records = orig
      rw [hrec]
      exact reset_restores hok
    rw [hre]
    exact nodesOK_refl orig

/-- Wherever the modal loop reports `FINISHED`, the scene's main output
path and all node paths have been reset to the recorded values. -/
theorem runModal_finished_restores {env : Env} {cfg : Config}
    {orig : List OutNode} (hrec : cfg.records = orig.map (nodeRecord env)) :
    ∀ (evs : List Ev) (scene : Scene) (op : OpState) s r k,
      NodesOK orig scene.nodes →
      runModal env cfg scene op evs = .finished s r k →
      s.filepath = cfg.output_path ∧ s.nodes = orig := by
  intro evs
  induction evs with
  | nil =>
    intro scene op s r k hok h
    simp [runModal] at h
  | cons e es ih =>
    intro scene op s r k hok h
    cases hstep : modalStep env cfg scene op e with
    | finished s' r' k' =>
      simp only [runModal, hstep] at h
      obtain ⟨rfl, rfl, rfl⟩ := h
      obtain ⟨hs, _, _⟩ := modalStep_finished hstep
      subst hs
      refine ⟨rfl, ?_⟩
      show List.zipWith resetNode scene.nodes cfg.records = orig
      rw [hrec]
      exact reset_restores hok
    | cont s' o' =>
      simp only [runModal, hstep] at h
      exact ih s' o' s r k (modalStep_cont_nodes hrec hok hstep) h

/-- The silent loop keeps the node-shape invariant. -/
theorem silentLoop_nodesOK {env : Env} {cfg : Config} {orig : List OutNode}
    (hrec : cfg.records = orig.map (nodeRecord env)) :
    ∀ (N i : ℕ) (scene : Scene) (frames rendered skipped : List SchedFrame),
      frames.length - i ≤ N → NodesOK orig scene.nodes →
      NodesOK orig (silentLoop env cfg i scene frames rendered skipped).1.nodes := by
  intro N
  induction N with
  | zero =>
    intro i scene frames rendered skipped hN hok
    unfold silentLoop
    rw [dif_neg (by omega)]
    exact hok
  | succ N ih =>
    intro i scene frames rendered skipped hN hok
    unfold silentLoop
    by_cases hi : i < frames.length
    · rw [dif_pos hi]
      have hok' : NodesOK orig (frame_repath env cfg scene (frames.get ⟨i, hi⟩)).nodes := by
        rw [frame_repath_nodes, hrec]
        exact nodesOK_repath hok
      split
      · apply ih
        · have : frames.tail.length = frames.length - 1 := by
            cases frames <;> simp
          omega
        · exact hok'
      · apply ih
        · omega
        · exact hok'
    · rw [dif_neg hi]
      exact hok

theorem silentLoop_nodesOK' {env : Env} {cfg : Config} {orig : List OutNode}
    (hrec : cfg.records = orig.map (nodeRecord env)) (i : ℕ) (scene : Scene)
    (frames rendered skipped : List SchedFrame)
    (hok : NodesOK orig scene.nodes) :
    NodesOK orig (silentLoop env cfg i scene frames rendered skipped).1.nodes :=
  silentLoop_nodesOK hrec frames.length i scene frames rendered skipped
    (by omega) hok

/-- What `execute` establishes when it hands over to the modal loop. -/
theorem execute_modal_inv {env : Env} {opts : ExecOpts} {scene scene' : Scene}
    {cfg : Config} {op : OpState}
    (h : execute env opts scene = .modalStarted scene' cfg op) :
    scene' = scene ∧ cfg.records = scene.nodes.map (nodeRecord env) ∧
      cfg.output_path = scene.filepath ∧ op.rendered = [] ∧
      op.skipped = [] ∧ op.stop = false ∧ op.rendering = false ∧
      cfg.dec = (if cfg.subframe_flag then decWidth op.frames else 0) := by
  unfold execute at h
  repeat' split at h
  all_goals first
    | (simp at h
       done)
    | (rw [ExecRes.modalStarted.injEq] at h
       obtain ⟨rfl, rfl, rfl⟩ := h
       exact ⟨rfl, rfl, rfl, rfl, rfl, rfl, rfl, rfl⟩)
    | (rw [ite_eq_iff] at h
       rcases h with ⟨hc, h⟩ | ⟨hc, h⟩
       · simp at h
       · first
           | (simp at h
              done)
           | (rw [ExecRes.modalStarted.injEq] at h
              obtain ⟨rfl, rfl, rfl⟩ := h
              exact ⟨rfl, rfl, rfl, rfl, rfl, rfl, rfl, rfl⟩))

/-- What `execute` reports after a silent run. -/
theorem execute_silent_inv {env : Env} {opts : ExecOpts} {scene s : Scene}
    {r k : List SchedFrame}
    (h : execute env opts scene = .silentDone s r k) :
    s.filepath = scene.filepath ∧ s.nodes = scene.nodes := by
  unfold execute at h
  repeat' split at h
  all_goals first
    | (simp at h
       done)
    | (rw [ExecRes.silentDone.injEq] at h
       obtain ⟨rfl, rfl, rfl⟩ := h
       refine ⟨rfl, ?_⟩
       show List.zipWith resetNode _ (scene.nodes.map (nodeRecord env)) =
         scene.nodes
       apply reset_restores
       exact silentLoop_nodesOK' rfl 0 scene _ [] []
         (nodesOK_refl scene.nodes))
    | (rw [ite_eq_iff] at h
       rcases h with ⟨hc, h⟩ | ⟨hc, h⟩
       · simp at h
       · first
           | (simp at h
              done)
           | (rw [ExecRes.silentDone.injEq] at h
              obtain ⟨rfl, rfl, rfl⟩ := h
              refine ⟨rfl, ?_⟩
              show List.zipWith resetNode _ (scene.nodes.map (nodeRecord env)) =
                scene.nodes
              apply reset_restores
              exact silentLoop_nodesOK' rfl 0 scene _ [] []
                (nodesOK_refl scene.nodes)))

/-! ## Rendered-frame accounting -/

theorem modalStep_finished_cond {env : Env} {cfg : Config} {scene : Scene}
    {op : OpState} {e : Ev} {s : Scene} {r k : List SchedFrame}
    (h : modalStep env cfg scene op e = .finished s r k) :
    op.frames = [] ∨ op.stop = true := by
  cases e with
  | timer =>
    simp only [modalStep] at h
    split at h
    · rename_i hc
      exact hc
    · split at h
      · split at h
        · simp at h
        · split at h
          · simp at h
          · simp at h
      · simp at h
  | complete => simp [modalStep] at h
  | cancel => simp [modalStep] at h

/-- The rendered list tracks exactly the completed frames: `done` is the
list of frames whose completion has been observed so far. -/
theorem runModal_rendered {env : Env} {cfg : Config} :
    ∀ (evs : List Ev) (scene : Scene) (op : OpState) (done : List SchedFrame)
      (s : Scene) (r k : List SchedFrame),
      (op.stop = false → op.rendered =
        done ++ (if op.rendering then op.frames.take 1 else [])) →
      (op.stop = true → op.rendered = done) →
      (done ++ op.frames).Nodup →
      (op.rendering = true → op.frames ≠ []) →
      ValidRun env cfg scene op evs = true →
      runModal env cfg scene op evs = .finished s r k →
      r = done ++ completedFrames env cfg scene op evs := by
  intro evs
  induction evs with
  | nil =>
    intro scene op done s r k _ _ _ _ _ h
    simp [runModal] at h
  | cons e es ih =>
    intro scene op done s r k h1 h2 h3 h4 hv h
    rw [ValidRun] at hv
    cases hstep : modalStep env cfg scene op e with
    | finished s' r' k' =>
      simp only [runModal, hstep] at h
      obtain ⟨rfl, rfl, rfl⟩ := h
      obtain ⟨_, hr', _⟩ := modalStep_finished hstep
      subst hr'
      simp only [completedFrames, hstep, List.append_nil]
      cases hstop : op.stop with
      | true => exact h2 hstop
      | false =>
        rcases modalStep_finished_cond hstep with hfr | hst
        · rw [h1 hstop, hfr]
          split <;> simp
        · rw [hstop] at hst
          cases hst
    | cont s' o' =>
      simp only [runModal, hstep] at h
      rw [hstep] at hv
      simp only [Bool.and_eq_true] at hv
      obtain ⟨hvA, hvB, hvC⟩ := hv
      simp only [completedFrames, hstep]
      cases e with
      | timer =>
        simp only [modalStep] at hstep
        have hcompl : (if Ev.timer = Ev.complete then op.frames.take 1 else []) =
            ([] : List SchedFrame) := by simp
        rw [hcompl, List.nil_append]
        split at hstep
        · simp at hstep
        · rename_i hcond
          split at hstep
          · rename_i hrend
            split at hstep
            · rw [StepRes.cont.injEq] at hstep
              obtain ⟨rfl, rfl⟩ := hstep
              exact ih _ _ done s r k h1 h2 h3 h4 hvC h
            · rename_i f rest hframes
              split at hstep
              · rw [StepRes.cont.injEq] at hstep
                obtain ⟨rfl, rfl⟩ := hstep
                have hstop : op.stop = false := by
                  rcases not_or.mp hcond with ⟨_, hs⟩
                  simpa using hs
                refine ih _ _ done s r k ?_ ?_ ?_ ?_ hvC h
                · intro _
                  have := h1 hstop
                  rw [hrend] at this
                  simpa using this
                · intro _
                  show op.rendered = done
                  have := h1 hstop
                  rw [hrend] at this
                  simpa using this
                · rw [hframes] at h3
                  exact (List.Sublist.append_left
                    (List.sublist_cons_self f rest) done).nodup h3
                · intro hcontra
                  simp at hcontra
              · rw [StepRes.cont.injEq] at hstep
                obtain ⟨rfl, rfl⟩ := hstep
                have hstop : op.stop = false := by
                  rcases not_or.mp hcond with ⟨_, hs⟩
                  simpa using hs
                have hdone : op.rendered = done := by
                  have := h1 hstop
                  rw [hrend] at this
                  simpa using this
                have hfnot : f ∉ done := by
                  rw [hframes] at h3
                  have hd := List.disjoint_of_nodup_append h3
                  intro hmem
                  exact hd hmem (by simp)
                refine ih _ _ done s r k ?_ ?_ ?_ ?_ hvC h
                · intro _
                  show (if f ∈ op.rendered then op.rendered else op.rendered ++ [f]) =
                    done ++ (if (true : Bool) = true then op.frames.take 1 else [])
                  rw [hdone, if_neg hfnot, hframes]
                  simp
                · intro hcontra
                  rw [hstop] at hcontra
                  cases hcontra
                · exact h3
                · intro _
                  rw [hframes]
                  simp
          · rw [StepRes.cont.injEq] at hstep
            obtain ⟨rfl, rfl⟩ := hstep
            exact ih _ _ done s r k h1 h2 h3 h4 hvC h
      | complete =>
        have hvA' : (op.rendering = true ∧ op.stop = false) ∧ ¬op.frames = [] := by
          simpa using hvA
        obtain ⟨⟨hrend, hstop⟩, hfne⟩ := hvA'
        obtain ⟨f, rest, hframes⟩ : ∃ f rest, op.frames = f :: rest := by
          cases hfr : op.frames with
          | nil => exact absurd hfr hfne
          | cons a b => exact ⟨a, b, rfl⟩
        simp only [modalStep] at hstep
        rw [StepRes.cont.injEq] at hstep
        obtain ⟨rfl, rfl⟩ := hstep
        have hdone : op.rendered = done ++ [f] := by
          have := h1 hstop
          rw [hrend, hframes] at this
          simpa using this
        have hrec := ih _ _ (done ++ [f]) s r k ?_ ?_ ?_ ?_ hvC h
        · rw [hrec, hframes]
          simp
        · intro _
          simp only []
          rw [hdone]
          simp
        · intro hcontra
          rw [hstop] at hcontra
          cases hcontra
        · have htail : op.frames.tail = rest := by rw [hframes]; rfl
          rw [hframes] at h3
          simpa [htail] using h3
        · intro hcontra
          simp at hcontra
      | cancel =>
        have hvB' : op.rendering = true ∧ op.stop = false := by
          simpa using hvB
        obtain ⟨hrend, hstop⟩ := hvB'
        have hfne : op.frames ≠ [] := h4 hrend
        obtain ⟨f, rest, hframes⟩ : ∃ f rest, op.frames = f :: rest := by
          cases hfr : op.frames with
          | nil => exact absurd hfr hfne
          | cons a b => exact ⟨a, b, rfl⟩
        simp only [modalStep] at hstep
        rw [StepRes.cont.injEq] at hstep
        obtain ⟨rfl, rfl⟩ := hstep
        have hdone : op.rendered = done ++ [f] := by
          have := h1 hstop
          rw [hrend, hframes] at this
          simpa using this
        have hrec := ih _ _ done s r k ?_ ?_ ?_ ?_ hvC h
        · rw [hrec]
          simp
        · intro hcontra
          simp at hcontra
        · intro _
          show op.rendered.dropLast = done
          rw [hdone]
          simp
        · exact h3
        · intro hr
          exact h4 (by simpa using hr)

/-! ## Batch-wide fractional width (`self._dec`) -/

theorem init_le_foldl_max (l : List ℕ) : ∀ a : ℕ, a ≤ l.foldl max a := by
  induction l with
  | nil => intro a; simp
  | cons y t ih => intro a; exact le_trans (le_max_left a y) (ih (max a y))

theorem mem_le_foldl_max {l : List ℕ} : ∀ {x : ℕ}, x ∈ l → ∀ a : ℕ, x ≤ l.foldl max a := by
  induction l with
  | nil => intro x hx; cases hx
  | cons y t ih =>
    intro x hx a
    rcases List.mem_cons.mp hx with rfl | hx
    · exact le_trans (le_max_right a x) (init_le_foldl_max t (max a x))
    · exact ih hx (max a y)

/-- Every sub-frame's fractional digit count is bounded by the batch
maximum `self._dec`. -/
theorem decWidth_bound {frames : List SchedFrame} {m : ℤ} {fd : List ℕ}
    (h : SchedFrame.sub m fd ∈ frames) : fd.length ≤ decWidth frames := by
  unfold decWidth
  exact @mem_le_foldl_max
    (frames.map fun f => match f with | .int _ => 0 | .sub _ fd => fd.length)
    fd.length (List.mem_map.mpr ⟨SchedFrame.sub m fd, h, rfl⟩) 0

/-- Formatting with a width at least the digit count keeps every digit and
pads to exactly the requested width. -/
theorem formatFracPart_length {fd : List ℕ} {dec : ℕ} (h : fd.length ≤ dec) :
    (formatFracPart fd dec).length = dec := by
  unfold formatFracPart
  rw [List.length_append, List.length_map, List.length_replicate]
  omega

/-! ## Missing-frame computation -/

/-- Characterization of `missing_frames` on a non-empty list: the result is
ascending and holds exactly the integers of the span `frames[0] ..
frames[-1]` that are not in `frames`. -/
theorem missing_frames_char (a : ℤ) (t : List ℤ) :
    ∃ ms, missing_frames (a :: t) = .ok ms ∧
      ms.Chain' (· < ·) ∧
      ∀ x : ℤ, x ∈ ms ↔ a ≤ x ∧ x ≤ (a :: t).getLastD 0 ∧ x ∉ a :: t := by
  refine ⟨(intRange a ((a :: t).getLastD 0 + 1 - a).toNat).filter
      (fun x => decide (x ∉ a :: t)), rfl, ?_, ?_⟩
  · have hchain := intRange_chain a ((a :: t).getLastD 0 + 1 - a).toNat
    have hpw : ((intRange a ((a :: t).getLastD 0 + 1 - a).toNat).filter
        (fun x => decide (x ∉ a :: t))).Pairwise (· < ·) :=
      List.Pairwise.sublist (List.filter_sublist _)
        (List.chain'_iff_pairwise.mp hchain)
    exact List.chain'_iff_pairwise.mpr hpw
  · intro x
    rw [List.mem_filter, mem_intRange, decide_eq_true_iff]
    constructor
    · rintro ⟨⟨hax, hxb⟩, hnm⟩
      refine ⟨hax, by omega, hnm⟩
    · rintro ⟨hax, hxb, hnm⟩
      refine ⟨⟨hax, by omega⟩, hnm⟩

/-! ## Sub-frame decomposition bounds -/

theorem foldl_digits_lt {fd : List ℕ} (h : ∀ d ∈ fd, d < 10) :
    ∀ acc : ℕ, fd.foldl (fun a d => 10 * a + d) acc < (acc + 1) * 10 ^ fd.length := by
  induction fd with
  | nil => intro acc; simp
  | cons d t ih =>
    intro acc
    have hd : d < 10 := h d (by simp)
    have ht : ∀ x ∈ t, x < 10 := fun x hx => h x (by simp [hx])
    have hrec := ih ht (10 * acc + d)
    have hmul : (10 * acc + d + 1) * 10 ^ t.length ≤ (acc + 1) * 10 ^ (t.length + 1) := by
      have h1 : 10 * acc + d + 1 ≤ (acc + 1) * 10 := by omega
      calc (10 * acc + d + 1) * 10 ^ t.length
          ≤ (acc + 1) * 10 * 10 ^ t.length := Nat.mul_le_mul_right _ h1
        _ = (acc + 1) * 10 ^ (t.length + 1) := by ring
    simpa [List.length_cons] using lt_of_lt_of_le hrec hmul

theorem fracValue_nonneg (fd : List ℕ) : 0 ≤ fracValue fd := by
  unfold fracValue
  positivity

theorem fracValue_lt_one {fd : List ℕ} (h : ∀ d ∈ fd, d < 10) :
    fracValue fd < 1 := by
  unfold fracValue
  rw [div_lt_one (by positivity)]
  have hn := foldl_digits_lt h 0
  rw [Nat.zero_add, one_mul] at hn
  exact_mod_cast hn

/-- Under the non-negativity precondition, each pair of `subframes` is an
exact integer/fraction split of the value, in queue order. -/
theorem subframes_split {fl : List DecRepr}
    (h : ∀ d ∈ fl, d.neg = false ∧ d.wf) :
    List.Forall₂ (fun (d : DecRepr) (p : ℤ × ℚ) =>
      (p.1 : ℚ) + p.2 = d.val ∧ 0 ≤ p.2 ∧ p.2 < 1) fl (subframes fl) := by
  unfold subframes
  rw [List.forall₂_map_right_iff]
  refine List.forall₂_same.mpr ?_
  intro d hd
  obtain ⟨hneg, _, hdig⟩ := h d hd
  refine ⟨?_, fracValue_nonneg _, fracValue_lt_one hdig⟩
  unfold DecRepr.val DecRepr.mainInt
  rw [hneg]
  simp

/-! ## `execute`'s early-cancellation paths -/

/-- When the parser returns `None`, `execute` cancels with the report
before touching any path. -/
theorem execute_none_cancel {env : Env} {opts : ExecOpts} {scene : Scene}
    (h : filter_frames opts.frames opts.frame_step opts.isolate_numbers = .ok none) :
    execute env opts scene = .cancelled scene "No frames to render" := by
  unfold execute
  rw [h]

/-- When the parsed frame set is empty, `execute` cancels with the report
before touching any path. -/
theorem execute_empty_cancel {env : Env} {opts : ExecOpts} {scene : Scene}
    {fr : FrameResult}
    (h : filter_frames opts.frames opts.frame_step opts.isolate_numbers =
      .ok (some fr)) (he : fr.isEmpty = true) :
    execute env opts scene = .cancelled scene "No frames to render" := by
  unfold execute
  rw [h]
  simp [he]

/-! ## Concrete execution fixtures -/

/-- An environment in which no target file exists and no path holds
globals. -/
def envM : Env :=
  { rg := fun s => s
    join := fun a b => a ++ "/" ++ b
    splitPath := fun s => ("", s)
    splitext := fun s => (s, "")
    abspath := fun s => s
    realpath := fun s => s
    isfile := fun _ => false
    isdir := fun _ => true
    has_globals := fun _ => false
    blend_name := "blend" }

/-- One non-multilayer file-output node. -/
def nodeM : OutNode := { base_path := "bp", slots := ["s1"], is_layer := false }

/-- A scene with overwrite enabled and one output node. -/
def sceneM : Scene :=
  { filepath := "out", use_overwrite := true, nodes := [nodeM]
    cur_frame := 0, cur_subframe := 0, is_rendering := false }

/-- Modal run over the integer frames 1-3. -/
def optsM : ExecOpts :=
  { frames := "1-3", isolate_numbers := false, render_silent := false
    digits := 4, frame_step := 1 }

/-- The per-run constants `execute envM optsM sceneM` records. -/
def cfgM : Config :=
  { digits := 4, dec := 0, subframe_flag := false, output_path := "out"
    folder := "", filename := "out", extension := "png"
    records := [{ base_path := "bp", folder := "", filename := "bp"
                  slots := some ["s1"] }] }

/-- The initial operator state of that run. -/
def opM : OpState :=
  { frames := [.int 1, .int 2, .int 3], rendered := [], skipped := []
    stop := false, rendering := false }

/-- A trace in which frame 1 completes and the user cancels while frame 2
is awaiting completion. -/
def evsM : List Ev := [.timer, .complete, .timer, .cancel, .timer]

/-- The scene in which that run reports `FINISHED`. -/
def sceneF : Scene :=
  { filepath := "out", use_overwrite := true, nodes := [nodeM]
    cur_frame := 2, cur_subframe := 0, is_rendering := true }

/-- Modal run over the sub-frames 0.5 and 1.25. -/
def optsF : ExecOpts :=
  { frames := "0.5,1.25", isolate_numbers := false, render_silent := false
    digits := 4, frame_step := 1 }

/-- The per-run constants `execute envM optsF sceneM` records. -/
def cfgF : Config :=
  { digits := 4, dec := 2, subframe_flag := true, output_path := "out"
    folder := "", filename := "out", extension := "png"
    records := [{ base_path := "bp", folder := "", filename := "bp"
                  slots := some ["s1"] }] }

/-- The initial operator state of the sub-frame run. -/
def opF : OpState :=
  { frames := [.sub 0 [5], .sub 1 [2, 5]], rendered := [], skipped := []
    stop := false, rendering := false }

/-- An input no grammar production matches. -/
def optsX : ExecOpts :=
  { frames := "xyz", isolate_numbers := false, render_silent := false
    digits := 4, frame_step := 1 }

/-- An environment in which exactly the target file of frame 1 exists. -/
def envS : Env := { envM with isfile := fun p => p == "/out0001.png" }

/-- A scene with overwrite disabled and no output nodes. -/
def sceneS : Scene :=
  { filepath := "out", use_overwrite := false, nodes := []
    cur_frame := 0, cur_subframe := 0, is_rendering := false }

/-- Silent run over the integer frames 1-3. -/
def optsS : ExecOpts :=
  { frames := "1-3", isolate_numbers := false, render_silent := true
    digits := 4, frame_step := 1 }

/-! ## The claims -/

/-- C1: on every exit path of the render scheduler — modal completion of
the queue, cancellation (the modal loop only reports `FINISHED` through
`reset_output_paths`), and silent-mode completion — the main render output
path and every recorded output-node path are restored to their pre-run
values. -/
theorem C1_restore_paths (env : Env) (opts : ExecOpts) (scene : Scene) :
    (∀ (scene' : Scene) (cfg : Config) (op : OpState) (evs : List Ev)
        (s : Scene) (r k : List SchedFrame),
      execute env opts scene = .modalStarted scene' cfg op →
      runModal env cfg scene' op evs = .finished s r k →
      s.filepath = scene.filepath ∧ s.nodes = scene.nodes) ∧
    (∀ (s : Scene) (r k : List SchedFrame),
      execute env opts scene = .silentDone s r k →
      s.filepath = scene.filepath ∧ s.nodes = scene.nodes) := by
  constructor
  · intro scene' cfg op evs s r k hex hrun
    obtain ⟨rfl, hrec, hout, -, -, -, -, -⟩ := execute_modal_inv hex
    have hres := runModal_finished_restores hrec evs scene' op s r k
      (nodesOK_refl scene'.nodes) hrun
    rw [hout] at hres
    exact hres
  · intro s r k hex
    exact execute_silent_inv hex

/-- Witness for C1 at the concrete fixture: the run started by `execute`,
driven to cancellation, ends in a scene with the original paths. -/
theorem C1_restore_paths_witness :
    execute envM optsM sceneM = .modalStarted sceneM cfgM opM ∧
    runModal envM cfgM sceneM opM evsM = .finished sceneF [.int 1] [] ∧
    (sceneF.filepath = sceneM.filepath ∧ sceneF.nodes = sceneM.nodes) :=
  ⟨by with_unfolding_all rfl, by with_unfolding_all rfl,
   (C1_restore_paths envM optsM sceneM).1 sceneM cfgM opM evsM sceneF
     [.int 1] [] (by with_unfolding_all rfl) (by with_unfolding_all rfl)⟩

/-- C2: the claimed global-mode auto-exclusion does not hold when the
first exclude-marked item is the first token: the source's
`if first_exclude_item:` is false at index 0, so global-mode
`parse("^1,2,3")` yields [2, 3], not the claimed empty set (the isolate
mode value [2, 3] and the auto-exclusion from position 1 on, as in
`parse("1,^2,3")` = [1], do hold). -/
theorem C2_exclude_first_bug :
    filter_frames "^1,2,3" 1 false = .ok (some (.ints [2, 3])) ∧
    filter_frames "^1,2,3" 1 true = .ok (some (.ints [2, 3])) ∧
    filter_frames "1,^2,3" 1 false = .ok (some (.ints [1])) ∧
    FrameResult.ints [2, 3] ≠ FrameResult.ints [] :=
  ⟨by with_unfolding_all rfl, by with_unfolding_all rfl,
   by with_unfolding_all rfl, by simp⟩

/-- C3: a range item expands from the direction-normalized minimum to the
maximum endpoint; with an increment suffix it is generated by repeated
addition of the step with the end value appended exactly when the
remaining distance is `isclose` to the step (`incExpand`); concretely
parse "1-5" = parse "5-1" = [1..5] and parse "1-10x2" = [1,3,5,7,9]. -/
theorem C3_range_expansion :
    (∀ a b : ℤ, a ≠ b →
      filter_frames (String.mk (intChars a ++ '-' :: intChars b)) 1 false =
        .ok (some (.ints (intRange (min a b) (max a b + 1 - min a b).toNat)))) ∧
    (∀ (a : ℤ) (bn sn : ℕ), a < (bn : ℤ) → 0 < sn →
      filter_frames (String.mk (intChars a ++ '-' ::
          (natChars bn ++ 'x' :: natChars sn))) 1 false =
        .ok (some (.ints (incExpand a bn sn)))) ∧
    filter_frames "1-5" 1 false = .ok (some (.ints [1, 2, 3, 4, 5])) ∧
    filter_frames "5-1" 1 false = .ok (some (.ints [1, 2, 3, 4, 5])) ∧
    filter_frames "1-10x2" 1 false = .ok (some (.ints [1, 3, 5, 7, 9])) :=
  ⟨fun a b hne => filter_frames_rangeTok a b hne,
   fun a bn sn hab hs => filter_frames_incTok a bn sn hab hs,
   by with_unfolding_all rfl, by with_unfolding_all rfl,
   by with_unfolding_all rfl⟩

/-- Witness for C3 at concrete endpoints: the token 1-5 and the increment
token 1-10x2. -/
theorem C3_range_expansion_witness :
    ((1 : ℤ) ≠ 5 ∧ (1 : ℤ) < ((10 : ℕ) : ℤ) ∧ 0 < 2) ∧
    filter_frames (String.mk (intChars 1 ++ '-' :: intChars 5)) 1 false =
      .ok (some (.ints (intRange (min (1 : ℤ) 5)
        (max (1 : ℤ) 5 + 1 - min (1 : ℤ) 5).toNat))) ∧
    filter_frames (String.mk (intChars 1 ++ '-' ::
        (natChars 10 ++ 'x' :: natChars 2))) 1 false =
      .ok (some (.ints (incExpand 1 10 2))) :=
  ⟨⟨by decide, by decide, by decide⟩,
   C3_range_expansion.1 1 5 (by decide),
   C3_range_expansion.2.1 1 10 2 (by decide) (by decide)⟩

/-- C4: the compactor prints maximal consecutive runs as start-end tokens
(singleton runs as single numbers), compact [1,2,3,7,9,10] = 1-3,7,9-10,
and for every non-empty strictly increasing integer list the parser
recovers the list from the compacted string.  (On the empty list the
round trip fails: see the counterexample.) -/
theorem C4_compact_roundtrip (xs : List ℤ) (hne : xs ≠ [])
    (hsort : xs.Chain' (· < ·)) :
    filter_frames (String.mk (rangify_frames xs)) 1 false =
      .ok (some (.ints xs)) ∧
    String.mk (rangify_frames [1, 2, 3, 7, 9, 10]) = "1-3,7,9-10" :=
  ⟨rangify_roundTrip xs hne hsort, by with_unfolding_all rfl⟩

/-- Witness for C4 on the spec's own example list. -/
theorem C4_compact_roundtrip_witness :
    ([1, 2, 3, 7, 9, 10] : List ℤ) ≠ [] ∧
    List.Chain' (· < ·) ([1, 2, 3, 7, 9, 10] : List ℤ) ∧
    (filter_frames (String.mk (rangify_frames [1, 2, 3, 7, 9, 10])) 1 false =
        .ok (some (.ints [1, 2, 3, 7, 9, 10])) ∧
      String.mk (rangify_frames [1, 2, 3, 7, 9, 10]) = "1-3,7,9-10") :=
  ⟨by decide, by norm_num [List.chain'_cons],
   C4_compact_roundtrip [1, 2, 3, 7, 9, 10] (by decide)
     (by norm_num [List.chain'_cons])⟩

/-- C4 counterexample: the empty list is strictly increasing, its
compaction is the empty string, and the parser returns the no-frames
outcome on it rather than the empty frame list. -/
theorem C4_empty_string_counterexample :
    List.Chain' (· < ·) ([] : List ℤ) ∧ rangify_frames [] = [] ∧
    filter_frames (String.mk (rangify_frames [])) 1 false = .ok none :=
  ⟨List.chain'_nil, rfl, by with_unfolding_all rfl⟩

/-- C5: over any valid signal trace, the rendered list of a finished modal
run holds exactly the frames whose completion signal arrived — a frame in
flight at cancellation is not counted; in the concrete three-frame run
with cancel while frame 2 awaits completion, the rendered list is [1],
the skipped list is empty, and the paths are restored. -/
theorem C5_cancel_accounting :
    (∀ (env : Env) (cfg : Config) (scene : Scene) (op : OpState)
        (evs : List Ev) (s : Scene) (r k : List SchedFrame),
      op.rendered = [] → op.rendering = false → op.frames.Nodup →
      ValidRun env cfg scene op evs = true →
      runModal env cfg scene op evs = .finished s r k →
      r = completedFrames env cfg scene op evs) ∧
    runModal envM cfgM sceneM opM evsM = .finished sceneF [.int 1] [] ∧
    completedFrames envM cfgM sceneM opM evsM = [.int 1] ∧
    ValidRun envM cfgM sceneM opM evsM = true ∧
    sceneF.filepath = sceneM.filepath ∧ sceneF.nodes = sceneM.nodes := by
  refine ⟨?_, by with_unfolding_all rfl, by with_unfolding_all rfl,
    by with_unfolding_all rfl, rfl, rfl⟩
  intro env cfg scene op evs s r k hrd hrg hnd hv h
  have hres := runModal_rendered evs scene op [] s r k ?_ ?_ ?_ ?_ hv h
  · simpa using hres
  · intro _
    rw [hrd, hrg]
    simp
  · intro _
    exact hrd
  · simpa using hnd
  · intro hc
    rw [hrg] at hc
    cases hc

/-- Witness for C5: the concrete cancelled run, with its hypotheses
discharged by evaluation. -/
theorem C5_cancel_accounting_witness :
    (opM.rendered = [] ∧ opM.rendering = false ∧ opM.frames.Nodup ∧
      ValidRun envM cfgM sceneM opM evsM = true ∧
      runModal envM cfgM sceneM opM evsM = .finished sceneF [.int 1] []) ∧
    [SchedFrame.int 1] = completedFrames envM cfgM sceneM opM evsM :=
  ⟨⟨rfl, rfl, by decide, by with_unfolding_all rfl, by with_unfolding_all rfl⟩,
   C5_cancel_accounting.1 envM cfgM sceneM opM evsM sceneF [.int 1] []
     rfl rfl (by decide) (by with_unfolding_all rfl)
     (by with_unfolding_all rfl)⟩

/-- C6: the skip accounting of the silent loop loses frames: with frames
1-3 queued, frame 1's target on disk and overwrite disabled, the run
skips frame 1 but then both advances the iteration index and pops the
queue, so frame 2 is in neither the rendered list [3] nor the skipped
list [1] — contradicting the claim that every queued frame is recorded in
one of the two lists. -/
theorem C6_silent_skip_bug :
    filter_frames optsS.frames optsS.frame_step optsS.isolate_numbers =
      .ok (some (.ints [1, 2, 3])) ∧
    execute envS optsS sceneS =
      .silentDone { filepath := "out", use_overwrite := false, nodes := []
                    cur_frame := 3, cur_subframe := 0, is_rendering := false }
        [SchedFrame.int 3] [SchedFrame.int 1] ∧
    SchedFrame.int 2 ∉ [SchedFrame.int 3] ∧
    SchedFrame.int 2 ∉ [SchedFrame.int 1] :=
  ⟨by with_unfolding_all rfl, by with_unfolding_all rfl, by decide, by decide⟩

/-- C7: the no-frames outcome is reported exactly when no token of the
grammar matches anywhere in the input; tokens that do match contribute
even between unmatched junk; and on the empty outcome `execute` cancels
with the report before touching any state.  (The never-hard-fails half of
the claim is refuted by the counterexample.) -/
theorem C7_parse_policy :
    (∀ (s : String) (inc : ℚ) (b : Bool),
      filter_frames s inc b = .ok none ↔ findallNumeric s.data = []) ∧
    filter_frames "abc,1-3,def" 1 false = .ok (some (.ints [1, 2, 3])) ∧
    (∀ (env : Env) (opts : ExecOpts) (scene : Scene),
      filter_frames opts.frames opts.frame_step opts.isolate_numbers = .ok none →
      execute env opts scene = .cancelled scene "No frames to render") ∧
    (∀ (env : Env) (opts : ExecOpts) (scene : Scene) (fr : FrameResult),
      filter_frames opts.frames opts.frame_step opts.isolate_numbers =
        .ok (some fr) → fr.isEmpty = true →
      execute env opts scene = .cancelled scene "No frames to render") :=
  ⟨filter_frames_none_iff, by with_unfolding_all rfl,
   fun env opts scene h => execute_none_cancel h,
   fun env opts scene fr h he => execute_empty_cancel h he⟩

/-- Witness for C7: an input matching no production cancels the run with
the report. -/
theorem C7_parse_policy_witness :
    filter_frames optsX.frames optsX.frame_step optsX.isolate_numbers =
      .ok none ∧
    execute envM optsX sceneM = .cancelled sceneM "No frames to render" :=
  ⟨by with_unfolding_all rfl,
   C7_parse_policy.2.2.1 envM optsX sceneM (by with_unfolding_all rfl)⟩

/-- C7 counterexample: a range whose increment suffix is negative
expands to the empty list and the parser hard-fails on the item
(frame_range[-1] raises IndexError) instead of dropping it. -/
theorem C7_hard_fail_counterexample :
    filter_frames "1-5x-1" 1 false = .error () :=
  by with_unfolding_all rfl

/-- C8: in a sub-frame run, `execute` fixes the fractional width once as
the batch maximum `decWidth` of the queue, and every frame's fractional
suffix is then formatted at exactly that width; the batch 1.0, 1.25, 2.5
gets width 2. -/
theorem C8_suffix_width :
    (∀ (env : Env) (opts : ExecOpts) (scene scene' : Scene) (cfg : Config)
        (op : OpState),
      execute env opts scene = .modalStarted scene' cfg op →
      cfg.subframe_flag = true →
      cfg.dec = decWidth op.frames ∧
      ∀ (m : ℤ) (fd : List ℕ), SchedFrame.sub m fd ∈ op.frames →
        (formatFracPart fd cfg.dec).length = cfg.dec) ∧
    decWidth (toSchedFrames (.floats [1, 5/4, 5/2])) = 2 := by
  constructor
  · intro env opts scene scene' cfg op hex hflag
    obtain ⟨-, -, -, -, -, -, -, hdec⟩ := execute_modal_inv hex
    rw [hflag] at hdec
    simp only [if_pos] at hdec
    refine ⟨hdec, ?_⟩
    intro m fd hmem
    rw [hdec]
    exact formatFracPart_length (decWidth_bound hmem)
  · with_unfolding_all rfl

/-- Witness for C8 on the concrete sub-frame run over 0.5 and 1.25. -/
theorem C8_suffix_width_witness :
    (execute envM optsF sceneM = .modalStarted sceneM cfgF opF ∧
      cfgF.subframe_flag = true ∧
      SchedFrame.sub 1 [2, 5] ∈ opF.frames) ∧
    cfgF.dec = decWidth opF.frames ∧
    (formatFracPart [2, 5] cfgF.dec).length = cfgF.dec :=
  ⟨⟨by with_unfolding_all rfl, rfl, by decide⟩,
   (C8_suffix_width.1 envM optsF sceneM sceneM cfgF opF
     (by with_unfolding_all rfl) rfl).1,
   (C8_suffix_width.1 envM optsF sceneM sceneM cfgF opF
     (by with_unfolding_all rfl) rfl).2 1 [2, 5] (by decide)⟩

/-- C9: on a non-empty list, `missing_frames` succeeds with an ascending
list holding exactly the integers of the observed first-to-last span that
are absent from the input — never a value outside the span; concretely
missing [1,2,4,5] = [3], and the empty list is the error case. -/
theorem C9_missing_inside_span :
    (∀ (a : ℤ) (t : List ℤ),
      ∃ ms, missing_frames (a :: t) = .ok ms ∧
        ms.Chain' (· < ·) ∧
        ∀ x : ℤ, x ∈ ms ↔ a ≤ x ∧ x ≤ (a :: t).getLastD 0 ∧ x ∉ a :: t) ∧
    missing_frames [1, 2, 4, 5] = .ok [3] ∧
    missing_frames [] = .error () :=
  ⟨missing_frames_char, by rfl, rfl⟩

/-- C10: under the precondition that every queued value is non-negative
with a dotted decimal representation, `subframes` splits each value into
an integer main part and a fractional part in the interval from 0
inclusive to 1 exclusive whose sum is the value, preserving queue order
pairwise. -/
theorem C10_subframe_split (fl : List DecRepr)
    (h : ∀ d ∈ fl, d.neg = false ∧ d.wf) :
    List.Forall₂ (fun (d : DecRepr) (p : ℤ × ℚ) =>
      (p.1 : ℚ) + p.2 = d.val ∧ 0 ≤ p.2 ∧ p.2 < 1) fl (subframes fl) :=
  subframes_split h

/-- Witness for C10 on the decimal reading of 1.25. -/
theorem C10_subframe_split_witness :
    (∀ d ∈ [DecRepr.mk false 1 [2, 5]], d.neg = false ∧ d.wf) ∧
    List.Forall₂ (fun (d : DecRepr) (p : ℤ × ℚ) =>
      (p.1 : ℚ) + p.2 = d.val ∧ 0 ≤ p.2 ∧ p.2 < 1)
      [DecRepr.mk false 1 [2, 5]] (subframes [DecRepr.mk false 1 [2, 5]]) :=
  ⟨fun d hd => by
      rw [List.mem_singleton] at hd
      subst hd
      exact ⟨rfl, by decide, by decide⟩,
   C10_subframe_split [DecRepr.mk false 1 [2, 5]] (fun d hd => by
      rw [List.mem_singleton] at hd
      subst hd
      exact ⟨rfl, by decide, by decide⟩)⟩

end Loom



